import Mathlib

/-! Tunnel routing: reduction to propositional satisfiability.

A shallow embedding of `src/TunnelRouting/TunnelReduction.c`.

* C `int` values are Lean `Int`s.  The coordinates of the variables (`pos + 1`,
  `height + 1`, `height - 1`, `length / 2 + 1`) stay between -1 and `length + 1`, so
  `+` and `-` are the mathematical ones; `/` is C's truncating division (`Int.tdiv`).
  The sizes of the local arrays (`max_implications`, ...) do not occur in the formulas.
* A `Z3_ast` is a syntax tree; a Boolean variable is identified by its name, the string
  that `snprintf` leaves in the 60-byte buffer.
* A `Z3_model` is a valuation of the names, `String → Bool`.
* A C loop that appends to a local array becomes the list of the appended values, in
  the order of the appends; `Z3_mk_and(ctx, n, a)` is applied to the list of the first
  `n` entries of `a`.
-/

namespace TunnelReduction

/-! ## Collaborators declared outside `TunnelReduction.c` -/

/-- Modelled from the spec: the type `stack_action` is declared in a header that is not
part of the sources; §3 of the specification lists its ten tags. -/
inductive stack_action where
  | transmit_4
  | transmit_6
  | push_4_4
  | push_4_6
  | push_6_4
  | push_6_6
  | pop_4_4
  | pop_4_6
  | pop_6_4
  | pop_6_6
  deriving DecidableEq, Repr

/-- Modelled from the spec: the network oracle of §2 and §6 (`TunnelNetwork` is opaque to
the reduction, which only calls these five accessors).  Node identifiers are C `int`s. -/
structure TunnelNetwork where
  tn_get_num_nodes : Int
  tn_get_initial : Int
  tn_get_final : Int
  tn_is_edge : Int → Int → Bool
  tn_node_has_action : Int → stack_action → Bool

/-- Modelled from the spec: the formulas of the formula engine of §6 (`Z3_ast`), with the
constructors the reduction calls: `mk_bool_var` and `uniqueFormula` of `Z3Tools.h`, and
the Z3 connectives. -/
inductive Z3_ast where
  | mk_bool_var (name : String)
  | Z3_mk_true
  | Z3_mk_not (a : Z3_ast)
  | Z3_mk_and (args : List Z3_ast)
  | Z3_mk_or (args : List Z3_ast)
  | Z3_mk_implies (a b : Z3_ast)
  | Z3_mk_eq (a b : Z3_ast)
  | uniqueFormula (args : List Z3_ast)

/-- Modelled from the spec: a model assigns a truth value to every variable name
(the formula engine identifies a Boolean variable with its name, §3). -/
abbrev Z3_model := String → Bool

/-- Modelled from the spec: a routing step `(action_tag, src_node, tgt_node)` of §4.J;
`tn_step` is declared in the header of the network module. -/
structure tn_step where
  action : stack_action
  src : Int
  tgt : Int
  deriving DecidableEq, Repr

/-- Modelled from the spec: `tn_step_create` builds the triple of §4.J. -/
def tn_step_create (action : stack_action) (src tgt : Int) : tn_step :=
  ⟨action, src, tgt⟩

open stack_action TunnelNetwork Z3_ast

mutual
/-- Modelled from the spec: truth value of a formula in a model; `uniqueFormula` is the
exactly-one-of constraint of §6 (exactly one entry of the array is true). -/
def eval (M : Z3_model) : Z3_ast → Bool
  | mk_bool_var name => M name
  | Z3_mk_true => true
  | Z3_mk_not a => !eval M a
  | Z3_mk_and args => evalAll M args
  | Z3_mk_or args => evalAny M args
  | Z3_mk_implies a b => !eval M a || eval M b
  | Z3_mk_eq a b => eval M a == eval M b
  | uniqueFormula args => evalCount M args == 1
/-- Every formula of the list is true. -/
def evalAll (M : Z3_model) : List Z3_ast → Bool
  | [] => true
  | a :: rest => eval M a && evalAll M rest
/-- Some formula of the list is true. -/
def evalAny (M : Z3_model) : List Z3_ast → Bool
  | [] => false
  | a :: rest => eval M a || evalAny M rest
/-- The number of entries of the list that are true. -/
def evalCount (M : Z3_model) : List Z3_ast → Nat
  | [] => 0
  | a :: rest => (if eval M a then 1 else 0) + evalCount M rest
end

/-- Modelled from the spec: the model reader `value_of(model, atom)` of §6. -/
def value_of_var_in_model (model : Z3_model) (v : Z3_ast) : Bool :=
  eval model v

/-! ## The C idioms used by the file -/

/-- The values taken by `x` in `for (int x = lo; x < hi; x++)`, in order. -/
def int_range (lo hi : Int) : List Int :=
  (List.range (hi - lo).toNat).map fun (k : Nat) => lo + (k : Int)

/-- The values taken by `p` in `for (int p = 4; p <= 6; p += 2)`, in order. -/
def protocol_range : List Int := [4, 6]

/-- The characters printed by the conversion `%d`. -/
def fmt_d (n : Int) : List Char :=
  if n < 0 then '-' :: Nat.toDigits 10 n.natAbs else Nat.toDigits 10 n.toNat

/-- The string left in `char name[60]` by `snprintf(name, 60, ...)`: at most 59
characters of the formatted text (the sixtieth byte is the terminator). -/
def snprintf_60 (text : List Char) : String :=
  String.mk (text.take 59)

/-! ## Variables and structural constants (lines 14-60) -/

/-- The variable `x_{node,pos,stack_height}`. -/
def tn_path_variable (node pos stack_height : Int) : Z3_ast :=
  mk_bool_var (snprintf_60 ("node ".toList ++ fmt_d node ++ ",pos ".toList ++ fmt_d pos
    ++ ", height ".toList ++ fmt_d stack_height))

/-- The variable `y_{pos,height,4}`. -/
def tn_4_variable (pos height : Int) : Z3_ast :=
  mk_bool_var (snprintf_60 ("4 at height ".toList ++ fmt_d height ++ " on pos ".toList
    ++ fmt_d pos))

/-- The variable `y_{pos,height,6}`. -/
def tn_6_variable (pos height : Int) : Z3_ast :=
  mk_bool_var (snprintf_60 ("6 at height ".toList ++ fmt_d height ++ " on pos ".toList
    ++ fmt_d pos))

/-- The size of the array representing the stack: `length / 2 + 1`. -/
def get_stack_size (length : Int) : Int :=
  Int.tdiv length 2 + 1

/-! ## φ1 and φ2 (lines 66-135) -/

/-- The formula φ1: one `uniqueFormula` per position `0 .. length`, over the variables
`x_{node,pos,height}` in the order node-major, height-minor. -/
def create_phi_1 (network : TunnelNetwork) (length : Int) : Z3_ast :=
  let num_nodes := tn_get_num_nodes network
  let stack_size := get_stack_size length
  let phi_1_conjuncts : List Z3_ast :=
    (int_range 0 (length + 1)).map fun pos =>
      let vars : List Z3_ast :=
        (int_range 0 num_nodes).flatMap fun node =>
          (int_range 0 stack_size).map fun height =>
            tn_path_variable node pos height
      uniqueFormula vars
  Z3_mk_and phi_1_conjuncts

/-- The formula φ2: the initial and final conditions. -/
def create_phi_2 (network : TunnelNetwork) (length : Int) : Z3_ast :=
  let source := tn_get_initial network
  let destination := tn_get_final network
  let x_initial := tn_path_variable source 0 0
  let y_initial := tn_4_variable 0 0
  let phi_2_initial := Z3_mk_and [x_initial, y_initial]
  let x_final := tn_path_variable destination length 0
  let y_final := tn_4_variable length 0
  let phi_2_final := Z3_mk_and [x_final, y_final]
  Z3_mk_and [phi_2_initial, phi_2_final]

/-! ## φ3: the transition relation (lines 141-381) -/

/-- The array `neighbors` filled by the loop over `neighbor`: one entry, built by
`conclusion_of`, per node `neighbor` with an edge `node -> neighbor`. -/
def neighbor_entries (network : TunnelNetwork) (node : Int) (conclusion_of : Int → Z3_ast) :
    List Z3_ast :=
  ((int_range 0 (tn_get_num_nodes network)).filter fun neighbor =>
    tn_is_edge network node neighbor).map conclusion_of

/-- The value returned after the loops: `Z3_mk_true` when `impl_count == 0`, the
conjunction of the stored implications otherwise. -/
def conjunction_or_true (implications : List Z3_ast) : Z3_ast :=
  if implications.length = 0 then Z3_mk_true else Z3_mk_and implications

/-- The transmission part of φ3: the height stays the same. -/
def create_phi_3_trans (network : TunnelNetwork) (length : Int) : Z3_ast :=
  let num_nodes := tn_get_num_nodes network
  let stack_size := get_stack_size length
  let implications : List Z3_ast :=
    (int_range 0 length).flatMap fun pos =>
    (int_range 0 num_nodes).flatMap fun node =>
    (int_range 0 stack_size).flatMap fun height =>
    protocol_range.flatMap fun protocol =>
      let action := if protocol = 4 then transmit_4 else transmit_6
      if !tn_node_has_action network node action then []
      else
        let premise := Z3_mk_and [tn_path_variable node pos height,
          if protocol = 4 then tn_4_variable pos height else tn_6_variable pos height]
        let neighbors := neighbor_entries network node fun neighbor =>
          tn_path_variable neighbor (pos + 1) height
        if neighbors.length = 0 then []
        else [Z3_mk_implies premise (Z3_mk_or neighbors)]
  conjunction_or_true implications

/-- The tag `push_a_b` selected by the chain of `if`s on `(protocol_a, protocol_b)`. -/
def push_action (protocol_a protocol_b : Int) : stack_action :=
  if protocol_a = 4 ∧ protocol_b = 4 then push_4_4
  else if protocol_a = 4 ∧ protocol_b = 6 then push_4_6
  else if protocol_a = 6 ∧ protocol_b = 4 then push_6_4
  else push_6_6

/-- The tag `pop_a_b` selected by the chain of `if`s on `(protocol_a, protocol_b)`. -/
def pop_action (protocol_a protocol_b : Int) : stack_action :=
  if protocol_a = 4 ∧ protocol_b = 4 then pop_4_4
  else if protocol_a = 4 ∧ protocol_b = 6 then pop_4_6
  else if protocol_a = 6 ∧ protocol_b = 4 then pop_6_4
  else pop_6_6

/-- The encapsulation part of φ3: the height grows by one. -/
def create_phi_3_push (network : TunnelNetwork) (length : Int) : Z3_ast :=
  let num_nodes := tn_get_num_nodes network
  let stack_size := get_stack_size length
  let implications : List Z3_ast :=
    (int_range 0 length).flatMap fun pos =>
    (int_range 0 num_nodes).flatMap fun node =>
    (int_range 0 (stack_size - 1)).flatMap fun height =>
    protocol_range.flatMap fun protocol_a =>
    protocol_range.flatMap fun protocol_b =>
      let action := push_action protocol_a protocol_b
      if !tn_node_has_action network node action then []
      else
        let premise := Z3_mk_and [tn_path_variable node pos height,
          if protocol_a = 4 then tn_4_variable pos height else tn_6_variable pos height]
        let neighbors := neighbor_entries network node fun neighbor =>
          Z3_mk_and [tn_path_variable neighbor (pos + 1) (height + 1),
            if protocol_b = 4 then tn_4_variable (pos + 1) (height + 1)
            else tn_6_variable (pos + 1) (height + 1)]
        if neighbors.length = 0 then []
        else [Z3_mk_implies premise (Z3_mk_or neighbors)]
  conjunction_or_true implications

/-- The decapsulation part of φ3: the height decreases by one.  The premise is the
conjunction of the three values the code stores at `premise_parts[0..2]` and passes to
`Z3_mk_and(ctx, 3, premise_parts)`. -/
def create_phi_3_pop (network : TunnelNetwork) (length : Int) : Z3_ast :=
  let num_nodes := tn_get_num_nodes network
  let stack_size := get_stack_size length
  let implications : List Z3_ast :=
    (int_range 0 length).flatMap fun pos =>
    (int_range 0 num_nodes).flatMap fun node =>
    (int_range 1 stack_size).flatMap fun height =>
    protocol_range.flatMap fun protocol_a =>
    protocol_range.flatMap fun protocol_b =>
      let action := pop_action protocol_a protocol_b
      if !tn_node_has_action network node action then []
      else
        let premise := Z3_mk_and [tn_path_variable node pos height,
          if protocol_b = 4 then tn_4_variable pos height else tn_6_variable pos height,
          if protocol_a = 4 then tn_4_variable pos (height - 1)
          else tn_6_variable pos (height - 1)]
        let neighbors := neighbor_entries network node fun neighbor =>
          tn_path_variable neighbor (pos + 1) (height - 1)
        if neighbors.length = 0 then []
        else [Z3_mk_implies premise (Z3_mk_or neighbors)]
  conjunction_or_true implications

/-- The formula φ3. -/
def create_phi_3 (network : TunnelNetwork) (length : Int) : Z3_ast :=
  let phi_3_trans := create_phi_3_trans network length
  let phi_3_push := create_phi_3_push network length
  let phi_3_pop := create_phi_3_pop network length
  Z3_mk_and [phi_3_trans, phi_3_push, phi_3_pop]

/-! ## φ4: every cell up to the top holds 4 or 6, exclusively (lines 387-444) -/

/-- The formula φ4. -/
def create_phi_4 (network : TunnelNetwork) (length : Int) : Z3_ast :=
  let num_nodes := tn_get_num_nodes network
  let stack_size := get_stack_size length
  let implications : List Z3_ast :=
    (int_range 0 (length + 1)).flatMap fun pos =>
    (int_range 0 stack_size).map fun height =>
      let premise_nodes := (int_range 0 num_nodes).map fun node =>
        tn_path_variable node pos height
      let premise := Z3_mk_or premise_nodes
      let cell_contraints := (int_range 0 (height + 1)).map fun cell =>
        let y_4 := tn_4_variable pos cell
        let y_6 := tn_6_variable pos cell
        let contains_4 := Z3_mk_and [y_4, Z3_mk_not y_6]
        let contains_6 := Z3_mk_and [Z3_mk_not y_4, y_6]
        Z3_mk_or [contains_4, contains_6]
      let conclusion := Z3_mk_and cell_contraints
      Z3_mk_implies premise conclusion
  Z3_mk_and implications

/-! ## φ5: the top of the stack matches the operation (lines 449-623) -/

/-- The transmission part of φ5. -/
def create_phi_5_trans (network : TunnelNetwork) (length : Int) : Z3_ast :=
  let num_nodes := tn_get_num_nodes network
  let stack_size := get_stack_size length
  let implications : List Z3_ast :=
    (int_range 0 (length + 1)).flatMap fun pos =>
    (int_range 0 num_nodes).flatMap fun node =>
    (int_range 0 stack_size).flatMap fun height =>
    protocol_range.flatMap fun protocol =>
      let action := if protocol = 4 then transmit_4 else transmit_6
      if !tn_node_has_action network node action then []
      else
        let premise := tn_path_variable node pos height
        let conclusion :=
          if protocol = 4 then tn_4_variable pos height else tn_6_variable pos height
        [Z3_mk_implies premise conclusion]
  conjunction_or_true implications

/-- The encapsulation part of φ5. -/
def create_phi_5_push (network : TunnelNetwork) (length : Int) : Z3_ast :=
  let num_nodes := tn_get_num_nodes network
  let stack_size := get_stack_size length
  let implications : List Z3_ast :=
    (int_range 0 (length + 1)).flatMap fun pos =>
    (int_range 0 num_nodes).flatMap fun node =>
    (int_range 0 stack_size).flatMap fun height =>
    protocol_range.flatMap fun protocol_a =>
    protocol_range.flatMap fun protocol_b =>
      let action := push_action protocol_a protocol_b
      if !tn_node_has_action network node action then []
      else
        let premise := tn_path_variable node pos height
        let conclusion :=
          if protocol_a = 4 then tn_4_variable pos height else tn_6_variable pos height
        [Z3_mk_implies premise conclusion]
  conjunction_or_true implications

/-- The decapsulation part of φ5. -/
def create_phi_5_pop (network : TunnelNetwork) (length : Int) : Z3_ast :=
  let num_nodes := tn_get_num_nodes network
  let stack_size := get_stack_size length
  let implications : List Z3_ast :=
    (int_range 0 (length + 1)).flatMap fun pos =>
    (int_range 0 num_nodes).flatMap fun node =>
    (int_range 1 stack_size).flatMap fun height =>
    protocol_range.flatMap fun protocol_a =>
    protocol_range.flatMap fun protocol_b =>
      let action := pop_action protocol_a protocol_b
      if !tn_node_has_action network node action then []
      else
        let premise := tn_path_variable node pos height
        let conclusion := Z3_mk_and [
          if protocol_b = 4 then tn_4_variable pos height else tn_6_variable pos height,
          if protocol_a = 4 then tn_4_variable pos (height - 1)
          else tn_6_variable pos (height - 1)]
        [Z3_mk_implies premise conclusion]
  conjunction_or_true implications

/-- The formula φ5. -/
def create_phi_5 (network : TunnelNetwork) (length : Int) : Z3_ast :=
  let phi_5_trans := create_phi_5_trans network length
  let phi_5_push := create_phi_5_push network length
  let phi_5_pop := create_phi_5_pop network length
  Z3_mk_and [phi_5_trans, phi_5_push, phi_5_pop]

/-! ## φ6: preservation of the stack (lines 632-857) -/

/-- The entry `cell_preservations[cell]`: cell `cell` holds the same protocol at `pos`
and at `pos + 1`. -/
def cell_preservation (pos cell : Int) : Z3_ast :=
  let eq_4 := Z3_mk_eq (tn_4_variable pos cell) (tn_4_variable (pos + 1) cell)
  let eq_6 := Z3_mk_eq (tn_6_variable pos cell) (tn_6_variable (pos + 1) cell)
  Z3_mk_and [eq_4, eq_6]

/-- The transmission part of φ6: the formula built from the implications the loops
compute, in order.  The loop on `pos` runs up to `length` included while `implications`
is declared for `length` positions; whether the stores fit the array is told by
`create_phi_6_trans_bounded`, the value of the C function. -/
def create_phi_6_trans (network : TunnelNetwork) (length : Int) : Z3_ast :=
  let num_nodes := tn_get_num_nodes network
  let stack_size := get_stack_size length
  let implications : List Z3_ast :=
    (int_range 0 (length + 1)).flatMap fun pos =>
    (int_range 0 num_nodes).flatMap fun node =>
    (int_range 0 stack_size).flatMap fun height =>
    protocol_range.flatMap fun protocol =>
      let action := if protocol = 4 then transmit_4 else transmit_6
      if !tn_node_has_action network node action then []
      else
        let premise := tn_path_variable node pos height
        let cell_preservations := (int_range 0 (height + 1)).map fun cell =>
          cell_preservation pos cell
        let conclusion := Z3_mk_and cell_preservations
        [Z3_mk_implies premise conclusion]
  conjunction_or_true implications

/-- The encapsulation part of φ6. -/
def create_phi_6_push (network : TunnelNetwork) (length : Int) : Z3_ast :=
  let num_nodes := tn_get_num_nodes network
  let stack_size := get_stack_size length
  let implications : List Z3_ast :=
    (int_range 0 length).flatMap fun pos =>
    (int_range 0 num_nodes).flatMap fun node =>
    (int_range 0 (stack_size - 1)).flatMap fun height =>
    protocol_range.flatMap fun protocol_a =>
    protocol_range.flatMap fun protocol_b =>
      let action := push_action protocol_a protocol_b
      if !tn_node_has_action network node action then []
      else
        let premise := tn_path_variable node pos height
        let cell_preservations := (int_range 0 (height + 1)).map fun cell =>
          cell_preservation pos cell
        let conclusion := Z3_mk_and cell_preservations
        [Z3_mk_implies premise conclusion]
  conjunction_or_true implications

/-- The decapsulation part of φ6: the formula built from the implications the loops
compute, in order.  When `height` is not 1 the loop computes the preservation of the
cells `0 .. height` and `Z3_mk_and(ctx, height, cell_preservations)` reads the first
`height` of them; the last one is written at index `height` of an array declared with
length `height` (`cell_preservations_entries`), so that the C function has a defined
value only when no such write occurs (`create_phi_6_pop_bounded`). -/
def create_phi_6_pop (network : TunnelNetwork) (length : Int) : Z3_ast :=
  let num_nodes := tn_get_num_nodes network
  let stack_size := get_stack_size length
  let implications : List Z3_ast :=
    (int_range 0 length).flatMap fun pos =>
    (int_range 0 num_nodes).flatMap fun node =>
    (int_range 1 stack_size).flatMap fun height =>
    protocol_range.flatMap fun protocol_a =>
    protocol_range.flatMap fun protocol_b =>
      let action := pop_action protocol_a protocol_b
      if !tn_node_has_action network node action then []
      else
        let premise := tn_path_variable node pos height
        if height = 1 then
          let eq_4 := Z3_mk_eq (tn_4_variable pos 0) (tn_4_variable (pos + 1) 0)
          let eq_6 := Z3_mk_eq (tn_6_variable pos 0) (tn_6_variable (pos + 1) 0)
          let conclusion := Z3_mk_and [eq_4, eq_6]
          [Z3_mk_implies premise conclusion]
        else
          let cell_preservations := (int_range 0 (height + 1)).map fun cell =>
            cell_preservation pos cell
          let conclusion := Z3_mk_and (cell_preservations.take height.toNat)
          [Z3_mk_implies premise conclusion]
  conjunction_or_true implications

/-- The formula φ6. -/
def create_phi_6 (network : TunnelNetwork) (length : Int) : Z3_ast :=
  let phi_6_trans := create_phi_6_trans network length
  let phi_6_push := create_phi_6_push network length
  let phi_6_pop := create_phi_6_pop network length
  Z3_mk_and [phi_6_trans, phi_6_push, phi_6_pop]

/-! ## The reduction and the decoder (lines 860-941) -/

/-- The conjunction of φ1, ..., φ6. -/
def tn_reduction (network : TunnelNetwork) (length : Int) : Z3_ast :=
  let phi_1 := create_phi_1 network length
  let phi_2 := create_phi_2 network length
  let phi_3 := create_phi_3 network length
  let phi_4 := create_phi_4 network length
  let phi_5 := create_phi_5 network length
  let phi_6 := create_phi_6 network length
  Z3_mk_and [phi_1, phi_2, phi_3, phi_4, phi_5, phi_6]

/-- The four locals `src`, `src_height`, `tgt`, `tgt_height` of the decoder. -/
structure scan_state where
  src : Int
  src_height : Int
  tgt : Int
  tgt_height : Int
  deriving DecidableEq, Repr

/-- The body of the inner scanning loop of the decoder, for one `(n, height)`. -/
def scan_body (model : Z3_model) (pos n : Int) (st : scan_state) (height : Int) :
    scan_state :=
  let st1 :=
    if value_of_var_in_model model (tn_path_variable n pos height) then
      ⟨n, height, st.tgt, st.tgt_height⟩
    else st
  if value_of_var_in_model model (tn_path_variable n (pos + 1) height) then
    ⟨st1.src, st1.src_height, n, height⟩
  else st1

/-- The two nested scanning loops of the decoder, started from `-1, -1, -1, -1`. -/
def scan_position (model : Z3_model) (network : TunnelNetwork) (bound pos : Int) :
    scan_state :=
  (int_range 0 (tn_get_num_nodes network)).foldl
    (fun st n => (int_range 0 (get_stack_size bound)).foldl (scan_body model pos n) st)
    ⟨-1, -1, -1, -1⟩

/-- The action computed by the decoder for the hop `pos`, from the heights found.
`action_0` is the tag whose integer value is 0, the value `action` is initialised with
(the declaration of the enumeration is not part of the sources). -/
def decode_action (action_0 : stack_action) (model : Z3_model) (pos : Int)
    (src_height tgt_height : Int) : stack_action :=
  if src_height = tgt_height then
    if value_of_var_in_model model (tn_4_variable pos src_height) then transmit_4
    else transmit_6
  else if src_height = tgt_height - 1 then
    if value_of_var_in_model model (tn_4_variable pos src_height) then
      if value_of_var_in_model model (tn_4_variable (pos + 1) tgt_height) then push_4_4
      else push_4_6
    else if value_of_var_in_model model (tn_4_variable (pos + 1) tgt_height) then push_6_4
    else push_6_6
  else if src_height = tgt_height + 1 then
    if value_of_var_in_model model (tn_4_variable pos src_height) then
      if value_of_var_in_model model (tn_4_variable (pos + 1) tgt_height) then pop_4_4
      else pop_6_4
    else if value_of_var_in_model model (tn_4_variable (pos + 1) tgt_height) then pop_4_6
    else pop_6_6
  else action_0

/-- The decoder: the list `path[0], ..., path[bound - 1]` written by the loop. -/
def tn_get_path_from_model (action_0 : stack_action) (model : Z3_model)
    (network : TunnelNetwork) (bound : Int) : List tn_step :=
  (int_range 0 bound).map fun pos =>
    let st := scan_position model network bound pos
    let action := decode_action action_0 model pos st.src_height st.tgt_height
    tn_step_create action st.src st.tgt

/-! ## Reading a model -/

/-- The value of `x(u, i, h)` in the model. -/
def x_val (M : Z3_model) (u i h : Int) : Bool :=
  value_of_var_in_model M (tn_path_variable u i h)

/-- The value of `y4(i, k)` in the model. -/
def y4_val (M : Z3_model) (i k : Int) : Bool :=
  value_of_var_in_model M (tn_4_variable i k)

/-- The value of `y6(i, k)` in the model. -/
def y6_val (M : Z3_model) (i k : Int) : Bool :=
  value_of_var_in_model M (tn_6_variable i k)

/-- The value of `y4(i, k)` when `protocol` is 4 and of `y6(i, k)` otherwise. -/
def y_val (M : Z3_model) (protocol i k : Int) : Bool :=
  if protocol = 4 then y4_val M i k else y6_val M i k

/-- The pairs `(node, height)` in the order the loops of φ1 and of the decoder visit
them. -/
def node_height_pairs (network : TunnelNetwork) (length : Int) : List (Int × Int) :=
  (int_range 0 (tn_get_num_nodes network)).flatMap fun node =>
    (int_range 0 (get_stack_size length)).map fun height => (node, height)

/-- The pair `(u, h)` is occupied at position `i`: `u` is a node, `h` a height of the
stack array and `x(u, i, h)` is true in the model. -/
def occupied (network : TunnelNetwork) (length : Int) (M : Z3_model) (i u h : Int) : Prop :=
  (0 ≤ u ∧ u < tn_get_num_nodes network) ∧ (0 ≤ h ∧ h < get_stack_size length) ∧
    x_val M u i h = true

instance (network : TunnelNetwork) (length : Int) (M : Z3_model) (i u h : Int) :
    Decidable (occupied network length M i u h) :=
  inferInstanceAs (Decidable ((0 ≤ u ∧ u < tn_get_num_nodes network) ∧
    (0 ≤ h ∧ h < get_stack_size length) ∧ x_val M u i h = true))

/-- Node `u` has at least one out-neighbour. -/
def has_neighbor (network : TunnelNetwork) (u : Int) : Prop :=
  ∃ v, (0 ≤ v ∧ v < tn_get_num_nodes network) ∧ tn_is_edge network u v = true

/-! ## The abstract stack machine and valid tunnel paths (specification side) -/

/-- The two protocols of §3 of the specification. -/
inductive protocol where
  | P4
  | P6
  deriving DecidableEq, Repr

open protocol

/-- The tag `transmit_P`. -/
def transmit_tag : protocol → stack_action
  | P4 => transmit_4
  | P6 => transmit_6

/-- The tag `push_A_B`. -/
def push_tag : protocol → protocol → stack_action
  | P4, P4 => push_4_4
  | P4, P6 => push_4_6
  | P6, P4 => push_6_4
  | P6, P6 => push_6_6

/-- The tag `pop_A_B`. -/
def pop_tag : protocol → protocol → stack_action
  | P4, P4 => pop_4_4
  | P4, P6 => pop_4_6
  | P6, P4 => pop_6_4
  | P6, P6 => pop_6_6

/-- `transmit_P` on a stack (bottom cell first, top cell last): needs top `P`, leaves the
stack unchanged. -/
def do_transmit (P : protocol) (s : List protocol) : Option (List protocol) :=
  if s.getLast? = some P then some s else none

/-- `push_A_B`: needs top `A`, pushes `B`. -/
def do_push (A B : protocol) (s : List protocol) : Option (List protocol) :=
  if s.getLast? = some A then some (s ++ [B]) else none

/-- `pop_A_B`: needs top `B` sitting on `A`, pops `B`. -/
def do_pop (A B : protocol) (s : List protocol) : Option (List protocol) :=
  if s.getLast? = some B ∧ s.dropLast.getLast? = some A then some s.dropLast else none

/-- One step of the abstract stack machine of §3: `none` when the precondition of the
action is not met. -/
def apply_action : stack_action → List protocol → Option (List protocol)
  | transmit_4 => do_transmit P4
  | transmit_6 => do_transmit P6
  | push_4_4 => do_push P4 P4
  | push_4_6 => do_push P4 P6
  | push_6_4 => do_push P6 P4
  | push_6_6 => do_push P6 P6
  | pop_4_4 => do_pop P4 P4
  | pop_4_6 => do_pop P4 P6
  | pop_6_4 => do_pop P6 P4
  | pop_6_6 => do_pop P6 P6

/-- Replaying a sequence of actions from a stack. -/
def run_actions : List stack_action → List protocol → Option (List protocol)
  | [], s => some s
  | a :: rest, s => (apply_action a s).bind (run_actions rest)

/-- The steps are chained: the first leaves `start`, each one leaves the node the
previous one reached, the last reaches `finish` (an empty path needs `start = finish`). -/
def chain_from (start finish : Int) : List tn_step → Bool
  | [] => decide (start = finish)
  | s :: rest => decide (s.src = start) && chain_from s.tgt finish rest

/-- A valid tunnel path of `length` hops (§1): the source and the destination are nodes
of the network, and the steps form a chain from the source to the destination, each
along an edge between two nodes of the network and with an action its source node
supports, such that running the actions on the stack `[P4]` meets every precondition
and ends with the stack `[P4]`. -/
def valid_tunnel_path (network : TunnelNetwork) (length : Int) (P : List tn_step) : Prop :=
  (P.length : Int) = length ∧
  (0 ≤ tn_get_initial network ∧ tn_get_initial network < tn_get_num_nodes network) ∧
  (0 ≤ tn_get_final network ∧ tn_get_final network < tn_get_num_nodes network) ∧
  chain_from (tn_get_initial network) (tn_get_final network) P = true ∧
  (∀ s ∈ P, (0 ≤ s.src ∧ s.src < tn_get_num_nodes network) ∧
    (0 ≤ s.tgt ∧ s.tgt < tn_get_num_nodes network) ∧
    tn_is_edge network s.src s.tgt = true ∧
    tn_node_has_action network s.src s.action = true) ∧
  run_actions (P.map tn_step.action) [P4] = some [P4]

/-- The protocol denoted by the loop variable `protocol` of the builders (4 or 6). -/
def proto_of_int (p : Int) : protocol :=
  if p = 4 then P4 else P6

/-- The protocol read at cell `k` of position `i`: 4 if `y4(i, k)` is true, 6 otherwise. -/
def protocol_at (M : Z3_model) (i k : Int) : protocol :=
  if y4_val M i k then P4 else P6

/-- The stack read in the model at position `i` up to the top `h`, bottom cell first. -/
def stack_of (M : Z3_model) (i h : Int) : List protocol :=
  (int_range 0 (h + 1)).map fun k => protocol_at M i k

/-- The action can be performed at top height `h` in the formula for `length`: any
transmission, an encapsulation below the last cell of the stack array, a decapsulation
above cell 0. -/
def action_applicable (length h : Int) : stack_action → Prop
  | transmit_4 => True
  | transmit_6 => True
  | push_4_4 => h < get_stack_size length - 1
  | push_4_6 => h < get_stack_size length - 1
  | push_6_4 => h < get_stack_size length - 1
  | push_6_6 => h < get_stack_size length - 1
  | pop_4_4 => 1 ≤ h
  | pop_4_6 => 1 ≤ h
  | pop_6_4 => 1 ≤ h
  | pop_6_6 => 1 ≤ h

/-- The hop from node `u` at top height `h` is constrained by φ3: `u` has an
out-neighbour and supports an action applicable at `h`. -/
def hop_enabled (network : TunnelNetwork) (length u h : Int) : Prop :=
  has_neighbor network u ∧
    ∃ a, tn_node_has_action network u a = true ∧ action_applicable length h a

/-- Every hop of the model is constrained: at each hop `i` the occupied pair is
enabled. -/
def all_hops_enabled (network : TunnelNetwork) (length : Int) (M : Z3_model) : Prop :=
  ∀ i, 0 ≤ i ∧ i < length → ∀ u h, occupied network length M i u h →
    hop_enabled network length u h

/-! ## Concrete networks and models -/

/-- The tunnel network of scenario 3: nodes `0 -> 1 -> 2 -> 3`; node 0 supports only
`push_4_6`, node 1 only `transmit_6`, node 2 only `pop_4_6`, node 3 nothing. -/
def tunnel_network : TunnelNetwork where
  tn_get_num_nodes := 4
  tn_get_initial := 0
  tn_get_final := 3
  tn_is_edge := fun u v => decide (v = u + 1)
  tn_node_has_action := fun u a =>
    (decide (u = 0) && decide (a = push_4_6)) || (decide (u = 1) && decide (a = transmit_6))
      || (decide (u = 2) && decide (a = pop_4_6))

/-- A model of the reduction of `tunnel_network` for length 3. -/
def tunnel_model : Z3_model := fun name =>
  decide (name ∈ ["node 0,pos 0, height 0", "node 1,pos 1, height 1",
    "node 2,pos 2, height 1", "node 3,pos 3, height 0",
    "4 at height 0 on pos 0", "4 at height 0 on pos 1", "4 at height 0 on pos 2",
    "4 at height 0 on pos 3", "6 at height 1 on pos 1", "6 at height 1 on pos 2"])

/-- The path of scenario 3. -/
def tunnel_path : List tn_step :=
  [⟨push_4_6, 0, 1⟩, ⟨transmit_6, 1, 2⟩, ⟨pop_4_6, 2, 3⟩]

/-- A network with one node, which is source and destination, no edge and no action. -/
def isolated_network : TunnelNetwork where
  tn_get_num_nodes := 1
  tn_get_initial := 0
  tn_get_final := 0
  tn_is_edge := fun _ _ => false
  tn_node_has_action := fun _ _ => false

/-- A model of the reduction of `isolated_network` for length 1: the node stays on
itself at height 0. -/
def isolated_model_1 : Z3_model := fun name =>
  decide (name ∈ ["node 0,pos 0, height 0", "node 0,pos 1, height 0",
    "4 at height 0 on pos 0", "4 at height 0 on pos 1"])

/-- A network with one node whose source, node 1, is not a node of the network. -/
def stray_source_network : TunnelNetwork where
  tn_get_num_nodes := 1
  tn_get_initial := 1
  tn_get_final := 0
  tn_is_edge := fun _ _ => false
  tn_node_has_action := fun _ _ => false

/-- A model of the reduction of `stray_source_network` for length 1. -/
def stray_source_model : Z3_model := fun name =>
  decide (name ∈ ["node 1,pos 0, height 0", "node 0,pos 0, height 0",
    "node 0,pos 1, height 0", "4 at height 0 on pos 0", "4 at height 0 on pos 1"])

/-- A model of the reduction of `isolated_network` for length 2 in which the cell at
position 1 holds protocol 6. -/
def isolated_model_2 : Z3_model := fun name =>
  decide (name ∈ ["node 0,pos 0, height 0", "node 0,pos 1, height 0",
    "node 0,pos 2, height 0", "4 at height 0 on pos 0", "6 at height 0 on pos 1",
    "4 at height 0 on pos 2"])

/-- A model of the reduction of `isolated_network` for length 4 in which the top is at
height 2 at position 1. -/
def isolated_model_4 : Z3_model := fun name =>
  decide (name ∈ ["node 0,pos 0, height 0", "node 0,pos 1, height 2",
    "node 0,pos 2, height 0", "node 0,pos 3, height 0", "node 0,pos 4, height 0",
    "4 at height 0 on pos 0", "4 at height 0 on pos 1", "4 at height 1 on pos 1",
    "4 at height 2 on pos 1", "4 at height 0 on pos 2", "4 at height 0 on pos 3",
    "4 at height 0 on pos 4"])

/-- A network with one node, which is source and destination, carries a self-loop and
supports both `transmit_4` and `transmit_6`. -/
def both_transmit_network : TunnelNetwork where
  tn_get_num_nodes := 1
  tn_get_initial := 0
  tn_get_final := 0
  tn_is_edge := fun _ _ => true
  tn_node_has_action := fun _ a => decide (a = transmit_4) || decide (a = transmit_6)

/-! ## The model of a path (used for completeness) -/

/-- The clauses of φ3, φ5 and φ6 for the supported action ask nothing more of a hop that
leaves a node with the stack `s`: an encapsulation `push_A_B` when the top of `s` is `A`
and the stack fills the array (φ3 and φ6 have no encapsulation clause at the last height,
φ5 asks for the top `A`), a decapsulation when `s` has one cell (no clause at height 0).
A transmission always asks for the next position to keep the height. -/
def asks_nothing (length : Int) (s : List protocol) : stack_action → Prop
  | transmit_4 => False
  | transmit_6 => False
  | push_4_4 => s.getLast? = some P4 ∧ get_stack_size length ≤ (s.length : Int)
  | push_4_6 => s.getLast? = some P4 ∧ get_stack_size length ≤ (s.length : Int)
  | push_6_4 => s.getLast? = some P6 ∧ get_stack_size length ≤ (s.length : Int)
  | push_6_6 => s.getLast? = some P6 ∧ get_stack_size length ≤ (s.length : Int)
  | pop_4_4 => s.length = 1
  | pop_4_6 => s.length = 1
  | pop_6_4 => s.length = 1
  | pop_6_6 => s.length = 1

/-- A walk `nd`, `st` (node and stack at each position) through the network, together
with a model `M` that makes true exactly the variables describing it.  The stack at
position `L + 1` is the one at position `L` (φ6 mentions that position).  Every action
a node of the walk supports is the action of its hop or asks nothing of it. -/
structure path_trajectory (network : TunnelNetwork) (L : Int) (M : Z3_model)
    (nd : Int → Int) (st : Int → List protocol) : Prop where
  length_nonneg : 0 ≤ L
  node_range : ∀ i, 0 ≤ i ∧ i ≤ L → 0 ≤ nd i ∧ nd i < tn_get_num_nodes network
  stack_range : ∀ i, 0 ≤ i ∧ i ≤ L + 1 →
    1 ≤ ((st i).length : Int) ∧ ((st i).length : Int) ≤ get_stack_size L
  first_node : nd 0 = tn_get_initial network
  last_node : nd L = tn_get_final network
  first_stack : st 0 = [P4]
  last_stack : st L = [P4]
  after_last : st (L + 1) = st L
  hop : ∀ i, 0 ≤ i ∧ i < L → ∃ a, tn_is_edge network (nd i) (nd (i + 1)) = true ∧
    tn_node_has_action network (nd i) a = true ∧
    apply_action a (st i) = some (st (i + 1)) ∧
    ∀ b, tn_node_has_action network (nd i) b = true → b = a ∨ asks_nothing L (st i) b
  dest_actions : tn_node_has_action network (tn_get_final network) transmit_6 = false ∧
    tn_node_has_action network (tn_get_final network) push_6_4 = false ∧
    tn_node_has_action network (tn_get_final network) push_6_6 = false
  x_iff : ∀ u i h, 0 ≤ u ∧ u < tn_get_num_nodes network → 0 ≤ i ∧ i ≤ L + 1 →
    0 ≤ h ∧ h ≤ get_stack_size L →
    (x_val M u i h = true ↔ i ≤ L ∧ u = nd i ∧ h + 1 = ((st i).length : Int))
  y4_iff : ∀ i k, 0 ≤ i ∧ i ≤ L + 1 → 0 ≤ k ∧ k ≤ get_stack_size L →
    (y4_val M i k = true ↔ (st i)[k.toNat]? = some P4)
  y6_iff : ∀ i k, 0 ≤ i ∧ i ≤ L + 1 → 0 ≤ k ∧ k ≤ get_stack_size L →
    (y6_val M i k = true ↔ (st i)[k.toNat]? = some P6)

/-- The number written by a list of decimal digits. -/
def decimal_value (l : List Char) : Nat :=
  l.foldl (fun acc c => 10 * acc + (c.toNat - 48)) 0

/-- The name of a variable. -/
def var_name : Z3_ast → String
  | mk_bool_var name => name
  | _ => ""

/-- The node reached after `n` steps of a path that starts at `start`. -/
def node_at : Int → List tn_step → Nat → Int
  | start, _, 0 => start
  | start, [], _ + 1 => start
  | _, s :: rest, n + 1 => node_at s.tgt rest n

/-- The stack after the first `n` actions, run from `[P4]` (the empty list when a
precondition fails). -/
def stack_after (actions : List stack_action) (n : Nat) : List protocol :=
  (run_actions (actions.take n) [P4]).getD []

/-- The variable `y4(i, k)` or `y6(i, k)` of a protocol. -/
def y_variable (c : protocol) (i k : Int) : Z3_ast :=
  match c with
  | P4 => tn_4_variable i k
  | P6 => tn_6_variable i k

/-- The model of a path: `x(n_i, i, h_i)` is true at every position `i` of `0 .. L`, where
`n_i` is the node reached and `h_i` the top of the stack after `i` steps; `y4(i, k)` or
`y6(i, k)` is true, according to the content of cell `k` of that stack, for every cell
`k` up to the top and every position of `0 .. L + 1`; every other variable is false. -/
def path_model (source : Int) (P : List tn_step) : Z3_model := fun name =>
  ((int_range 0 ((P.length : Int) + 1)).any fun i =>
    name == var_name (tn_path_variable (node_at source P i.toNat) i
      (((stack_after (P.map tn_step.action) i.toNat).length : Int) - 1))) ||
  ((int_range 0 ((P.length : Int) + 2)).any fun i =>
    (int_range 0 ((stack_after (P.map tn_step.action) i.toNat).length : Int)).any fun k =>
      name == var_name (y_variable
        (((stack_after (P.map tn_step.action) i.toNat)[k.toNat]?).getD P4) i k))

/-! ## Variables occurring in a formula -/

mutual
/-- The names of the Boolean variables occurring in a formula, with repetitions. -/
def variables_of : Z3_ast → List String
  | mk_bool_var name => [name]
  | Z3_mk_true => []
  | Z3_mk_not a => variables_of a
  | Z3_mk_and args => variables_of_list args
  | Z3_mk_or args => variables_of_list args
  | Z3_mk_implies a b => variables_of a ++ variables_of b
  | Z3_mk_eq a b => variables_of a ++ variables_of b
  | uniqueFormula args => variables_of_list args
/-- The names of the variables occurring in the formulas of a list. -/
def variables_of_list : List Z3_ast → List String
  | [] => []
  | a :: rest => variables_of a ++ variables_of_list rest
end

/-- The name is that of a variable defined for `network` and `length` (§3): an
`x(u, i, h)`, a `y4(i, h)` or a `y6(i, h)` with `u` in `[0, N)`, `i` in `[0, length]`
and `h` in `[0, get_stack_size length)`. -/
def defined_variable (network : TunnelNetwork) (length : Int) (name : String) : Prop :=
  (∃ u i h, (0 ≤ u ∧ u < tn_get_num_nodes network) ∧ (0 ≤ i ∧ i ≤ length) ∧
    (0 ≤ h ∧ h < get_stack_size length) ∧ name = var_name (tn_path_variable u i h)) ∨
  (∃ i h, (0 ≤ i ∧ i ≤ length) ∧ (0 ≤ h ∧ h < get_stack_size length) ∧
    name = var_name (tn_4_variable i h)) ∨
  (∃ i h, (0 ≤ i ∧ i ≤ length) ∧ (0 ≤ h ∧ h < get_stack_size length) ∧
    name = var_name (tn_6_variable i h))

/-- Every variable occurring in the formula is defined for `network` and `length`. -/
def only_defined_variables (network : TunnelNetwork) (length : Int) (f : Z3_ast) : Prop :=
  ∀ name ∈ variables_of f, defined_variable network length name

/-! ## Networks and models of the scenarios -/

/-- A network without node. -/
def empty_network : TunnelNetwork where
  tn_get_num_nodes := 0
  tn_get_initial := 0
  tn_get_final := 0
  tn_is_edge := fun _ _ => false
  tn_node_has_action := fun _ _ => false

/-- Scenario 1: one node, source and destination, with a self-loop, that supports only
`transmit_4`. -/
def identity_network : TunnelNetwork where
  tn_get_num_nodes := 1
  tn_get_initial := 0
  tn_get_final := 0
  tn_is_edge := fun u v => decide (u = 0) && decide (v = 0)
  tn_node_has_action := fun u a => decide (u = 0) && decide (a = transmit_4)

/-- A model of the reduction of `identity_network` for length 1. -/
def identity_model_1 : Z3_model := fun name =>
  decide (name ∈ ["node 0,pos 0, height 0", "node 0,pos 1, height 0",
    "4 at height 0 on pos 0", "4 at height 0 on pos 1", "4 at height 0 on pos 2"])

/-- Scenario 2: nodes `0 -> 1 -> 2`, every node supporting only `transmit_4`, source 0,
destination 2. -/
def wire_network : TunnelNetwork where
  tn_get_num_nodes := 3
  tn_get_initial := 0
  tn_get_final := 2
  tn_is_edge := fun u v =>
    (decide (u = 0) && decide (v = 1)) || (decide (u = 1) && decide (v = 2))
  tn_node_has_action := fun u a =>
    (decide (u = 0) || decide (u = 1) || decide (u = 2)) && decide (a = transmit_4)

/-- A model of the reduction of `wire_network` for length 2. -/
def wire_model : Z3_model := fun name =>
  decide (name ∈ ["node 0,pos 0, height 0", "node 1,pos 1, height 0",
    "node 2,pos 2, height 0", "4 at height 0 on pos 0", "4 at height 0 on pos 1",
    "4 at height 0 on pos 2", "4 at height 0 on pos 3"])

/-- Scenario 4: the graph of scenario 3 where node 2 supports only `pop_4_4`. -/
def mismatch_network : TunnelNetwork where
  tn_get_num_nodes := 4
  tn_get_initial := 0
  tn_get_final := 3
  tn_is_edge := fun u v => decide (v = u + 1)
  tn_node_has_action := fun u a =>
    (decide (u = 0) && decide (a = push_4_6)) || (decide (u = 1) && decide (a = transmit_6))
      || (decide (u = 2) && decide (a = pop_4_4))

/-- A network of the kind of scenario 5: nodes `0 -> 1`, source 0, destination 1; node 0
supports only `push_4_4`, node 1 supports nothing. -/
def push_only_network : TunnelNetwork where
  tn_get_num_nodes := 2
  tn_get_initial := 0
  tn_get_final := 1
  tn_is_edge := fun u v => decide (u = 0) && decide (v = 1)
  tn_node_has_action := fun u a => decide (u = 0) && decide (a = push_4_4)

/-- A model of the reduction of `push_only_network` for length 2: node 1 is reached at
height 1 and stays, at height 0, for the second hop. -/
def push_only_model : Z3_model := fun name =>
  decide (name ∈ ["node 0,pos 0, height 0", "node 1,pos 1, height 1",
    "node 1,pos 2, height 0", "4 at height 0 on pos 0", "4 at height 0 on pos 1",
    "4 at height 1 on pos 1", "4 at height 0 on pos 2"])

/-- A network of the kind of scenario 5 in which both hops are constrained: edges
`0 -> 1` and `1 -> 1`, source 0, destination 1; node 0 supports only `push_4_4`, node 1
only `transmit_4`. -/
def push_transmit_network : TunnelNetwork where
  tn_get_num_nodes := 2
  tn_get_initial := 0
  tn_get_final := 1
  tn_is_edge := fun _ v => decide (v = 1)
  tn_node_has_action := fun u a =>
    (decide (u = 0) && decide (a = push_4_4)) || (decide (u = 1) && decide (a = transmit_4))

/-! ## Reading the sub-builders (C21 - C30) -/

/-- The value of `y_P(i, k)` in the model. -/
def y_holds (M : Z3_model) : protocol → Int → Int → Bool
  | P4, i, k => y4_val M i k
  | P6, i, k => y6_val M i k

/-- The top height an action leads to from the top height `h`: the same for a
transmission, one more for an encapsulation, one less for a decapsulation. -/
def height_after : stack_action → Int → Int
  | transmit_4, h => h
  | transmit_6, h => h
  | push_4_4, h => h + 1
  | push_4_6, h => h + 1
  | push_6_4, h => h + 1
  | push_6_6, h => h + 1
  | pop_4_4, h => h - 1
  | pop_4_6, h => h - 1
  | pop_6_4, h => h - 1
  | pop_6_6, h => h - 1

/-- The protocol that the conclusions of φ5 for the action demand in the top cell `h`:
`P` for `transmit_P`, `A` for `push_A_B`, and `B` for `pop_A_B` when `1 ≤ h` (φ5 has no
decapsulation clause at height 0). -/
def demanded_top (h : Int) : stack_action → Option protocol
  | transmit_4 => some P4
  | transmit_6 => some P6
  | push_4_4 => some P4
  | push_4_6 => some P4
  | push_6_4 => some P6
  | push_6_6 => some P6
  | pop_4_4 => if 1 ≤ h then some P4 else none
  | pop_4_6 => if 1 ≤ h then some P6 else none
  | pop_6_4 => if 1 ≤ h then some P4 else none
  | pop_6_6 => if 1 ≤ h then some P6 else none

/-- The implications a sub-builder has stored, read back from the formula it returns:
the `impl_count` arguments of the final `Z3_mk_and(ctx, impl_count, implications)`, and
none when it returned `Z3_mk_true`. -/
def stored_implications : Z3_ast → List Z3_ast
  | Z3_mk_and implications => implications
  | _ => []

/-- The final value of `impl_count`: the number of stores
`implications[impl_count] = ...` the sub-builder has executed. -/
def impl_count (f : Z3_ast) : Nat :=
  (stored_implications f).length

/-- The capacity `max_implications` declared by `create_phi_3_trans`. -/
def max_implications_phi_3_trans (network : TunnelNetwork) (length : Int) : Int :=
  length * tn_get_num_nodes network * get_stack_size length * 2

/-- The capacity `max_implications` declared by `create_phi_3_push` and by
`create_phi_3_pop`. -/
def max_implications_phi_3_push_pop (network : TunnelNetwork) (length : Int) : Int :=
  length * tn_get_num_nodes network * get_stack_size length * 4

/-- The capacity `max_implications` declared by `create_phi_4`. -/
def max_implications_phi_4 (length : Int) : Int :=
  (length + 1) * get_stack_size length

/-- The capacity `max_implications` declared by `create_phi_5_trans`. -/
def max_implications_phi_5_trans (network : TunnelNetwork) (length : Int) : Int :=
  (length + 1) * tn_get_num_nodes network * get_stack_size length * 2

/-- The capacity `max_implications` declared by `create_phi_5_push` and by
`create_phi_5_pop`. -/
def max_implications_phi_5_push_pop (network : TunnelNetwork) (length : Int) : Int :=
  (length + 1) * tn_get_num_nodes network * get_stack_size length * 4

/-- The capacity `max_implications` declared by each of `create_phi_6_trans`,
`create_phi_6_push` and `create_phi_6_pop`. -/
def max_implications_phi_6 (network : TunnelNetwork) (length : Int) : Int :=
  length * tn_get_num_nodes network * get_stack_size length * 2

/-- One write into a local scratch array: the length the array is declared with and the
index written. -/
structure array_write where
  declared_length : Int
  index : Int
  deriving DecidableEq, Repr

/-- The writes into `premise_parts` made by `create_phi_3_pop` (lines 333-342): in every
iteration that passes the test on the action, the array is declared with length 2 and
the indices 0, 1 and 2 are written. -/
def premise_parts_writes (network : TunnelNetwork) (length : Int) : List array_write :=
  let num_nodes := tn_get_num_nodes network
  let stack_size := get_stack_size length
  (int_range 0 length).flatMap fun _pos =>
  (int_range 0 num_nodes).flatMap fun node =>
  (int_range 1 stack_size).flatMap fun _height =>
  protocol_range.flatMap fun protocol_a =>
  protocol_range.flatMap fun protocol_b =>
    let action := pop_action protocol_a protocol_b
    if !tn_node_has_action network node action then []
    else [⟨2, 0⟩, ⟨2, 1⟩, ⟨2, 2⟩]

/-- The writes into `cell_preservations` made by `create_phi_6_pop` (lines 818-838): in
every iteration that passes the test on the action with `height` other than 1, the
array is declared with length `height` and the loop `cell <= height` writes the indices
`0 .. height`. -/
def cell_preservations_writes (network : TunnelNetwork) (length : Int) :
    List array_write :=
  let num_nodes := tn_get_num_nodes network
  let stack_size := get_stack_size length
  (int_range 0 length).flatMap fun _pos =>
  (int_range 0 num_nodes).flatMap fun node =>
  (int_range 1 stack_size).flatMap fun height =>
  protocol_range.flatMap fun protocol_a =>
  protocol_range.flatMap fun protocol_b =>
    let action := pop_action protocol_a protocol_b
    if !tn_node_has_action network node action then []
    else if height = 1 then []
    else (int_range 0 (height + 1)).map fun cell => ⟨height, cell⟩

/-- A network with one node, which is source and destination, has a self-loop and
supports every action. -/
def full_network : TunnelNetwork where
  tn_get_num_nodes := 1
  tn_get_initial := 0
  tn_get_final := 0
  tn_is_edge := fun _ _ => true
  tn_node_has_action := fun _ _ => true

/-- A valuation in which `x(0, 0, 0)` and `y4(0, 0)` are true and nothing else. -/
def start_only_model : Z3_model := fun name =>
  decide (name ∈ ["node 0,pos 0, height 0", "4 at height 0 on pos 0"])

/-! ## The obligations of a path and the capacity of the local arrays -/

/-- The obligations a path meets: every action supported by the node a step leaves is
the action of that step or asks nothing of the hop (`asks_nothing`, on the stack the
step starts from), and the destination supports none of `transmit_6`, `push_6_4`,
`push_6_6`, for which φ5 asks for the top `P6` under the final stack `[P4]`. -/
def obligations_met (network : TunnelNetwork) (length : Int) (P : List tn_step) : Prop :=
  (∀ (n : Nat) (s : tn_step), P[n]? = some s →
    ∀ b, tn_node_has_action network s.src b = true →
      b = s.action ∨ asks_nothing length (stack_after (P.map tn_step.action) n) b) ∧
  tn_node_has_action network (tn_get_final network) transmit_6 = false ∧
  tn_node_has_action network (tn_get_final network) push_6_4 = false ∧
  tn_node_has_action network (tn_get_final network) push_6_6 = false

/-- Every store `implications[impl_count] = ...` of a sub-builder falls inside the array
of `max_implications` entries: the stores are at the indices `0 .. impl_count - 1`. -/
def implications_in_bounds (max_implications : Int) (f : Z3_ast) : Bool :=
  decide ((impl_count f : Int) ≤ max_implications)

/-- Every write into `cell_preservations` of `create_phi_6_pop` is at an index below the
declared length. -/
def cell_preservations_in_bounds (network : TunnelNetwork) (length : Int) : Bool :=
  (cell_preservations_writes network length).all fun w =>
    decide (w.index < w.declared_length)

/-- The value of `create_phi_6_trans` as a C function: the formula when every store
into `implications` is in bounds, no value (`none`) when a store falls past the end of
the array, where the behaviour of the C code is undefined. -/
def create_phi_6_trans_bounded (network : TunnelNetwork) (length : Int) : Option Z3_ast :=
  if implications_in_bounds (max_implications_phi_6 network length)
      (create_phi_6_trans network length) then
    some (create_phi_6_trans network length)
  else none

/-- The value of `create_phi_6_push` as a C function (`none` when a store falls past the
end of `implications`). -/
def create_phi_6_push_bounded (network : TunnelNetwork) (length : Int) : Option Z3_ast :=
  if implications_in_bounds (max_implications_phi_6 network length)
      (create_phi_6_push network length) then
    some (create_phi_6_push network length)
  else none

/-- The value of `create_phi_6_pop` as a C function (`none` when a store falls past the
end of `implications` or of `cell_preservations`). -/
def create_phi_6_pop_bounded (network : TunnelNetwork) (length : Int) : Option Z3_ast :=
  if implications_in_bounds (max_implications_phi_6 network length)
      (create_phi_6_pop network length) && cell_preservations_in_bounds network length then
    some (create_phi_6_pop network length)
  else none

/-- The capacities `max_implications` are computed in `int` without overflow: `length`
and `num_nodes` are not negative and the largest product,
`(length + 1) * num_nodes * stack_size * 4`, is at most `2^31 - 1`. -/
def capacities_fit_int (network : TunnelNetwork) (length : Int) : Bool :=
  decide (0 ≤ length ∧ 0 ≤ tn_get_num_nodes network ∧
    max_implications_phi_5_push_pop network length ≤ 2147483647)

/-- No store of a call `tn_reduction(network, length)` falls past the end of an array
`implications` or `cell_preservations`, the capacities being computed in `int`.  The
write `premise_parts[2]` of `create_phi_3_pop` is not counted: the entry is read back by
the call `Z3_mk_and(ctx, 3, premise_parts)` that follows it, and the formula is built
from the three values written. -/
def stores_in_bounds (network : TunnelNetwork) (length : Int) : Bool :=
  capacities_fit_int network length &&
  implications_in_bounds (max_implications_phi_3_trans network length)
    (create_phi_3_trans network length) &&
  implications_in_bounds (max_implications_phi_3_push_pop network length)
    (create_phi_3_push network length) &&
  implications_in_bounds (max_implications_phi_3_push_pop network length)
    (create_phi_3_pop network length) &&
  implications_in_bounds (max_implications_phi_4 length) (create_phi_4 network length) &&
  implications_in_bounds (max_implications_phi_5_trans network length)
    (create_phi_5_trans network length) &&
  implications_in_bounds (max_implications_phi_5_push_pop network length)
    (create_phi_5_push network length) &&
  implications_in_bounds (max_implications_phi_5_push_pop network length)
    (create_phi_5_pop network length) &&
  (create_phi_6_trans_bounded network length).isSome &&
  (create_phi_6_push_bounded network length).isSome &&
  (create_phi_6_pop_bounded network length).isSome

/-- The value of `tn_reduction` as a C function: the conjunction of φ1, ..., φ6 when
every store is in bounds (`stores_in_bounds`), no value otherwise. -/
def tn_reduction_bounded (network : TunnelNetwork) (length : Int) : Option Z3_ast :=
  if stores_in_bounds network length then some (tn_reduction network length) else none

/-- The entries written into `cell_preservations` by `create_phi_6_pop` (lines 818-838),
each with the write it is stored by: for `height` other than 1, the preservation of
every cell `0 .. height`, in an array declared with length `height`. -/
def cell_preservations_entries (network : TunnelNetwork) (length : Int) :
    List (array_write × Z3_ast) :=
  let num_nodes := tn_get_num_nodes network
  let stack_size := get_stack_size length
  (int_range 0 length).flatMap fun pos =>
  (int_range 0 num_nodes).flatMap fun node =>
  (int_range 1 stack_size).flatMap fun height =>
  protocol_range.flatMap fun protocol_a =>
  protocol_range.flatMap fun protocol_b =>
    let action := pop_action protocol_a protocol_b
    if !tn_node_has_action network node action then []
    else if height = 1 then []
    else (int_range 0 (height + 1)).map fun cell =>
      (⟨height, cell⟩, cell_preservation pos cell)

/-- A network with the edge `0 -> 1`, source 0 and destination 1, whose node 0 supports
`transmit_4` and `transmit_6` and whose node 1 supports nothing. -/
def two_transmit_network : TunnelNetwork where
  tn_get_num_nodes := 2
  tn_get_initial := 0
  tn_get_final := 1
  tn_is_edge := fun u v => decide (u = 0) && decide (v = 1)
  tn_node_has_action := fun u a =>
    decide (u = 0) && (decide (a = transmit_4) || decide (a = transmit_6))

/-- A network with the edge `0 -> 1`, source 0 and destination 1, whose node 0 supports
`transmit_4` and `push_4_6` and whose node 1 supports nothing. -/
def transmit_or_push_network : TunnelNetwork where
  tn_get_num_nodes := 2
  tn_get_initial := 0
  tn_get_final := 1
  tn_is_edge := fun u v => decide (u = 0) && decide (v = 1)
  tn_node_has_action := fun u a =>
    decide (u = 0) && (decide (a = transmit_4) || decide (a = push_4_6))

/-! # Properties of the embedding -/

/-! ## Evaluation lemmas -/

theorem evalAll_eq (M : Z3_model) (l : List Z3_ast) : evalAll M l = l.all (eval M) := by
  induction l with
  | nil => rfl
  | cons a rest ih => simp [evalAll, ih]

theorem evalAny_eq (M : Z3_model) (l : List Z3_ast) : evalAny M l = l.any (eval M) := by
  induction l with
  | nil => rfl
  | cons a rest ih => simp [evalAny, ih]

theorem evalCount_eq (M : Z3_model) (l : List Z3_ast) :
    evalCount M l = l.countP (eval M) := by
  induction l with
  | nil => rfl
  | cons a rest ih =>
    by_cases h : eval M a = true
    · simp [evalCount, ih, h, List.countP_cons]; omega
    · simp [evalCount, ih, h, List.countP_cons]

theorem mem_int_range (lo hi x : Int) : x ∈ int_range lo hi ↔ lo ≤ x ∧ x < hi := by
  unfold int_range
  simp only [List.mem_map, List.mem_range]
  constructor
  · rintro ⟨k, hk, rfl⟩
    omega
  · rintro ⟨h1, h2⟩
    exact ⟨(x - lo).toNat, by omega, by omega⟩

theorem int_range_nodup (lo hi : Int) : (int_range lo hi).Nodup := by
  unfold int_range
  refine List.Nodup.map ?_ (List.nodup_range _)
  intro a b h
  simpa using h

theorem mem_protocol_range (p : Int) : p ∈ protocol_range ↔ p = 4 ∨ p = 6 := by
  simp [protocol_range]

theorem eval_and_iff (M : Z3_model) (l : List Z3_ast) :
    eval M (Z3_mk_and l) = true ↔ ∀ f ∈ l, eval M f = true := by
  simp [eval, evalAll_eq]

theorem eval_or_iff (M : Z3_model) (l : List Z3_ast) :
    eval M (Z3_mk_or l) = true ↔ ∃ f ∈ l, eval M f = true := by
  simp [eval, evalAny_eq]

theorem eval_conjunction_or_true (M : Z3_model) (l : List Z3_ast) :
    eval M (conjunction_or_true l) = true ↔ ∀ f ∈ l, eval M f = true := by
  unfold conjunction_or_true
  split
  · rename_i h
    have : l = [] := List.length_eq_zero.mp h
    subst this
    simp [eval]
  · exact eval_and_iff M l

theorem eval_implies_iff (M : Z3_model) (a b : Z3_ast) :
    eval M (Z3_mk_implies a b) = true ↔ (eval M a = true → eval M b = true) := by
  cases ha : eval M a <;> simp [eval, ha]

theorem eval_eq_iff (M : Z3_model) (a b : Z3_ast) :
    eval M (Z3_mk_eq a b) = true ↔ eval M a = eval M b := by
  simp [eval]

theorem eval_path_variable (M : Z3_model) (u i h : Int) :
    eval M (tn_path_variable u i h) = x_val M u i h := rfl

theorem eval_4_variable (M : Z3_model) (i k : Int) :
    eval M (tn_4_variable i k) = y4_val M i k := rfl

theorem eval_6_variable (M : Z3_model) (i k : Int) :
    eval M (tn_6_variable i k) = y6_val M i k := rfl

theorem eval_y_variable (M : Z3_model) (p i k : Int) :
    eval M (if p = 4 then tn_4_variable i k else tn_6_variable i k) = y_val M p i k := by
  unfold y_val
  split <;> rfl

theorem mem_node_height_pairs (network : TunnelNetwork) (length : Int) (p : Int × Int) :
    p ∈ node_height_pairs network length ↔
      (0 ≤ p.1 ∧ p.1 < tn_get_num_nodes network) ∧
        (0 ≤ p.2 ∧ p.2 < get_stack_size length) := by
  obtain ⟨u, h⟩ := p
  simp only [node_height_pairs, List.mem_flatMap, List.mem_map, mem_int_range, Prod.mk.injEq]
  constructor
  · rintro ⟨a, ha, b, hb, rfl, rfl⟩
    exact ⟨ha, hb⟩
  · rintro ⟨ha, hb⟩
    exact ⟨u, ha, h, hb, rfl, rfl⟩

theorem node_height_pairs_nodup (network : TunnelNetwork) (length : Int) :
    (node_height_pairs network length).Nodup := by
  unfold node_height_pairs
  rw [List.nodup_flatMap]
  refine ⟨?_, ?_⟩
  · intro node _
    refine List.Nodup.map ?_ (int_range_nodup _ _)
    intro a b h
    simpa using h
  · refine List.Nodup.pairwise_of_forall_ne (int_range_nodup _ _) ?_
    intro a _ b _ hab
    simp only [Function.onFun, List.Disjoint, List.mem_map]
    rintro p ⟨_, _, rfl⟩ ⟨_, _, h⟩
    exact hab (by simpa using (congrArg Prod.fst h).symm)

theorem eval_not (M : Z3_model) (a : Z3_ast) : eval M (Z3_mk_not a) = !eval M a := rfl

theorem eval_unique_iff (M : Z3_model) (l : List Z3_ast) :
    eval M (uniqueFormula l) = true ↔ l.countP (eval M) = 1 := by
  have : eval M (uniqueFormula l) = (evalCount M l == 1) := rfl
  rw [this, evalCount_eq]
  simp

/-! ## The meaning of φ1, φ2 and φ4 -/

theorem phi_1_variables_eq (network : TunnelNetwork) (length pos : Int) :
    ((int_range 0 (tn_get_num_nodes network)).flatMap fun node =>
      (int_range 0 (get_stack_size length)).map fun height =>
        tn_path_variable node pos height) =
      (node_height_pairs network length).map fun p => tn_path_variable p.1 pos p.2 := by
  simp [node_height_pairs, List.map_flatMap, Function.comp_def]

theorem eval_create_phi_1 (M : Z3_model) (network : TunnelNetwork) (length : Int) :
    eval M (create_phi_1 network length) = true ↔
      ∀ pos, 0 ≤ pos → pos ≤ length →
        (node_height_pairs network length).countP (fun p => x_val M p.1 pos p.2) = 1 := by
  simp only [create_phi_1, eval_and_iff, List.mem_map, mem_int_range, phi_1_variables_eq]
  constructor
  · intro h pos h0 h1
    have := h _ ⟨pos, ⟨h0, by omega⟩, rfl⟩
    simpa only [eval_unique_iff, List.countP_map, Function.comp_def, eval_path_variable]
      using this
  · rintro h f ⟨pos, ⟨h0, h1⟩, rfl⟩
    have := h pos h0 (by omega)
    simpa only [eval_unique_iff, List.countP_map, Function.comp_def, eval_path_variable]
      using this

theorem countP_eq_one_unique {α : Type} (p : α → Bool) (l : List α)
    (h : l.countP p = 1) : ∃ a, (a ∈ l ∧ p a = true) ∧ ∀ b, b ∈ l ∧ p b = true → b = a := by
  rw [List.countP_eq_length_filter, List.length_eq_one] at h
  obtain ⟨a, ha⟩ := h
  have hmem : ∀ b, b ∈ l ∧ p b = true ↔ b = a := by
    intro b
    rw [← List.mem_filter, ha, List.mem_singleton]
  exact ⟨a, (hmem a).2 rfl, fun b hb => (hmem b).1 hb⟩

theorem countP_eq_one_of_unique {α : Type} [DecidableEq α] (p : α → Bool) (l : List α)
    (hl : l.Nodup) (a : α) (ha : a ∈ l) (hp : ∀ b, b ∈ l → (p b = true ↔ b = a)) :
    l.countP p = 1 := by
  have h1 : l.countP p = l.countP (fun b => decide (b = a)) := by
    apply List.countP_congr
    intro b hb
    simp [hp b hb]
  have h2 : l.countP (fun b => decide (b = a)) = l.count a := by
    simp only [List.count]
    apply List.countP_congr
    intro b _
    by_cases hba : b = a
    · simp [hba]
    · simp [hba]
  rw [h1, h2]
  exact List.count_eq_one_of_mem hl ha

theorem eval_create_phi_2 (M : Z3_model) (network : TunnelNetwork) (length : Int) :
    eval M (create_phi_2 network length) = true ↔
      x_val M (tn_get_initial network) 0 0 = true ∧ y4_val M 0 0 = true ∧
        x_val M (tn_get_final network) length 0 = true ∧ y4_val M length 0 = true := by
  simp only [create_phi_2, eval_and_iff, eval_path_variable, eval_4_variable,
    List.forall_mem_cons, List.not_mem_nil, false_implies, implies_true, and_true, and_assoc]

theorem eval_cell_constraint (M : Z3_model) (pos cell : Int) :
    eval M (Z3_mk_or [Z3_mk_and [tn_4_variable pos cell, Z3_mk_not (tn_6_variable pos cell)],
      Z3_mk_and [Z3_mk_not (tn_4_variable pos cell), tn_6_variable pos cell]]) = true ↔
      y4_val M pos cell = !y6_val M pos cell := by
  simp only [eval_or_iff, eval_and_iff, eval_not, List.mem_cons, List.mem_singleton,
    List.not_mem_nil, or_false, exists_eq_or_imp, exists_eq_left, forall_eq_or_imp, forall_eq,
    eval_4_variable, eval_6_variable]
  cases y4_val M pos cell <;> cases y6_val M pos cell <;> simp

theorem eval_create_phi_4 (M : Z3_model) (network : TunnelNetwork) (length : Int) :
    eval M (create_phi_4 network length) = true ↔
      ∀ pos, 0 ≤ pos → pos ≤ length → ∀ height, 0 ≤ height → height < get_stack_size length →
        (∃ node, (0 ≤ node ∧ node < tn_get_num_nodes network) ∧
          x_val M node pos height = true) →
        ∀ cell, 0 ≤ cell → cell ≤ height → y4_val M pos cell = !y6_val M pos cell := by
  simp only [create_phi_4, eval_and_iff, List.mem_flatMap, List.mem_map, mem_int_range]
  constructor
  · intro h pos hp0 hp1 height hh0 hh1 hex cell hc0 hc1
    have := h _ ⟨pos, ⟨hp0, by omega⟩, height, ⟨hh0, hh1⟩, rfl⟩
    rw [eval_implies_iff, eval_or_iff, eval_and_iff] at this
    obtain ⟨node, hn, hx⟩ := hex
    have h2 := this ⟨_, List.mem_map.2 ⟨node, (mem_int_range _ _ _).2 hn, rfl⟩, hx⟩
    exact (eval_cell_constraint M pos cell).1
      (h2 _ (List.mem_map.2 ⟨cell, (mem_int_range _ _ _).2 ⟨hc0, by omega⟩, rfl⟩))
  · rintro h f ⟨pos, ⟨hp0, hp1⟩, height, ⟨hh0, hh1⟩, rfl⟩
    rw [eval_implies_iff, eval_or_iff, eval_and_iff]
    rintro ⟨g, hg, hgx⟩
    obtain ⟨node, hn, rfl⟩ := List.mem_map.1 hg
    intro c hc
    obtain ⟨cell, hcell, rfl⟩ := List.mem_map.1 hc
    rw [mem_int_range] at hn hcell
    exact (eval_cell_constraint M pos cell).2
      (h pos hp0 (by omega) height hh0 hh1 ⟨node, hn, hgx⟩ cell hcell.1 (by omega))

theorem eval_tn_reduction (M : Z3_model) (network : TunnelNetwork) (length : Int) :
    eval M (tn_reduction network length) = true ↔
      eval M (create_phi_1 network length) = true ∧
      eval M (create_phi_2 network length) = true ∧
      eval M (create_phi_3 network length) = true ∧
      eval M (create_phi_4 network length) = true ∧
      eval M (create_phi_5 network length) = true ∧
      eval M (create_phi_6 network length) = true := by
  simp only [tn_reduction, eval_and_iff, List.forall_mem_cons, List.not_mem_nil,
    false_implies, implies_true, and_true]

/-! ## The meaning of φ3 -/

theorem mem_unless {α : Type} (c : Bool) (l : List α) (f : α) :
    f ∈ (if (!c) = true then [] else l) ↔ c = true ∧ f ∈ l := by
  cases c <;> simp

theorem mem_unless_zero {α : Type} (n : Nat) (g f : α) :
    f ∈ (if n = 0 then [] else [g]) ↔ n ≠ 0 ∧ f = g := by
  by_cases h : n = 0 <;> simp [h]

theorem eval_neighbor_or (M : Z3_model) (network : TunnelNetwork) (node : Int)
    (g : Int → Z3_ast) :
    eval M (Z3_mk_or (neighbor_entries network node g)) = true ↔
      ∃ v, (0 ≤ v ∧ v < tn_get_num_nodes network) ∧ tn_is_edge network node v = true ∧
        eval M (g v) = true := by
  simp only [eval_or_iff, neighbor_entries, List.mem_map, List.mem_filter, mem_int_range]
  constructor
  · rintro ⟨f, ⟨v, ⟨hv, he⟩, rfl⟩, hf⟩
    exact ⟨v, hv, he, hf⟩
  · rintro ⟨v, hv, he, hf⟩
    exact ⟨_, ⟨v, ⟨hv, he⟩, rfl⟩, hf⟩

theorem neighbor_entries_length (network : TunnelNetwork) (node : Int) (g : Int → Z3_ast) :
    (neighbor_entries network node g).length = 0 ↔ ¬ has_neighbor network node := by
  rw [List.length_eq_zero]
  simp only [neighbor_entries, List.map_eq_nil_iff, List.filter_eq_nil_iff, mem_int_range,
    has_neighbor, not_exists, not_and]

theorem eval_create_phi_3_trans (M : Z3_model) (network : TunnelNetwork) (length : Int) :
    eval M (create_phi_3_trans network length) = true ↔
      ∀ pos, 0 ≤ pos ∧ pos < length → ∀ node, 0 ≤ node ∧ node < tn_get_num_nodes network →
      ∀ height, 0 ≤ height ∧ height < get_stack_size length →
      ∀ protocol, protocol = 4 ∨ protocol = 6 →
        tn_node_has_action network node (if protocol = 4 then transmit_4 else transmit_6)
          = true →
        has_neighbor network node →
        x_val M node pos height = true → y_val M protocol pos height = true →
        ∃ v, (0 ≤ v ∧ v < tn_get_num_nodes network) ∧ tn_is_edge network node v = true ∧
          x_val M v (pos + 1) height = true := by
  simp only [create_phi_3_trans, eval_conjunction_or_true, List.mem_flatMap, mem_int_range,
    mem_protocol_range]
  constructor
  · intro h pos hpos node hnode height hheight protocol hprot hact hnb hx hy
    have := h (Z3_mk_implies
      (Z3_mk_and [tn_path_variable node pos height,
        if protocol = 4 then tn_4_variable pos height else tn_6_variable pos height])
      (Z3_mk_or (neighbor_entries network node fun neighbor =>
        tn_path_variable neighbor (pos + 1) height)))
      ⟨pos, hpos, node, hnode, height, hheight, protocol, hprot, by
        rw [mem_unless, mem_unless_zero, Ne, neighbor_entries_length, not_not]
        exact ⟨hact, hnb, rfl⟩⟩
    rw [eval_implies_iff, eval_neighbor_or, eval_and_iff] at this
    apply this
    intro f hf
    simp only [List.mem_cons, List.mem_singleton, List.not_mem_nil, or_false] at hf
    rcases hf with rfl | rfl
    · exact hx
    · rw [eval_y_variable]; exact hy
  · rintro h f ⟨pos, hpos, node, hnode, height, hheight, protocol, hprot, hf⟩
    rw [mem_unless, mem_unless_zero, Ne, neighbor_entries_length, not_not] at hf
    obtain ⟨hact, hnb, rfl⟩ := hf
    rw [eval_implies_iff, eval_neighbor_or, eval_and_iff]
    intro hprem
    have hx := hprem _ (List.mem_cons_self _ _)
    have hy := hprem _ (List.mem_cons_of_mem _ (List.mem_cons_self _ _))
    rw [eval_y_variable] at hy
    exact h pos hpos node hnode height hheight protocol hprot hact hnb hx hy

theorem eval_create_phi_3_push (M : Z3_model) (network : TunnelNetwork) (length : Int) :
    eval M (create_phi_3_push network length) = true ↔
      ∀ pos, 0 ≤ pos ∧ pos < length → ∀ node, 0 ≤ node ∧ node < tn_get_num_nodes network →
      ∀ height, 0 ≤ height ∧ height < get_stack_size length - 1 →
      ∀ protocol_a, protocol_a = 4 ∨ protocol_a = 6 →
      ∀ protocol_b, protocol_b = 4 ∨ protocol_b = 6 →
        tn_node_has_action network node (push_action protocol_a protocol_b) = true →
        has_neighbor network node →
        x_val M node pos height = true → y_val M protocol_a pos height = true →
        ∃ v, (0 ≤ v ∧ v < tn_get_num_nodes network) ∧ tn_is_edge network node v = true ∧
          x_val M v (pos + 1) (height + 1) = true ∧
          y_val M protocol_b (pos + 1) (height + 1) = true := by
  simp only [create_phi_3_push, eval_conjunction_or_true, List.mem_flatMap, mem_int_range,
    mem_protocol_range]
  have hconc : ∀ (pos height protocol_b v : Int),
      eval M (Z3_mk_and [tn_path_variable v (pos + 1) (height + 1),
        if protocol_b = 4 then tn_4_variable (pos + 1) (height + 1)
        else tn_6_variable (pos + 1) (height + 1)]) = true ↔
      (x_val M v (pos + 1) (height + 1) = true ∧
        y_val M protocol_b (pos + 1) (height + 1) = true) := by
    intro pos height protocol_b v
    simp only [eval_and_iff, List.forall_mem_cons, List.not_mem_nil, false_implies,
      implies_true, and_true, eval_path_variable, eval_y_variable]
  constructor
  · intro h pos hpos node hnode height hheight pa hpa pb hpb hact hnb hx hy
    have := h _ ⟨pos, hpos, node, hnode, height, hheight, pa, hpa, pb, hpb, by
        rw [mem_unless, mem_unless_zero, Ne, neighbor_entries_length, not_not]
        exact ⟨hact, hnb, rfl⟩⟩
    rw [eval_implies_iff, eval_neighbor_or, eval_and_iff] at this
    simp only [hconc] at this
    apply this
    intro f hf
    simp only [List.mem_cons, List.mem_singleton, List.not_mem_nil, or_false] at hf
    rcases hf with rfl | rfl
    · exact hx
    · rw [eval_y_variable]; exact hy
  · rintro h f ⟨pos, hpos, node, hnode, height, hheight, pa, hpa, pb, hpb, hf⟩
    rw [mem_unless, mem_unless_zero, Ne, neighbor_entries_length, not_not] at hf
    obtain ⟨hact, hnb, rfl⟩ := hf
    rw [eval_implies_iff, eval_neighbor_or, eval_and_iff]
    simp only [hconc]
    intro hprem
    have hx := hprem _ (List.mem_cons_self _ _)
    have hy := hprem _ (List.mem_cons_of_mem _ (List.mem_cons_self _ _))
    rw [eval_y_variable] at hy
    exact h pos hpos node hnode height hheight pa hpa pb hpb hact hnb hx hy

theorem eval_create_phi_3_pop (M : Z3_model) (network : TunnelNetwork) (length : Int) :
    eval M (create_phi_3_pop network length) = true ↔
      ∀ pos, 0 ≤ pos ∧ pos < length → ∀ node, 0 ≤ node ∧ node < tn_get_num_nodes network →
      ∀ height, 1 ≤ height ∧ height < get_stack_size length →
      ∀ protocol_a, protocol_a = 4 ∨ protocol_a = 6 →
      ∀ protocol_b, protocol_b = 4 ∨ protocol_b = 6 →
        tn_node_has_action network node (pop_action protocol_a protocol_b) = true →
        has_neighbor network node →
        x_val M node pos height = true → y_val M protocol_b pos height = true →
        y_val M protocol_a pos (height - 1) = true →
        ∃ v, (0 ≤ v ∧ v < tn_get_num_nodes network) ∧ tn_is_edge network node v = true ∧
          x_val M v (pos + 1) (height - 1) = true := by
  simp only [create_phi_3_pop, eval_conjunction_or_true, List.mem_flatMap, mem_int_range,
    mem_protocol_range]
  constructor
  · intro h pos hpos node hnode height hheight pa hpa pb hpb hact hnb hx hyb hya
    have := h _ ⟨pos, hpos, node, hnode, height, hheight, pa, hpa, pb, hpb, by
        rw [mem_unless, mem_unless_zero, Ne, neighbor_entries_length, not_not]
        exact ⟨hact, hnb, rfl⟩⟩
    rw [eval_implies_iff, eval_neighbor_or, eval_and_iff] at this
    apply this
    intro f hf
    simp only [List.mem_cons, List.mem_singleton, List.not_mem_nil, or_false] at hf
    rcases hf with rfl | rfl | rfl
    · exact hx
    · rw [eval_y_variable]; exact hyb
    · rw [eval_y_variable]; exact hya
  · rintro h f ⟨pos, hpos, node, hnode, height, hheight, pa, hpa, pb, hpb, hf⟩
    rw [mem_unless, mem_unless_zero, Ne, neighbor_entries_length, not_not] at hf
    obtain ⟨hact, hnb, rfl⟩ := hf
    rw [eval_implies_iff, eval_neighbor_or, eval_and_iff]
    intro hprem
    have hx := hprem _ (List.mem_cons_self _ _)
    have hyb := hprem _ (List.mem_cons_of_mem _ (List.mem_cons_self _ _))
    have hya := hprem _
      (List.mem_cons_of_mem _ (List.mem_cons_of_mem _ (List.mem_cons_self _ _)))
    rw [eval_y_variable] at hyb hya
    exact h pos hpos node hnode height hheight pa hpa pb hpb hact hnb hx hyb hya

theorem eval_create_phi_3 (M : Z3_model) (network : TunnelNetwork) (length : Int) :
    eval M (create_phi_3 network length) = true ↔
      eval M (create_phi_3_trans network length) = true ∧
      eval M (create_phi_3_push network length) = true ∧
      eval M (create_phi_3_pop network length) = true := by
  simp only [create_phi_3, eval_and_iff, List.forall_mem_cons, List.not_mem_nil,
    false_implies, implies_true, and_true]

/-! ## The meaning of φ5 -/

theorem eval_create_phi_5_trans (M : Z3_model) (network : TunnelNetwork) (length : Int) :
    eval M (create_phi_5_trans network length) = true ↔
      ∀ pos, 0 ≤ pos ∧ pos < length + 1 →
      ∀ node, 0 ≤ node ∧ node < tn_get_num_nodes network →
      ∀ height, 0 ≤ height ∧ height < get_stack_size length →
      ∀ protocol, protocol = 4 ∨ protocol = 6 →
        tn_node_has_action network node (if protocol = 4 then transmit_4 else transmit_6)
          = true →
        x_val M node pos height = true → y_val M protocol pos height = true := by
  simp only [create_phi_5_trans, eval_conjunction_or_true, List.mem_flatMap, mem_int_range,
    mem_protocol_range]
  constructor
  · intro h pos hpos node hnode height hheight p hp hact hx
    have := h _ ⟨pos, hpos, node, hnode, height, hheight, p, hp, by
        rw [mem_unless]
        exact ⟨hact, List.mem_singleton.2 rfl⟩⟩
    rw [eval_implies_iff, eval_y_variable] at this
    exact this hx
  · rintro h f ⟨pos, hpos, node, hnode, height, hheight, p, hp, hf⟩
    rw [mem_unless, List.mem_singleton] at hf
    obtain ⟨hact, rfl⟩ := hf
    rw [eval_implies_iff, eval_y_variable]
    exact h pos hpos node hnode height hheight p hp hact

theorem eval_create_phi_5_push (M : Z3_model) (network : TunnelNetwork) (length : Int) :
    eval M (create_phi_5_push network length) = true ↔
      ∀ pos, 0 ≤ pos ∧ pos < length + 1 →
      ∀ node, 0 ≤ node ∧ node < tn_get_num_nodes network →
      ∀ height, 0 ≤ height ∧ height < get_stack_size length →
      ∀ protocol_a, protocol_a = 4 ∨ protocol_a = 6 →
      ∀ protocol_b, protocol_b = 4 ∨ protocol_b = 6 →
        tn_node_has_action network node (push_action protocol_a protocol_b) = true →
        x_val M node pos height = true → y_val M protocol_a pos height = true := by
  simp only [create_phi_5_push, eval_conjunction_or_true, List.mem_flatMap, mem_int_range,
    mem_protocol_range]
  constructor
  · intro h pos hpos node hnode height hheight pa hpa pb hpb hact hx
    have := h _ ⟨pos, hpos, node, hnode, height, hheight, pa, hpa, pb, hpb, by
        rw [mem_unless]
        exact ⟨hact, List.mem_singleton.2 rfl⟩⟩
    rw [eval_implies_iff, eval_y_variable] at this
    exact this hx
  · rintro h f ⟨pos, hpos, node, hnode, height, hheight, pa, hpa, pb, hpb, hf⟩
    rw [mem_unless, List.mem_singleton] at hf
    obtain ⟨hact, rfl⟩ := hf
    rw [eval_implies_iff, eval_y_variable]
    exact h pos hpos node hnode height hheight pa hpa pb hpb hact

theorem eval_create_phi_5_pop (M : Z3_model) (network : TunnelNetwork) (length : Int) :
    eval M (create_phi_5_pop network length) = true ↔
      ∀ pos, 0 ≤ pos ∧ pos < length + 1 →
      ∀ node, 0 ≤ node ∧ node < tn_get_num_nodes network →
      ∀ height, 1 ≤ height ∧ height < get_stack_size length →
      ∀ protocol_a, protocol_a = 4 ∨ protocol_a = 6 →
      ∀ protocol_b, protocol_b = 4 ∨ protocol_b = 6 →
        tn_node_has_action network node (pop_action protocol_a protocol_b) = true →
        x_val M node pos height = true →
        y_val M protocol_b pos height = true ∧ y_val M protocol_a pos (height - 1) = true := by
  simp only [create_phi_5_pop, eval_conjunction_or_true, List.mem_flatMap, mem_int_range,
    mem_protocol_range]
  have hconc : ∀ (pos height pa pb : Int),
      eval M (Z3_mk_and [
        if pb = 4 then tn_4_variable pos height else tn_6_variable pos height,
        if pa = 4 then tn_4_variable pos (height - 1) else tn_6_variable pos (height - 1)])
        = true ↔
      (y_val M pb pos height = true ∧ y_val M pa pos (height - 1) = true) := by
    intro pos height pa pb
    simp only [eval_and_iff, List.forall_mem_cons, List.not_mem_nil, false_implies,
      implies_true, and_true, eval_y_variable]
  constructor
  · intro h pos hpos node hnode height hheight pa hpa pb hpb hact hx
    have := h _ ⟨pos, hpos, node, hnode, height, hheight, pa, hpa, pb, hpb, by
        rw [mem_unless]
        exact ⟨hact, List.mem_singleton.2 rfl⟩⟩
    rw [eval_implies_iff, hconc] at this
    exact this hx
  · rintro h f ⟨pos, hpos, node, hnode, height, hheight, pa, hpa, pb, hpb, hf⟩
    rw [mem_unless, List.mem_singleton] at hf
    obtain ⟨hact, rfl⟩ := hf
    rw [eval_implies_iff, hconc]
    exact h pos hpos node hnode height hheight pa hpa pb hpb hact

theorem eval_create_phi_5 (M : Z3_model) (network : TunnelNetwork) (length : Int) :
    eval M (create_phi_5 network length) = true ↔
      eval M (create_phi_5_trans network length) = true ∧
      eval M (create_phi_5_push network length) = true ∧
      eval M (create_phi_5_pop network length) = true := by
  simp only [create_phi_5, eval_and_iff, List.forall_mem_cons, List.not_mem_nil,
    false_implies, implies_true, and_true]

/-! ## The meaning of φ6 -/

/-- Cell `cell` holds the same values of `y4` and `y6` at `pos` and at `pos + 1`. -/
theorem eval_cell_preservation (M : Z3_model) (pos cell : Int) :
    eval M (cell_preservation pos cell) = true ↔
      (y4_val M pos cell = y4_val M (pos + 1) cell ∧
        y6_val M pos cell = y6_val M (pos + 1) cell) := by
  simp only [cell_preservation, eval_and_iff, List.forall_mem_cons, List.not_mem_nil,
    false_implies, implies_true, and_true, eval_eq_iff, eval_4_variable, eval_6_variable]

theorem eval_cell_preservations (M : Z3_model) (pos bound : Int) :
    eval M (Z3_mk_and ((int_range 0 bound).map fun cell => cell_preservation pos cell))
      = true ↔
      ∀ cell, 0 ≤ cell ∧ cell < bound →
        (y4_val M pos cell = y4_val M (pos + 1) cell ∧
          y6_val M pos cell = y6_val M (pos + 1) cell) := by
  simp only [eval_and_iff, List.mem_map, mem_int_range]
  constructor
  · intro h cell hc
    exact (eval_cell_preservation M pos cell).1 (h _ ⟨cell, hc, rfl⟩)
  · rintro h f ⟨cell, hc, rfl⟩
    exact (eval_cell_preservation M pos cell).2 (h cell hc)

theorem int_range_take (height : Int) (h : 0 ≤ height) :
    (int_range 0 (height + 1)).take height.toNat = int_range 0 height := by
  unfold int_range
  rw [← List.map_take, List.take_range]
  congr 2
  omega

theorem eval_create_phi_6_trans (M : Z3_model) (network : TunnelNetwork) (length : Int) :
    eval M (create_phi_6_trans network length) = true ↔
      ∀ pos, 0 ≤ pos ∧ pos < length + 1 →
      ∀ node, 0 ≤ node ∧ node < tn_get_num_nodes network →
      ∀ height, 0 ≤ height ∧ height < get_stack_size length →
      ∀ protocol : Int, protocol = 4 ∨ protocol = 6 →
        tn_node_has_action network node (if protocol = 4 then transmit_4 else transmit_6)
          = true →
        x_val M node pos height = true →
        ∀ cell, 0 ≤ cell ∧ cell < height + 1 →
          (y4_val M pos cell = y4_val M (pos + 1) cell ∧
            y6_val M pos cell = y6_val M (pos + 1) cell) := by
  simp only [create_phi_6_trans, eval_conjunction_or_true, List.mem_flatMap, mem_int_range,
    mem_protocol_range]
  constructor
  · intro h pos hpos node hnode height hheight p hp hact hx
    have := h _ ⟨pos, hpos, node, hnode, height, hheight, p, hp, by
        rw [mem_unless]
        exact ⟨hact, List.mem_singleton.2 rfl⟩⟩
    rw [eval_implies_iff, eval_cell_preservations] at this
    exact this hx
  · rintro h f ⟨pos, hpos, node, hnode, height, hheight, p, hp, hf⟩
    rw [mem_unless, List.mem_singleton] at hf
    obtain ⟨hact, rfl⟩ := hf
    rw [eval_implies_iff, eval_cell_preservations]
    exact h pos hpos node hnode height hheight p hp hact

theorem eval_create_phi_6_push (M : Z3_model) (network : TunnelNetwork) (length : Int) :
    eval M (create_phi_6_push network length) = true ↔
      ∀ pos, 0 ≤ pos ∧ pos < length →
      ∀ node, 0 ≤ node ∧ node < tn_get_num_nodes network →
      ∀ height, 0 ≤ height ∧ height < get_stack_size length - 1 →
      ∀ protocol_a, protocol_a = 4 ∨ protocol_a = 6 →
      ∀ protocol_b, protocol_b = 4 ∨ protocol_b = 6 →
        tn_node_has_action network node (push_action protocol_a protocol_b) = true →
        x_val M node pos height = true →
        ∀ cell, 0 ≤ cell ∧ cell < height + 1 →
          (y4_val M pos cell = y4_val M (pos + 1) cell ∧
            y6_val M pos cell = y6_val M (pos + 1) cell) := by
  simp only [create_phi_6_push, eval_conjunction_or_true, List.mem_flatMap, mem_int_range,
    mem_protocol_range]
  constructor
  · intro h pos hpos node hnode height hheight pa hpa pb hpb hact hx
    have := h _ ⟨pos, hpos, node, hnode, height, hheight, pa, hpa, pb, hpb, by
        rw [mem_unless]
        exact ⟨hact, List.mem_singleton.2 rfl⟩⟩
    rw [eval_implies_iff, eval_cell_preservations] at this
    exact this hx
  · rintro h f ⟨pos, hpos, node, hnode, height, hheight, pa, hpa, pb, hpb, hf⟩
    rw [mem_unless, List.mem_singleton] at hf
    obtain ⟨hact, rfl⟩ := hf
    rw [eval_implies_iff, eval_cell_preservations]
    exact h pos hpos node hnode height hheight pa hpa pb hpb hact

/-- The conclusion of a pop implication of φ6, in both branches of the test
`height == 1`: the cells `0 .. height - 1` are preserved. -/
theorem eval_pop_conclusion (M : Z3_model) (pos height : Int) (hh : 1 ≤ height) (f : Z3_ast)
    (premise : Z3_ast) :
    f ∈ (if height = 1 then
          [Z3_mk_implies premise (Z3_mk_and [
            Z3_mk_eq (tn_4_variable pos 0) (tn_4_variable (pos + 1) 0),
            Z3_mk_eq (tn_6_variable pos 0) (tn_6_variable (pos + 1) 0)])]
        else
          [Z3_mk_implies premise (Z3_mk_and
            (((int_range 0 (height + 1)).map fun cell => cell_preservation pos cell).take
              height.toNat))]) →
      (eval M f = true ↔ (eval M premise = true →
        ∀ cell, 0 ≤ cell ∧ cell < height →
          (y4_val M pos cell = y4_val M (pos + 1) cell ∧
            y6_val M pos cell = y6_val M (pos + 1) cell))) := by
  intro hf
  split at hf
  · rename_i h1
    rw [List.mem_singleton] at hf
    subst hf
    subst h1
    rw [eval_implies_iff]
    have : eval M (Z3_mk_and [
        Z3_mk_eq (tn_4_variable pos 0) (tn_4_variable (pos + 1) 0),
        Z3_mk_eq (tn_6_variable pos 0) (tn_6_variable (pos + 1) 0)]) = true ↔
        (y4_val M pos 0 = y4_val M (pos + 1) 0 ∧ y6_val M pos 0 = y6_val M (pos + 1) 0) :=
      eval_cell_preservation M pos 0
    rw [this]
    constructor
    · intro h hp cell hc
      have : cell = 0 := by omega
      subst this
      exact h hp
    · intro h hp
      exact h hp 0 (by omega)
  · rw [List.mem_singleton] at hf
    subst hf
    rw [eval_implies_iff, ← List.map_take, int_range_take height (by omega),
      eval_cell_preservations]

theorem eval_create_phi_6_pop (M : Z3_model) (network : TunnelNetwork) (length : Int) :
    eval M (create_phi_6_pop network length) = true ↔
      ∀ pos, 0 ≤ pos ∧ pos < length →
      ∀ node, 0 ≤ node ∧ node < tn_get_num_nodes network →
      ∀ height, 1 ≤ height ∧ height < get_stack_size length →
      ∀ protocol_a, protocol_a = 4 ∨ protocol_a = 6 →
      ∀ protocol_b, protocol_b = 4 ∨ protocol_b = 6 →
        tn_node_has_action network node (pop_action protocol_a protocol_b) = true →
        x_val M node pos height = true →
        ∀ cell, 0 ≤ cell ∧ cell < height →
          (y4_val M pos cell = y4_val M (pos + 1) cell ∧
            y6_val M pos cell = y6_val M (pos + 1) cell) := by
  simp only [create_phi_6_pop, eval_conjunction_or_true, List.mem_flatMap, mem_int_range,
    mem_protocol_range]
  constructor
  · intro h pos hpos node hnode height hheight pa hpa pb hpb hact hx
    by_cases h1 : height = 1
    · have hm := h (Z3_mk_implies (tn_path_variable node pos height) (Z3_mk_and [
            Z3_mk_eq (tn_4_variable pos 0) (tn_4_variable (pos + 1) 0),
            Z3_mk_eq (tn_6_variable pos 0) (tn_6_variable (pos + 1) 0)]))
        ⟨pos, hpos, node, hnode, height, hheight, pa, hpa, pb, hpb, by
          rw [mem_unless, if_pos h1]
          exact ⟨hact, List.mem_singleton.2 rfl⟩⟩
      exact (eval_pop_conclusion M pos height hheight.1 _ (tn_path_variable node pos height)
        (by rw [if_pos h1]; exact List.mem_singleton.2 rfl)).1 hm hx
    · have hm := h (Z3_mk_implies (tn_path_variable node pos height) (Z3_mk_and
            (((int_range 0 (height + 1)).map fun cell => cell_preservation pos cell).take
              height.toNat)))
        ⟨pos, hpos, node, hnode, height, hheight, pa, hpa, pb, hpb, by
          rw [mem_unless, if_neg h1]
          exact ⟨hact, List.mem_singleton.2 rfl⟩⟩
      exact (eval_pop_conclusion M pos height hheight.1 _ (tn_path_variable node pos height)
        (by rw [if_neg h1]; exact List.mem_singleton.2 rfl)).1 hm hx
  · rintro h f ⟨pos, hpos, node, hnode, height, hheight, pa, hpa, pb, hpb, hf⟩
    rw [mem_unless] at hf
    obtain ⟨hact, hf⟩ := hf
    rw [eval_pop_conclusion M pos height hheight.1 f (tn_path_variable node pos height) hf]
    exact h pos hpos node hnode height hheight pa hpa pb hpb hact

theorem eval_create_phi_6 (M : Z3_model) (network : TunnelNetwork) (length : Int) :
    eval M (create_phi_6 network length) = true ↔
      eval M (create_phi_6_trans network length) = true ∧
      eval M (create_phi_6_push network length) = true ∧
      eval M (create_phi_6_pop network length) = true := by
  simp only [create_phi_6, eval_and_iff, List.forall_mem_cons, List.not_mem_nil,
    false_implies, implies_true, and_true]

/-! ## P1, P2 and the endpoints -/

theorem occupied_iff_mem (network : TunnelNetwork) (length : Int) (M : Z3_model)
    (i : Int) (p : Int × Int) :
    occupied network length M i p.1 p.2 ↔
      p ∈ node_height_pairs network length ∧ x_val M p.1 i p.2 = true := by
  rw [mem_node_height_pairs]
  unfold occupied
  tauto

/-- In a model of φ1 every position `0 .. length` has one occupied pair and only one. -/
theorem occupied_exists_unique (network : TunnelNetwork) (length : Int) (M : Z3_model)
    (h1 : eval M (create_phi_1 network length) = true) (i : Int) (hi : 0 ≤ i ∧ i ≤ length) :
    ∃ u h, occupied network length M i u h ∧
      ∀ u' h', occupied network length M i u' h' → u' = u ∧ h' = h := by
  have hc := (eval_create_phi_1 M network length).1 h1 i hi.1 hi.2
  obtain ⟨a, ha, huniq⟩ := countP_eq_one_unique _ _ hc
  refine ⟨a.1, a.2, (occupied_iff_mem network length M i a).2 ha, ?_⟩
  intro u' h' hocc
  have := huniq (u', h') ((occupied_iff_mem network length M i (u', h')).1 hocc)
  exact ⟨congrArg Prod.fst this, congrArg Prod.snd this⟩

theorem occupied_eq (network : TunnelNetwork) (length : Int) (M : Z3_model)
    (h1 : eval M (create_phi_1 network length) = true) (i : Int) (hi : 0 ≤ i ∧ i ≤ length)
    (u h u' h' : Int) (ho : occupied network length M i u h)
    (ho' : occupied network length M i u' h') : u' = u ∧ h' = h := by
  obtain ⟨a, b, _, huniq⟩ := occupied_exists_unique network length M h1 i hi
  obtain ⟨h1, h2⟩ := huniq u h ho
  obtain ⟨h3, h4⟩ := huniq u' h' ho'
  exact ⟨by rw [h1, h3], by rw [h2, h4]⟩

/-- In a model of φ4 every cell up to an occupied top holds exactly one protocol. -/
theorem cell_xor (network : TunnelNetwork) (length : Int) (M : Z3_model)
    (h4 : eval M (create_phi_4 network length) = true) (i : Int) (hi : 0 ≤ i ∧ i ≤ length)
    (u h : Int) (ho : occupied network length M i u h) (k : Int) (hk : 0 ≤ k ∧ k ≤ h) :
    y4_val M i k = !y6_val M i k :=
  (eval_create_phi_4 M network length).1 h4 i hi.1 hi.2 h ho.2.1.1 ho.2.1.2
    ⟨u, ho.1, ho.2.2⟩ k hk.1 hk.2

/-- C3 (P1): in every model of `tn_reduction network length`, for a network with at least
one node and `length ≥ 0`, each position `i` of `0 .. length` has exactly one pair
`(u, h)` with `u` in `[0, N)` and `h` in `[0, get_stack_size length)` such that
`x(u, i, h)` is true. -/
theorem exactly_one_pair_per_position (network : TunnelNetwork) (length : Int)
    (M : Z3_model) (_hN : 1 ≤ tn_get_num_nodes network) (_hL : 0 ≤ length)
    (hM : eval M (tn_reduction network length) = true) (i : Int)
    (hi : 0 ≤ i ∧ i ≤ length) :
    ∃! p : Int × Int, (0 ≤ p.1 ∧ p.1 < tn_get_num_nodes network) ∧
      (0 ≤ p.2 ∧ p.2 < get_stack_size length) ∧
      value_of_var_in_model M (tn_path_variable p.1 i p.2) = true := by
  have h1 := ((eval_tn_reduction M network length).1 hM).1
  obtain ⟨u, h, ho, huniq⟩ := occupied_exists_unique network length M h1 i hi
  refine ⟨(u, h), ho, ?_⟩
  rintro ⟨u', h'⟩ ho'
  obtain ⟨hu, hh⟩ := huniq u' h' ho'
  simp only [hu, hh]

theorem exactly_one_pair_per_position_witness :
    ∃! p : Int × Int, (0 ≤ p.1 ∧ p.1 < tn_get_num_nodes tunnel_network) ∧
      (0 ≤ p.2 ∧ p.2 < get_stack_size 3) ∧
      value_of_var_in_model tunnel_model (tn_path_variable p.1 2 p.2) = true :=
  exactly_one_pair_per_position tunnel_network 3 tunnel_model (by decide) (by decide)
    (by decide) 2 (by decide)

/-- C4 (P2): in every model of `tn_reduction network length`, at every position `i` of
`0 .. length` and for every cell `k` up to the top height `h` occupied at `i`, exactly
one of `y4(i, k)` and `y6(i, k)` is true. -/
theorem exactly_one_protocol_per_cell (network : TunnelNetwork) (length : Int)
    (M : Z3_model) (hM : eval M (tn_reduction network length) = true) (i : Int)
    (hi : 0 ≤ i ∧ i ≤ length) (u h : Int) (ho : occupied network length M i u h)
    (k : Int) (hk : 0 ≤ k ∧ k ≤ h) :
    (value_of_var_in_model M (tn_4_variable i k) = true ∧
        value_of_var_in_model M (tn_6_variable i k) = false) ∨
      (value_of_var_in_model M (tn_4_variable i k) = false ∧
        value_of_var_in_model M (tn_6_variable i k) = true) := by
  have h4 := ((eval_tn_reduction M network length).1 hM).2.2.2.1
  have hx := cell_xor network length M h4 i hi u h ho k hk
  unfold y4_val y6_val at hx
  cases h6 : value_of_var_in_model M (tn_6_variable i k) <;> simp [hx, h6]

theorem exactly_one_protocol_per_cell_witness :
    (value_of_var_in_model tunnel_model (tn_4_variable 1 1) = true ∧
        value_of_var_in_model tunnel_model (tn_6_variable 1 1) = false) ∨
      (value_of_var_in_model tunnel_model (tn_4_variable 1 1) = false ∧
        value_of_var_in_model tunnel_model (tn_6_variable 1 1) = true) :=
  exactly_one_protocol_per_cell tunnel_network 3 tunnel_model (by decide) 1 (by decide)
    1 1 (by decide) 1 (by decide)

/-- C8 (endpoints): for `length ≥ 0`, a model satisfies `create_phi_2 network length` if
and only if `x(source, 0, 0)`, `y4(0, 0)`, `x(destination, length, 0)` and
`y4(length, 0)` are all true in it. -/
theorem phi_2_endpoints (network : TunnelNetwork) (length : Int) (_hL : 0 ≤ length)
    (M : Z3_model) :
    eval M (create_phi_2 network length) = true ↔
      (value_of_var_in_model M (tn_path_variable (tn_get_initial network) 0 0) = true ∧
        value_of_var_in_model M (tn_4_variable 0 0) = true ∧
        value_of_var_in_model M (tn_path_variable (tn_get_final network) length 0) = true ∧
        value_of_var_in_model M (tn_4_variable length 0) = true) :=
  eval_create_phi_2 M network length

theorem phi_2_endpoints_witness :
    eval tunnel_model (create_phi_2 tunnel_network 3) = true ↔
      (value_of_var_in_model tunnel_model
          (tn_path_variable (tn_get_initial tunnel_network) 0 0) = true ∧
        value_of_var_in_model tunnel_model (tn_4_variable 0 0) = true ∧
        value_of_var_in_model tunnel_model
          (tn_path_variable (tn_get_final tunnel_network) 3 0) = true ∧
        value_of_var_in_model tunnel_model (tn_4_variable 3 0) = true) :=
  phi_2_endpoints tunnel_network 3 (by decide) tunnel_model

/-! ## The scanning loops of the decoder -/

theorem foldl_flatMap_eq {α β γ : Type} (f : β → γ → β) (g : α → List γ) (l : List α)
    (init : β) :
    (l.flatMap g).foldl f init = l.foldl (fun acc a => (g a).foldl f acc) init := by
  induction l generalizing init with
  | nil => rfl
  | cons a rest ih => simp [List.flatMap_cons, List.foldl_append, ih]

/-- The two nested loops visit the pairs of `node_height_pairs` in order. -/
theorem scan_position_eq (model : Z3_model) (network : TunnelNetwork) (bound pos : Int) :
    scan_position model network bound pos =
      (node_height_pairs network bound).foldl
        (fun st p => scan_body model pos p.1 st p.2) ⟨-1, -1, -1, -1⟩ := by
  unfold scan_position node_height_pairs
  rw [foldl_flatMap_eq]
  congr 1
  funext st n
  rw [List.foldl_map]

theorem foldl_select_none {α : Type} (P : α → Bool) (l : List α) (init : α)
    (h : ∀ b ∈ l, P b = false) :
    l.foldl (fun acc b => if P b = true then b else acc) init = init := by
  induction l generalizing init with
  | nil => rfl
  | cons b rest ih =>
    rw [List.foldl_cons, h b (List.mem_cons_self _ _)]
    exact ih init fun c hc => h c (List.mem_cons_of_mem _ hc)

/-- A loop that keeps the last element satisfying `P` returns the only such element. -/
theorem foldl_select_unique {α : Type} (P : α → Bool) (l : List α) (init a : α)
    (ha : a ∈ l) (hPa : P a = true) (huniq : ∀ b ∈ l, P b = true → b = a) :
    l.foldl (fun acc b => if P b = true then b else acc) init = a := by
  induction l generalizing init with
  | nil => simp at ha
  | cons b rest ih =>
    rw [List.foldl_cons]
    by_cases hmem : a ∈ rest
    · exact ih _ hmem fun c hc => huniq c (List.mem_cons_of_mem _ hc)
    · have hab : a = b := by
        rcases List.mem_cons.1 ha with h | h
        · exact h
        · exact absurd h hmem
      subst hab
      rw [foldl_select_none]
      · simp [hPa]
      · intro c hc
        by_contra hPc
        have : c = a := huniq c (List.mem_cons_of_mem _ hc) (by simpa using hPc)
        exact hmem (this ▸ hc)

/-- The locals `src, src_height` and `tgt, tgt_height` evolve independently, each
keeping the last pair whose variable is true. -/
theorem scan_fold_components (model : Z3_model) (pos : Int) (l : List (Int × Int))
    (st : scan_state) :
    let r := l.foldl (fun st p => scan_body model pos p.1 st p.2) st
    (r.src, r.src_height) =
        l.foldl (fun acc p => if x_val model p.1 pos p.2 = true then p else acc)
          (st.src, st.src_height) ∧
      (r.tgt, r.tgt_height) =
        l.foldl (fun acc p => if x_val model p.1 (pos + 1) p.2 = true then p else acc)
          (st.tgt, st.tgt_height) := by
  induction l generalizing st with
  | nil => exact ⟨rfl, rfl⟩
  | cons p rest ih =>
    simp only [List.foldl_cons]
    have h := ih (scan_body model pos p.1 st p.2)
    simp only at h
    rw [h.1, h.2]
    have e1 : ((scan_body model pos p.1 st p.2).src,
        (scan_body model pos p.1 st p.2).src_height) =
        if x_val model p.1 pos p.2 = true then p else (st.src, st.src_height) := by
      unfold scan_body x_val
      by_cases hs : value_of_var_in_model model (tn_path_variable p.1 pos p.2) = true <;>
        by_cases ht : value_of_var_in_model model (tn_path_variable p.1 (pos + 1) p.2) = true
          <;> simp [hs, ht]
    have e2 : ((scan_body model pos p.1 st p.2).tgt,
        (scan_body model pos p.1 st p.2).tgt_height) =
        if x_val model p.1 (pos + 1) p.2 = true then p else (st.tgt, st.tgt_height) := by
      unfold scan_body x_val
      by_cases hs : value_of_var_in_model model (tn_path_variable p.1 pos p.2) = true <;>
        by_cases ht : value_of_var_in_model model (tn_path_variable p.1 (pos + 1) p.2) = true
          <;> simp [hs, ht]
    rw [e1, e2]
    exact ⟨rfl, rfl⟩

/-- When exactly one pair is occupied at `pos` the scan finds it as `src, src_height`. -/
theorem scan_position_src (model : Z3_model) (network : TunnelNetwork) (bound pos : Int)
    (u h : Int) (ho : occupied network bound model pos u h)
    (huniq : ∀ u' h', occupied network bound model pos u' h' → u' = u ∧ h' = h) :
    (scan_position model network bound pos).src = u ∧
      (scan_position model network bound pos).src_height = h := by
  have hc := (scan_fold_components model pos (node_height_pairs network bound)
    ⟨-1, -1, -1, -1⟩).1
  rw [← scan_position_eq] at hc
  have hsel := foldl_select_unique (fun p : Int × Int => x_val model p.1 pos p.2)
    (node_height_pairs network bound) (-1, -1) (u, h)
    ((occupied_iff_mem network bound model pos (u, h)).1 ho).1 ho.2.2
    (by
      rintro ⟨u', h'⟩ hmem hx
      have := huniq u' h' ((occupied_iff_mem network bound model pos (u', h')).2 ⟨hmem, hx⟩)
      rw [this.1, this.2])
  simp only at hc hsel
  rw [hsel] at hc
  exact ⟨congrArg Prod.fst hc, congrArg Prod.snd hc⟩

/-- When exactly one pair is occupied at `pos + 1` the scan finds it as
`tgt, tgt_height`. -/
theorem scan_position_tgt (model : Z3_model) (network : TunnelNetwork) (bound pos : Int)
    (v h : Int) (ho : occupied network bound model (pos + 1) v h)
    (huniq : ∀ u' h', occupied network bound model (pos + 1) u' h' → u' = v ∧ h' = h) :
    (scan_position model network bound pos).tgt = v ∧
      (scan_position model network bound pos).tgt_height = h := by
  have hc := (scan_fold_components model pos (node_height_pairs network bound)
    ⟨-1, -1, -1, -1⟩).2
  rw [← scan_position_eq] at hc
  have hsel := foldl_select_unique (fun p : Int × Int => x_val model p.1 (pos + 1) p.2)
    (node_height_pairs network bound) (-1, -1) (v, h)
    ((occupied_iff_mem network bound model (pos + 1) (v, h)).1 ho).1 ho.2.2
    (by
      rintro ⟨u', h'⟩ hmem hx
      have := huniq u' h'
        ((occupied_iff_mem network bound model (pos + 1) (u', h')).2 ⟨hmem, hx⟩)
      rw [this.1, this.2])
  simp only at hc hsel
  rw [hsel] at hc
  exact ⟨congrArg Prod.fst hc, congrArg Prod.snd hc⟩

theorem int_range_getElem? (lo hi i : Int) (hi1 : lo ≤ i) (hi2 : i < hi) :
    (int_range lo hi)[(i - lo).toNat]? = some i := by
  unfold int_range
  rw [List.getElem?_map, List.getElem?_range (by omega)]
  simp only [Option.map_some']
  congr 1
  omega

/-- Entry `path[pos]` written by the decoder. -/
theorem decoded_step (action_0 : stack_action) (model : Z3_model)
    (network : TunnelNetwork) (bound pos : Int) (h0 : 0 ≤ pos) (h1 : pos < bound) :
    (tn_get_path_from_model action_0 model network bound)[pos.toNat]? =
      some (tn_step_create
        (decode_action action_0 model pos
          (scan_position model network bound pos).src_height
          (scan_position model network bound pos).tgt_height)
        (scan_position model network bound pos).src
        (scan_position model network bound pos).tgt) := by
  unfold tn_get_path_from_model
  have := int_range_getElem? 0 bound pos h0 h1
  simp only [sub_zero] at this
  rw [List.getElem?_map, this]
  rfl

/-! ## The decoder: classification and chaining (C9, C10) -/

theorem decode_action_transmit (action_0 : stack_action) (M : Z3_model) (i h : Int) :
    decode_action action_0 M i h h =
      if value_of_var_in_model M (tn_4_variable i h) = true then transmit_4
      else transmit_6 := by
  unfold decode_action
  rw [if_pos rfl]

theorem decode_action_push (action_0 : stack_action) (M : Z3_model) (i h : Int) :
    decode_action action_0 M i h (h + 1) =
      push_tag (protocol_at M i h) (protocol_at M (i + 1) (h + 1)) := by
  unfold decode_action protocol_at y4_val
  rw [if_neg (by omega), if_pos (by omega)]
  by_cases h1 : value_of_var_in_model M (tn_4_variable i h) = true <;>
    by_cases h2 : value_of_var_in_model M (tn_4_variable (i + 1) (h + 1)) = true <;>
      simp [h1, h2, push_tag]

theorem decode_action_pop (action_0 : stack_action) (M : Z3_model) (i h : Int) :
    decode_action action_0 M i (h + 1) h =
      pop_tag (protocol_at M (i + 1) h) (protocol_at M i (h + 1)) := by
  unfold decode_action protocol_at y4_val
  rw [if_neg (by omega), if_neg (by omega), if_pos rfl]
  by_cases h1 : value_of_var_in_model M (tn_4_variable i (h + 1)) = true <;>
    by_cases h2 : value_of_var_in_model M (tn_4_variable (i + 1) h) = true <;>
      simp [h1, h2, pop_tag]

/-- C10 (decoder classification): at a hop `i` of `0 .. L - 1` where exactly one pair
`(src, src_h)` is occupied at `i` and exactly one pair `(tgt, tgt_h)` at `i + 1`, the
step written by `tn_get_path_from_model` carries, with `D = tgt_h - src_h`: for `D = 0`
`transmit_4` if `y4(i, src_h)` is true and `transmit_6` otherwise; for `D = 1` the tag
`push_a_b` with `a` the protocol at `(i, src_h)` and `b` the protocol at
`(i + 1, tgt_h)`; for `D = -1` the tag `pop_a_b` with `a` the protocol at
`(i + 1, tgt_h)` and `b` the protocol at `(i, src_h)`. -/
theorem decoder_classification (action_0 : stack_action) (M : Z3_model)
    (network : TunnelNetwork) (L i : Int) (hi : 0 ≤ i ∧ i < L)
    (src src_h tgt tgt_h : Int)
    (hs : occupied network L M i src src_h)
    (hsu : ∀ u h, occupied network L M i u h → u = src ∧ h = src_h)
    (ht : occupied network L M (i + 1) tgt tgt_h)
    (htu : ∀ u h, occupied network L M (i + 1) u h → u = tgt ∧ h = tgt_h) :
    ∃ step, (tn_get_path_from_model action_0 M network L)[i.toNat]? = some step ∧
      (tgt_h - src_h = 0 → step.action =
        if value_of_var_in_model M (tn_4_variable i src_h) = true then transmit_4
        else transmit_6) ∧
      (tgt_h - src_h = 1 → step.action =
        push_tag (protocol_at M i src_h) (protocol_at M (i + 1) tgt_h)) ∧
      (tgt_h - src_h = -1 → step.action =
        pop_tag (protocol_at M (i + 1) tgt_h) (protocol_at M i src_h)) := by
  refine ⟨_, decoded_step action_0 M network L i hi.1 hi.2, ?_⟩
  obtain ⟨_, e2⟩ := scan_position_src M network L i src src_h hs hsu
  obtain ⟨_, e4⟩ := scan_position_tgt M network L i tgt tgt_h ht htu
  simp only [tn_step_create, e2, e4]
  refine ⟨?_, ?_, ?_⟩
  · intro hd
    have : tgt_h = src_h := by omega
    rw [this, decode_action_transmit]
  · intro hd
    have : tgt_h = src_h + 1 := by omega
    rw [this, decode_action_push]
  · intro hd
    have : src_h = tgt_h + 1 := by omega
    rw [this, decode_action_pop]

theorem decoder_classification_witness :
    ∃ step, (tn_get_path_from_model transmit_4 tunnel_model tunnel_network 3)[(0 : Int).toNat]?
        = some step ∧
      ((1 : Int) - 0 = 0 → step.action =
        if value_of_var_in_model tunnel_model (tn_4_variable 0 0) = true then transmit_4
        else transmit_6) ∧
      ((1 : Int) - 0 = 1 → step.action =
        push_tag (protocol_at tunnel_model 0 0) (protocol_at tunnel_model (0 + 1) 1)) ∧
      ((1 : Int) - 0 = -1 → step.action =
        pop_tag (protocol_at tunnel_model (0 + 1) 1) (protocol_at tunnel_model 0 0)) :=
  decoder_classification transmit_4 tunnel_model tunnel_network 3 0 (by decide) 0 0 1 1
    (by decide)
    (fun u h ho => occupied_eq tunnel_network 3 tunnel_model (by decide) 0 (by decide)
      0 0 u h (by decide) ho)
    (by decide)
    (fun u h ho => occupied_eq tunnel_network 3 tunnel_model (by decide) (0 + 1) (by decide)
      1 1 u h (by decide) ho)

theorem get_stack_size_eq (length : Int) (hL : 0 ≤ length) :
    get_stack_size length = length / 2 + 1 := by
  unfold get_stack_size
  rw [Int.tdiv_eq_ediv hL (by decide)]

theorem get_stack_size_pos (length : Int) (hL : 0 ≤ length) : 0 < get_stack_size length := by
  rw [get_stack_size_eq length hL]
  omega

/-- With the source among the nodes, the pair occupied at position 0 is
`(source, 0)`. -/
theorem occupied_source (network : TunnelNetwork) (length : Int) (M : Z3_model)
    (hL : 0 ≤ length)
    (hsrc : 0 ≤ tn_get_initial network ∧ tn_get_initial network < tn_get_num_nodes network)
    (hM : eval M (tn_reduction network length) = true) :
    occupied network length M 0 (tn_get_initial network) 0 :=
  ⟨hsrc, ⟨le_refl 0, get_stack_size_pos length hL⟩,
    ((eval_create_phi_2 M network length).1 ((eval_tn_reduction M network length).1 hM).2.1).1⟩

/-- With the destination among the nodes, the pair occupied at position `length` is
`(destination, 0)`. -/
theorem occupied_destination (network : TunnelNetwork) (length : Int) (M : Z3_model)
    (hL : 0 ≤ length)
    (hdst : 0 ≤ tn_get_final network ∧ tn_get_final network < tn_get_num_nodes network)
    (hM : eval M (tn_reduction network length) = true) :
    occupied network length M length (tn_get_final network) 0 :=
  ⟨hdst, ⟨le_refl 0, get_stack_size_pos length hL⟩,
    ((eval_create_phi_2 M network length).1
      ((eval_tn_reduction M network length).1 hM).2.1).2.2.1⟩

/-- In a model of φ1, the step decoded for hop `i` goes from the node occupied at `i` to
the node occupied at `i + 1`, with the action classified from their heights. -/
theorem decoded_step_of_occupied (action_0 : stack_action) (network : TunnelNetwork)
    (L : Int) (M : Z3_model) (h1 : eval M (create_phi_1 network L) = true)
    (i : Int) (hi : 0 ≤ i ∧ i < L) (u h v h' : Int)
    (ho : occupied network L M i u h) (ho' : occupied network L M (i + 1) v h') :
    (tn_get_path_from_model action_0 M network L)[i.toNat]? =
      some (tn_step_create (decode_action action_0 M i h h') u v) := by
  rw [decoded_step action_0 M network L i hi.1 hi.2]
  obtain ⟨e1, e2⟩ := scan_position_src M network L i u h ho
    (fun u' h' hx => occupied_eq network L M h1 i ⟨hi.1, by omega⟩ u h u' h' ho hx)
  obtain ⟨e3, e4⟩ := scan_position_tgt M network L i v h' ho'
    (fun u' h'' hx =>
      occupied_eq network L M h1 (i + 1) ⟨by omega, by omega⟩ v h' u' h'' ho' hx)
  rw [e1, e2, e3, e4]

/-- C9 (amended): for a network with `N ≥ 1` whose source and destination are nodes of
the network, `L ≥ 1` and a model of `tn_reduction network L`, step `i` of the decoded
path has `src` the node occupied at position `i` and `tgt` the node occupied at
position `i + 1`; step 0 leaves the source, step `L - 1` reaches the destination, and
the `tgt` of step `i` is the `src` of step `i + 1`. -/
theorem decoded_steps_chain (action_0 : stack_action) (network : TunnelNetwork) (L : Int)
    (M : Z3_model) (_hN : 1 ≤ tn_get_num_nodes network) (hL : 1 ≤ L)
    (hsrc : 0 ≤ tn_get_initial network ∧ tn_get_initial network < tn_get_num_nodes network)
    (hdst : 0 ≤ tn_get_final network ∧ tn_get_final network < tn_get_num_nodes network)
    (hM : eval M (tn_reduction network L) = true) :
    (∀ i, 0 ≤ i ∧ i < L → ∀ u h v h', occupied network L M i u h →
      occupied network L M (i + 1) v h' →
      ∃ step, (tn_get_path_from_model action_0 M network L)[i.toNat]? = some step ∧
        step.src = u ∧ step.tgt = v) ∧
    (∃ step, (tn_get_path_from_model action_0 M network L)[0]? = some step ∧
      step.src = tn_get_initial network) ∧
    (∃ step, (tn_get_path_from_model action_0 M network L)[(L - 1).toNat]? = some step ∧
      step.tgt = tn_get_final network) ∧
    (∀ i, 0 ≤ i ∧ i + 1 < L →
      ∃ s t, (tn_get_path_from_model action_0 M network L)[i.toNat]? = some s ∧
        (tn_get_path_from_model action_0 M network L)[(i + 1).toNat]? = some t ∧
        s.tgt = t.src) := by
  have h1 := ((eval_tn_reduction M network L).1 hM).1
  have hstep : ∀ i, 0 ≤ i ∧ i < L → ∀ u h v h', occupied network L M i u h →
      occupied network L M (i + 1) v h' →
      ∃ step, (tn_get_path_from_model action_0 M network L)[i.toNat]? = some step ∧
        step.src = u ∧ step.tgt = v := by
    intro i hi u h v h' ho ho'
    exact ⟨_, decoded_step_of_occupied action_0 network L M h1 i hi u h v h' ho ho',
      rfl, rfl⟩
  refine ⟨hstep, ?_, ?_, ?_⟩
  · obtain ⟨v, h', ho', _⟩ := occupied_exists_unique network L M h1 (0 + 1)
      ⟨by omega, by omega⟩
    obtain ⟨step, hs, hsrc', _⟩ := hstep 0 ⟨le_refl 0, by omega⟩ _ _ v h'
      (occupied_source network L M (by omega) hsrc hM) ho'
    exact ⟨step, hs, hsrc'⟩
  · obtain ⟨u, h, ho, _⟩ := occupied_exists_unique network L M h1 (L - 1)
      ⟨by omega, by omega⟩
    have hd := occupied_destination network L M (by omega) hdst hM
    have hd : occupied network L M (L - 1 + 1) (tn_get_final network) 0 := by
      rw [show L - 1 + 1 = L by omega]
      exact hd
    obtain ⟨step, hs, _, htgt⟩ := hstep (L - 1) ⟨by omega, by omega⟩ u h _ _ ho hd
    exact ⟨step, hs, htgt⟩
  · intro i hi
    obtain ⟨u, h, ho, _⟩ := occupied_exists_unique network L M h1 i ⟨hi.1, by omega⟩
    obtain ⟨v, h', ho', _⟩ := occupied_exists_unique network L M h1 (i + 1)
      ⟨by omega, by omega⟩
    obtain ⟨w, h'', ho'', _⟩ := occupied_exists_unique network L M h1 (i + 1 + 1)
      ⟨by omega, by omega⟩
    obtain ⟨s, hs, _, hst⟩ := hstep i ⟨hi.1, by omega⟩ u h v h' ho ho'
    obtain ⟨t, ht, hts, _⟩ := hstep (i + 1) ⟨by omega, hi.2⟩ v h' w h'' ho' ho''
    exact ⟨s, t, hs, ht, by rw [hst, hts]⟩

theorem decoded_steps_chain_witness :
    (∀ i : Int, 0 ≤ i ∧ i < 3 → ∀ u h v h', occupied tunnel_network 3 tunnel_model i u h →
      occupied tunnel_network 3 tunnel_model (i + 1) v h' →
      ∃ step, (tn_get_path_from_model transmit_4 tunnel_model tunnel_network 3)[i.toNat]?
          = some step ∧
        step.src = u ∧ step.tgt = v) ∧
    (∃ step, (tn_get_path_from_model transmit_4 tunnel_model tunnel_network 3)[0]?
        = some step ∧
      step.src = tn_get_initial tunnel_network) ∧
    (∃ step, (tn_get_path_from_model transmit_4 tunnel_model tunnel_network 3)[
        ((3 : Int) - 1).toNat]? = some step ∧
      step.tgt = tn_get_final tunnel_network) ∧
    (∀ i : Int, 0 ≤ i ∧ i + 1 < 3 →
      ∃ s t, (tn_get_path_from_model transmit_4 tunnel_model tunnel_network 3)[i.toNat]?
          = some s ∧
        (tn_get_path_from_model transmit_4 tunnel_model tunnel_network 3)[(i + 1).toNat]?
          = some t ∧
        s.tgt = t.src) :=
  decoded_steps_chain transmit_4 tunnel_network 3 tunnel_model (by decide) (by decide)
    (by decide) (by decide) (by decide)

/-- C9 as stated fails when the source is not a node of the network: for
`stray_source_network` (`N = 1`, source 1) and `L = 1`, `stray_source_model` satisfies
the reduction and step 0 of the decoded path leaves node 0, not the source. -/
theorem decoded_steps_chain_counterexample :
    1 ≤ tn_get_num_nodes stray_source_network ∧ (1 : Int) ≤ 1 ∧
      eval stray_source_model (tn_reduction stray_source_network 1) = true ∧
      ∃ step, (tn_get_path_from_model transmit_4 stray_source_model
          stray_source_network 1)[0]? = some step ∧
        step.src ≠ tn_get_initial stray_source_network := by
  refine ⟨by decide, by decide, by decide, ⟨transmit_4, 0, 0⟩, by decide, by decide⟩

/-! ## Tags, protocols and the stack read in a model -/

theorem transmit_form (p : Int) :
    (if p = 4 then transmit_4 else transmit_6) = transmit_tag (proto_of_int p) := by
  unfold proto_of_int
  split <;> rfl

theorem push_form (pa pb : Int) (ha : pa = 4 ∨ pa = 6) (hb : pb = 4 ∨ pb = 6) :
    push_action pa pb = push_tag (proto_of_int pa) (proto_of_int pb) := by
  rcases ha with rfl | rfl <;> rcases hb with rfl | rfl <;> rfl

theorem pop_form (pa pb : Int) (ha : pa = 4 ∨ pa = 6) (hb : pb = 4 ∨ pb = 6) :
    pop_action pa pb = pop_tag (proto_of_int pa) (proto_of_int pb) := by
  rcases ha with rfl | rfl <;> rcases hb with rfl | rfl <;> rfl

/-- Every tag is the one a builder selects for some value of its protocol variables. -/
theorem action_forms (a : stack_action) :
    (∃ p : Int, (p = 4 ∨ p = 6) ∧ a = if p = 4 then transmit_4 else transmit_6) ∨
    (∃ pa pb : Int, (pa = 4 ∨ pa = 6) ∧ (pb = 4 ∨ pb = 6) ∧ a = push_action pa pb) ∨
    (∃ pa pb : Int, (pa = 4 ∨ pa = 6) ∧ (pb = 4 ∨ pb = 6) ∧ a = pop_action pa pb) := by
  cases a
  · exact Or.inl ⟨4, Or.inl rfl, rfl⟩
  · exact Or.inl ⟨6, Or.inr rfl, rfl⟩
  · exact Or.inr (Or.inl ⟨4, 4, Or.inl rfl, Or.inl rfl, rfl⟩)
  · exact Or.inr (Or.inl ⟨4, 6, Or.inl rfl, Or.inr rfl, rfl⟩)
  · exact Or.inr (Or.inl ⟨6, 4, Or.inr rfl, Or.inl rfl, rfl⟩)
  · exact Or.inr (Or.inl ⟨6, 6, Or.inr rfl, Or.inr rfl, rfl⟩)
  · exact Or.inr (Or.inr ⟨4, 4, Or.inl rfl, Or.inl rfl, rfl⟩)
  · exact Or.inr (Or.inr ⟨4, 6, Or.inl rfl, Or.inr rfl, rfl⟩)
  · exact Or.inr (Or.inr ⟨6, 4, Or.inr rfl, Or.inl rfl, rfl⟩)
  · exact Or.inr (Or.inr ⟨6, 6, Or.inr rfl, Or.inr rfl, rfl⟩)

theorem applicable_push (length h pa pb : Int) (ha : pa = 4 ∨ pa = 6)
    (hb : pb = 4 ∨ pb = 6) :
    action_applicable length h (push_action pa pb) ↔ h < get_stack_size length - 1 := by
  rcases ha with rfl | rfl <;> rcases hb with rfl | rfl <;> rfl

theorem applicable_pop (length h pa pb : Int) (ha : pa = 4 ∨ pa = 6)
    (hb : pb = 4 ∨ pb = 6) :
    action_applicable length h (pop_action pa pb) ↔ 1 ≤ h := by
  rcases ha with rfl | rfl <;> rcases hb with rfl | rfl <;> rfl

theorem apply_transmit_tag (P : protocol) : apply_action (transmit_tag P) = do_transmit P := by
  cases P <;> rfl

theorem apply_push_tag (A B : protocol) : apply_action (push_tag A B) = do_push A B := by
  cases A <;> cases B <;> rfl

theorem apply_pop_tag (A B : protocol) : apply_action (pop_tag A B) = do_pop A B := by
  cases A <;> cases B <;> rfl

/-- A cell that holds exactly one protocol and whose `y_p` is true reads as `p`. -/
theorem protocol_at_of_y_val (M : Z3_model) (p i k : Int) (hp : p = 4 ∨ p = 6)
    (hxor : y4_val M i k = !y6_val M i k) (hy : y_val M p i k = true) :
    protocol_at M i k = proto_of_int p := by
  unfold protocol_at proto_of_int
  unfold y_val at hy
  rcases hp with rfl | rfl
  · simp only [if_true] at hy
    simp [hy]
  · simp only [show ¬ ((6 : Int) = 4) by decide, if_false] at hy
    rw [hy] at hxor
    simp [hxor]

theorem int_range_succ (lo hi : Int) (h : lo ≤ hi) :
    int_range lo (hi + 1) = int_range lo hi ++ [hi] := by
  unfold int_range
  have e : (hi + 1 - lo).toNat = (hi - lo).toNat + 1 := by omega
  rw [e, List.range_succ, List.map_append]
  congr 1
  simp only [List.map_cons, List.map_nil, List.cons.injEq, and_true]
  omega

theorem stack_of_succ (M : Z3_model) (i h : Int) (hh : 0 ≤ h + 1) :
    stack_of M i (h + 1) = stack_of M i h ++ [protocol_at M i (h + 1)] := by
  unfold stack_of
  rw [int_range_succ 0 (h + 1) hh, List.map_append]
  rfl

theorem stack_of_getLast (M : Z3_model) (i h : Int) (hh : 0 ≤ h) :
    (stack_of M i h).getLast? = some (protocol_at M i h) := by
  have := stack_of_succ M i (h - 1) (by omega)
  rw [show h - 1 + 1 = h by omega] at this
  rw [this, List.getLast?_append]
  rfl

theorem stack_of_dropLast (M : Z3_model) (i h : Int) (hh : 0 ≤ h) :
    (stack_of M i h).dropLast = stack_of M i (h - 1) := by
  have := stack_of_succ M i (h - 1) (by omega)
  rw [show h - 1 + 1 = h by omega] at this
  rw [this, List.dropLast_concat]

theorem stack_of_congr (M : Z3_model) (i j h : Int)
    (hc : ∀ k, 0 ≤ k ∧ k < h + 1 → y4_val M i k = y4_val M j k) :
    stack_of M i h = stack_of M j h := by
  unfold stack_of
  apply List.map_congr_left
  intro k hk
  rw [mem_int_range] at hk
  unfold protocol_at
  rw [hc k hk]

theorem stack_of_length (M : Z3_model) (i h : Int) :
    (stack_of M i h).length = (h + 1).toNat := by
  unfold stack_of int_range
  simp

theorem stack_of_getElem? (M : Z3_model) (i h k : Int) (hk : 0 ≤ k ∧ k ≤ h) :
    (stack_of M i h)[k.toNat]? = some (protocol_at M i k) := by
  unfold stack_of
  have := int_range_getElem? 0 (h + 1) k hk.1 (by omega)
  simp only [sub_zero] at this
  rw [List.getElem?_map, this]
  rfl

/-! ## One constrained hop of a model -/

/-- At a hop whose occupied pair `(u, h)` is enabled, the decoded action is supported by
`u`, the next occupied node is an out-neighbour of `u`, the top moves by at most one,
and the decoded action maps the stack read at `i` to the stack read at `i + 1`. -/
theorem hop_step (action_0 : stack_action) (network : TunnelNetwork) (L : Int)
    (M : Z3_model) (hM : eval M (tn_reduction network L) = true)
    (i : Int) (hi : 0 ≤ i ∧ i < L) (u h v h' : Int)
    (ho : occupied network L M i u h) (ho' : occupied network L M (i + 1) v h')
    (hen : hop_enabled network L u h) :
    tn_node_has_action network u (decode_action action_0 M i h h') = true ∧
      tn_is_edge network u v = true ∧ (h' = h ∨ h' = h + 1 ∨ h' + 1 = h) ∧
      apply_action (decode_action action_0 M i h h') (stack_of M i h) =
        some (stack_of M (i + 1) h') := by
  obtain ⟨h1, _, h3, h4, h5, h6⟩ := (eval_tn_reduction M network L).1 hM
  obtain ⟨h3t, h3u, h3o⟩ := (eval_create_phi_3 M network L).1 h3
  obtain ⟨h5t, h5u, h5o⟩ := (eval_create_phi_5 M network L).1 h5
  obtain ⟨h6t, h6u, h6o⟩ := (eval_create_phi_6 M network L).1 h6
  have hi' : 0 ≤ i ∧ i < L + 1 := ⟨hi.1, by omega⟩
  have hxor := fun k hk => cell_xor network L M h4 i ⟨hi.1, by omega⟩ u h ho k hk
  have hxor' := fun k hk =>
    cell_xor network L M h4 (i + 1) ⟨by omega, by omega⟩ v h' ho' k hk
  obtain ⟨hnb, a, hact, happ⟩ := hen
  have hhr : 0 ≤ h ∧ h < get_stack_size L := ho.2.1
  rcases action_forms a with ⟨p, hp, rfl⟩ | ⟨pa, pb, hpa, hpb, rfl⟩ | ⟨pa, pb, hpa, hpb, rfl⟩
  · -- transmission
    have hy := (eval_create_phi_5_trans M network L).1 h5t i hi' u ho.1 h ho.2.1 p hp hact
      ho.2.2
    obtain ⟨w, hw, hedge, hxw⟩ := (eval_create_phi_3_trans M network L).1 h3t i hi u ho.1 h
      ho.2.1 p hp hact hnb ho.2.2 hy
    obtain ⟨hv, hh⟩ := occupied_eq network L M h1 (i + 1) ⟨by omega, by omega⟩ v h' w h ho'
      ⟨hw, ho.2.1, hxw⟩
    subst hv hh
    have hpres := (eval_create_phi_6_trans M network L).1 h6t i hi' u ho.1 h ho.2.1 p hp
      hact ho.2.2
    have hprot := protocol_at_of_y_val M p i h hp (hxor h ⟨ho.2.1.1, le_refl _⟩) hy
    have hdec : decode_action action_0 M i h h = transmit_tag (proto_of_int p) := by
      rw [decode_action_transmit, ← hprot]
      unfold protocol_at y4_val
      by_cases hv : value_of_var_in_model M (tn_4_variable i h) = true <;>
        simp [hv, transmit_tag]
    rw [hdec, ← transmit_form]
    refine ⟨hact, hedge, Or.inl rfl, ?_⟩
    rw [transmit_form, apply_transmit_tag, do_transmit, stack_of_getLast M i h ho.2.1.1,
      hprot, if_pos rfl, stack_of_congr M i (i + 1) h fun k hk => (hpres k hk).1]
  · -- encapsulation
    have hlt := (applicable_push L h pa pb hpa hpb).1 happ
    have hy := (eval_create_phi_5_push M network L).1 h5u i hi' u ho.1 h ho.2.1 pa hpa pb
      hpb hact ho.2.2
    obtain ⟨w, hw, hedge, hxw, hyw⟩ := (eval_create_phi_3_push M network L).1 h3u i hi u
      ho.1 h ⟨ho.2.1.1, hlt⟩ pa hpa pb hpb hact hnb ho.2.2 hy
    obtain ⟨hv, hh⟩ := occupied_eq network L M h1 (i + 1) ⟨by omega, by omega⟩ v h' w
      (h + 1) ho' ⟨hw, ⟨by omega, by omega⟩, hxw⟩
    subst hv hh
    have hpres := (eval_create_phi_6_push M network L).1 h6u i hi u ho.1 h
      ⟨ho.2.1.1, hlt⟩ pa hpa pb hpb hact ho.2.2
    have hprot := protocol_at_of_y_val M pa i h hpa (hxor h ⟨ho.2.1.1, le_refl _⟩) hy
    have hprot' := protocol_at_of_y_val M pb (i + 1) (h + 1) hpb
      (hxor' (h + 1) ⟨by omega, le_refl _⟩) hyw
    rw [decode_action_push, hprot, hprot', ← push_form pa pb hpa hpb]
    refine ⟨hact, hedge, Or.inr (Or.inl rfl), ?_⟩
    rw [push_form pa pb hpa hpb, apply_push_tag, do_push, stack_of_getLast M i h ho.2.1.1,
      hprot, if_pos rfl, stack_of_succ M (i + 1) h (by omega), hprot',
      stack_of_congr M i (i + 1) h fun k hk => (hpres k hk).1]
  · -- decapsulation
    have hge := (applicable_pop L h pa pb hpa hpb).1 happ
    obtain ⟨hyb, hya⟩ := (eval_create_phi_5_pop M network L).1 h5o i hi' u ho.1 h
      ⟨hge, ho.2.1.2⟩ pa hpa pb hpb hact ho.2.2
    obtain ⟨w, hw, hedge, hxw⟩ := (eval_create_phi_3_pop M network L).1 h3o i hi u
      ho.1 h ⟨hge, ho.2.1.2⟩ pa hpa pb hpb hact hnb ho.2.2 hyb hya
    obtain ⟨hv, hh⟩ := occupied_eq network L M h1 (i + 1) ⟨by omega, by omega⟩ v h' w
      (h - 1) ho' ⟨hw, ⟨by omega, by omega⟩, hxw⟩
    subst hv hh
    have hpres := (eval_create_phi_6_pop M network L).1 h6o i hi u ho.1 h
      ⟨hge, ho.2.1.2⟩ pa hpa pb hpb hact ho.2.2
    have hprot := protocol_at_of_y_val M pb i h hpb (hxor h ⟨ho.2.1.1, le_refl _⟩) hyb
    have hprot' := protocol_at_of_y_val M pa i (h - 1) hpa
      (hxor (h - 1) ⟨by omega, by omega⟩) hya
    have hsame : protocol_at M (i + 1) (h - 1) = protocol_at M i (h - 1) := by
      unfold protocol_at
      rw [(hpres (h - 1) ⟨by omega, by omega⟩).1]
    have hdec : decode_action action_0 M i h (h - 1) =
        pop_tag (proto_of_int pa) (proto_of_int pb) := by
      have := decode_action_pop action_0 M i (h - 1)
      rw [show h - 1 + 1 = h by omega] at this
      rw [this, hsame, hprot, hprot']
    rw [hdec, ← pop_form pa pb hpa hpb]
    refine ⟨hact, hedge, Or.inr (Or.inr (by omega)), ?_⟩
    rw [pop_form pa pb hpa hpb, apply_pop_tag, do_pop, stack_of_getLast M i h ho.2.1.1,
      stack_of_dropLast M i h ho.2.1.1, stack_of_getLast M i (h - 1) (by omega), hprot,
      hprot', if_pos ⟨rfl, rfl⟩]
    congr 1
    apply stack_of_congr
    intro k hk
    exact (hpres k ⟨hk.1, by omega⟩).1

/-! ## The walk of a model and its replay -/

theorem scan_occupied (network : TunnelNetwork) (L : Int) (M : Z3_model)
    (h1 : eval M (create_phi_1 network L) = true) (i : Int) (hi : 0 ≤ i ∧ i ≤ L) :
    occupied network L M i (scan_position M network L i).src
      (scan_position M network L i).src_height := by
  obtain ⟨u, h, ho, huniq⟩ := occupied_exists_unique network L M h1 i hi
  obtain ⟨e1, e2⟩ := scan_position_src M network L i u h ho huniq
  rw [e1, e2]
  exact ho

theorem scan_tgt_eq (network : TunnelNetwork) (L : Int) (M : Z3_model)
    (h1 : eval M (create_phi_1 network L) = true) (i : Int) (hi : 0 ≤ i ∧ i < L) :
    (scan_position M network L i).tgt = (scan_position M network L (i + 1)).src ∧
      (scan_position M network L i).tgt_height =
        (scan_position M network L (i + 1)).src_height := by
  obtain ⟨u, h, ho, huniq⟩ := occupied_exists_unique network L M h1 (i + 1)
    ⟨by omega, by omega⟩
  obtain ⟨e1, e2⟩ := scan_position_src M network L (i + 1) u h ho huniq
  obtain ⟨e3, e4⟩ := scan_position_tgt M network L i u h ho huniq
  rw [e1, e2, e3, e4]
  exact ⟨rfl, rfl⟩

theorem run_actions_append (l l' : List stack_action) (s : List protocol) :
    run_actions (l ++ l') s = (run_actions l s).bind (run_actions l') := by
  induction l generalizing s with
  | nil => rfl
  | cons a rest ih =>
    simp only [List.cons_append, run_actions]
    cases apply_action a s with
    | none => rfl
    | some t => simpa using ih t

theorem stack_of_zero (M : Z3_model) (i : Int) (hy : y4_val M i 0 = true) :
    stack_of M i 0 = [P4] := by
  have : int_range 0 (0 + 1) = [0] := by decide
  unfold stack_of protocol_at
  rw [this]
  simp [hy]

/-- Replaying the first `n` decoded actions from `[P4]` gives the stack read in the model
at position `n`, when every hop is enabled and the source is a node. -/
theorem decoded_prefix_run (action_0 : stack_action) (network : TunnelNetwork) (L : Int)
    (M : Z3_model) (hL : 0 ≤ L)
    (hsrc : 0 ≤ tn_get_initial network ∧ tn_get_initial network < tn_get_num_nodes network)
    (hM : eval M (tn_reduction network L) = true)
    (hen : all_hops_enabled network L M) (n : Nat) (hn : (n : Int) ≤ L) (u h : Int)
    (ho : occupied network L M n u h) :
    run_actions (((tn_get_path_from_model action_0 M network L).take n).map tn_step.action)
      [P4] = some (stack_of M n h) := by
  have h1 := ((eval_tn_reduction M network L).1 hM).1
  have h2 := (eval_create_phi_2 M network L).1 ((eval_tn_reduction M network L).1 hM).2.1
  induction n generalizing u h with
  | zero =>
    have hs := occupied_source network L M hL hsrc hM
    obtain ⟨_, hh⟩ := occupied_eq network L M h1 0 ⟨le_refl 0, hL⟩ _ _ u h hs ho
    simp only [Nat.cast_zero] at ho ⊢
    rw [hh, stack_of_zero M 0 h2.2.1]
    rfl
  | succ n ih =>
    have hn' : (n : Int) < L := by push_cast at hn; omega
    obtain ⟨u0, h0, ho0, _⟩ := occupied_exists_unique network L M h1 n ⟨by omega, by omega⟩
    have ho' : occupied network L M ((n : Int) + 1) u h := by
      simpa using ho
    have hd := decoded_step_of_occupied action_0 network L M h1 n ⟨by omega, hn'⟩ u0 h0 u h
      ho0 ho'
    simp only [Int.toNat_ofNat] at hd
    have hstep := hop_step action_0 network L M hM n ⟨by omega, hn'⟩ u0 h0 u h ho0 ho'
      (hen n ⟨by omega, hn'⟩ u0 h0 ho0)
    rw [List.take_succ, hd, List.map_append, run_actions_append,
      ih (by omega) u0 h0 ho0]
    simp only [Option.toList, List.map_cons, List.map_nil, Option.some_bind, run_actions,
      tn_step_create]
    rw [hstep.2.2.2]
    simp

theorem tunnel_hops_enabled : all_hops_enabled tunnel_network 3 tunnel_model := by
  intro i hi u h ho
  have hcases : i = 0 ∨ i = 1 ∨ i = 2 := by omega
  rcases hcases with rfl | rfl | rfl
  · obtain ⟨rfl, rfl⟩ := occupied_eq tunnel_network 3 tunnel_model (by decide) 0 (by decide)
      0 0 u h (by decide) ho
    exact ⟨⟨1, by decide, by decide⟩, push_4_6, by decide,
      show (0 : Int) < get_stack_size 3 - 1 by decide⟩
  · obtain ⟨rfl, rfl⟩ := occupied_eq tunnel_network 3 tunnel_model (by decide) 1 (by decide)
      1 1 u h (by decide) ho
    exact ⟨⟨2, by decide, by decide⟩, transmit_6, by decide, trivial⟩
  · obtain ⟨rfl, rfl⟩ := occupied_eq tunnel_network 3 tunnel_model (by decide) 2 (by decide)
      2 1 u h (by decide) ho
    exact ⟨⟨3, by decide, by decide⟩, pop_4_6, by decide, show (1 : Int) ≤ 1 by decide⟩

/-! ## P3: the top heights (C5) -/

/-- C5 (amended): for a network whose source and destination are nodes of the network,
`L ≥ 0` and a model of `tn_reduction network L`, the top height occupied at position 0
is 0, the top height occupied at position `L` is 0, and across every hop `i` whose
occupied pair is enabled (its node has an out-neighbour and supports an action
applicable at its height) the top height changes by at most one. -/
theorem top_heights_walk (network : TunnelNetwork) (L : Int) (M : Z3_model) (hL : 0 ≤ L)
    (hsrc : 0 ≤ tn_get_initial network ∧ tn_get_initial network < tn_get_num_nodes network)
    (hdst : 0 ≤ tn_get_final network ∧ tn_get_final network < tn_get_num_nodes network)
    (hM : eval M (tn_reduction network L) = true) :
    (∀ u h, occupied network L M 0 u h → h = 0) ∧
    (∀ u h, occupied network L M L u h → h = 0) ∧
    (∀ i, 0 ≤ i ∧ i < L → ∀ u h v h', occupied network L M i u h →
      occupied network L M (i + 1) v h' → hop_enabled network L u h → |h' - h| ≤ 1) := by
  have h1 := ((eval_tn_reduction M network L).1 hM).1
  refine ⟨?_, ?_, ?_⟩
  · intro u h ho
    exact (occupied_eq network L M h1 0 ⟨le_refl 0, hL⟩ _ _ u h
      (occupied_source network L M hL hsrc hM) ho).2
  · intro u h ho
    exact (occupied_eq network L M h1 L ⟨hL, le_refl L⟩ _ _ u h
      (occupied_destination network L M hL hdst hM) ho).2
  · intro i hi u h v h' ho ho' hen
    have := (hop_step transmit_4 network L M hM i hi u h v h' ho ho' hen).2.2.1
    rw [abs_le]
    omega

theorem top_heights_walk_witness :
    (∀ u h, occupied tunnel_network 3 tunnel_model 0 u h → h = 0) ∧
    (∀ u h, occupied tunnel_network 3 tunnel_model 3 u h → h = 0) ∧
    (∀ i : Int, 0 ≤ i ∧ i < 3 → ∀ u h v h', occupied tunnel_network 3 tunnel_model i u h →
      occupied tunnel_network 3 tunnel_model (i + 1) v h' →
      hop_enabled tunnel_network 3 u h → |h' - h| ≤ 1) :=
  top_heights_walk tunnel_network 3 tunnel_model (by decide) (by decide) (by decide)
    (by decide)

/-- C5 as stated fails: `isolated_model_4` satisfies the reduction of `isolated_network`
for `L = 4`, its top height is 0 at position 0 and 2 at position 1. -/
theorem top_heights_walk_counterexample :
    eval isolated_model_4 (tn_reduction isolated_network 4) = true ∧
      occupied isolated_network 4 isolated_model_4 0 0 0 ∧
      occupied isolated_network 4 isolated_model_4 (0 + 1) 0 2 ∧
      ¬ (|(2 : Int) - 0| ≤ 1) := by
  refine ⟨by decide, by decide, by decide, by decide⟩

/-! ## P4: the decoded steps follow the network (C6) -/

/-- C6 (amended): for `L ≥ 0` and a model of `tn_reduction network L`, the step decoded
for a hop `i` whose occupied pair is enabled (its node has an out-neighbour and supports
an action applicable at its height) has an action supported by its `src` and goes along
an edge of the network. -/
theorem decoded_step_supported (action_0 : stack_action) (network : TunnelNetwork)
    (L : Int) (M : Z3_model) (_hL : 0 ≤ L)
    (hM : eval M (tn_reduction network L) = true) (i : Int) (hi : 0 ≤ i ∧ i < L)
    (hen : ∀ u h, occupied network L M i u h → hop_enabled network L u h) :
    ∃ step, (tn_get_path_from_model action_0 M network L)[i.toNat]? = some step ∧
      tn_node_has_action network step.src step.action = true ∧
      tn_is_edge network step.src step.tgt = true := by
  have h1 := ((eval_tn_reduction M network L).1 hM).1
  obtain ⟨u, h, ho, _⟩ := occupied_exists_unique network L M h1 i ⟨hi.1, by omega⟩
  obtain ⟨v, h', ho', _⟩ := occupied_exists_unique network L M h1 (i + 1)
    ⟨by omega, by omega⟩
  have hs := hop_step action_0 network L M hM i hi u h v h' ho ho' (hen u h ho)
  exact ⟨_, decoded_step_of_occupied action_0 network L M h1 i hi u h v h' ho ho',
    hs.1, hs.2.1⟩

theorem decoded_step_supported_witness :
    ∃ step, (tn_get_path_from_model transmit_4 tunnel_model tunnel_network 3)[
        (2 : Int).toNat]? = some step ∧
      tn_node_has_action tunnel_network step.src step.action = true ∧
      tn_is_edge tunnel_network step.src step.tgt = true :=
  decoded_step_supported transmit_4 tunnel_network 3 tunnel_model (by decide) (by decide)
    2 (by decide) (tunnel_hops_enabled 2 (by decide))

/-- C6 as stated fails: `isolated_model_1` satisfies the reduction of `isolated_network`
for `L = 1`, and the only decoded step is `(transmit_4, 0, 0)` although node 0 supports
no action and has no edge. -/
theorem decoded_step_supported_counterexample :
    eval isolated_model_1 (tn_reduction isolated_network 1) = true ∧
      tn_get_path_from_model transmit_4 isolated_model_1 isolated_network 1 =
        [⟨transmit_4, 0, 0⟩] ∧
      tn_node_has_action isolated_network 0 transmit_4 = false ∧
      tn_is_edge isolated_network 0 0 = false := by
  refine ⟨by decide, by decide, by decide, by decide⟩

/-! ## P5: replaying the decoded actions (C7) -/

/-- C7 (amended): for a network whose source is a node of the network, `L ≥ 0` and a
model of `tn_reduction network L` in which every hop is enabled (at each hop the
occupied node has an out-neighbour and supports an action applicable at the occupied
height), replaying the first `i` decoded actions on the stack machine started with
`[P4]` meets every precondition, for every `i` in `0 .. L`, and the stack reached has
`h + 1` cells, `h` being the top height occupied at `i`, whose cell `k` is P4 exactly
when `y4(i, k)` is true and P6 exactly when `y6(i, k)` is true, for every `k ≤ h`. -/
theorem replay_matches_model (action_0 : stack_action) (network : TunnelNetwork) (L : Int)
    (M : Z3_model) (hL : 0 ≤ L)
    (hsrc : 0 ≤ tn_get_initial network ∧ tn_get_initial network < tn_get_num_nodes network)
    (hM : eval M (tn_reduction network L) = true)
    (hen : all_hops_enabled network L M) (i : Int) (hi : 0 ≤ i ∧ i ≤ L) (u h : Int)
    (ho : occupied network L M i u h) :
    ∃ s, run_actions (((tn_get_path_from_model action_0 M network L).take i.toNat).map
        tn_step.action) [P4] = some s ∧
      (s.length : Int) = h + 1 ∧
      ∀ k, 0 ≤ k ∧ k ≤ h →
        (s[k.toNat]? = some P4 ↔ value_of_var_in_model M (tn_4_variable i k) = true) ∧
        (s[k.toNat]? = some P6 ↔ value_of_var_in_model M (tn_6_variable i k) = true) := by
  have h4 := ((eval_tn_reduction M network L).1 hM).2.2.2.1
  have hcast : ((i.toNat : Nat) : Int) = i := Int.toNat_of_nonneg hi.1
  have ho2 : occupied network L M (i.toNat : Nat) u h := by rw [hcast]; exact ho
  have hrun := decoded_prefix_run action_0 network L M hL hsrc hM hen i.toNat
    (by rw [hcast]; exact hi.2) u h ho2
  rw [hcast] at hrun
  refine ⟨stack_of M i h, hrun, ?_, ?_⟩
  · rw [stack_of_length]
    have := ho.2.1.1
    omega
  · intro k hk
    rw [stack_of_getElem? M i h k hk]
    have hx := cell_xor network L M h4 i hi u h ho k hk
    unfold y4_val y6_val at hx
    unfold protocol_at y4_val
    cases h6 : value_of_var_in_model M (tn_6_variable i k) <;> simp [hx, h6]

theorem replay_matches_model_witness :
    ∃ s, run_actions (((tn_get_path_from_model transmit_4 tunnel_model tunnel_network
        3).take (2 : Int).toNat).map tn_step.action) [P4] = some s ∧
      (s.length : Int) = 1 + 1 ∧
      ∀ k : Int, 0 ≤ k ∧ k ≤ 1 →
        (s[k.toNat]? = some P4 ↔
          value_of_var_in_model tunnel_model (tn_4_variable 2 k) = true) ∧
        (s[k.toNat]? = some P6 ↔
          value_of_var_in_model tunnel_model (tn_6_variable 2 k) = true) :=
  replay_matches_model transmit_4 tunnel_network 3 tunnel_model (by decide) (by decide)
    (by decide) tunnel_hops_enabled 2 (by decide) 2 1 (by decide)

/-- C7 as stated fails: `isolated_model_2` satisfies the reduction of `isolated_network`
for `L = 2`, the decoded actions are `transmit_4, transmit_6`, and replaying them from
`[P4]` fails on the precondition of `transmit_6`. -/
theorem replay_matches_model_counterexample :
    eval isolated_model_2 (tn_reduction isolated_network 2) = true ∧
      (tn_get_path_from_model transmit_4 isolated_model_2 isolated_network 2).map
        tn_step.action = [transmit_4, transmit_6] ∧
      run_actions ((tn_get_path_from_model transmit_4 isolated_model_2 isolated_network
        2).map tn_step.action) [P4] = none := by
  refine ⟨by decide, by decide, by decide⟩

/-! ## Soundness on models whose hops are enabled (C1) -/

theorem int_range_cons (lo hi : Int) (h : lo < hi) :
    int_range lo hi = lo :: int_range (lo + 1) hi := by
  unfold int_range
  have e : (hi - lo).toNat = (hi - (lo + 1)).toNat + 1 := by omega
  rw [e, List.range_succ_eq_map, List.map_cons, List.map_map]
  simp only [Nat.cast_zero, add_zero, List.cons.injEq, true_and]
  apply List.map_congr_left
  intro k _
  simp only [Function.comp_apply, Nat.cast_succ]
  omega

theorem int_range_empty (lo hi : Int) (h : hi ≤ lo) : int_range lo hi = [] := by
  unfold int_range
  have e : (hi - lo).toNat = 0 := by omega
  rw [e]
  rfl

/-- The decoded steps from hop `k` on are chained from the node occupied at `k` to the
destination. -/
theorem decoded_chain_from (action_0 : stack_action) (network : TunnelNetwork) (L : Int)
    (M : Z3_model) (hL : 0 ≤ L)
    (hdst : 0 ≤ tn_get_final network ∧ tn_get_final network < tn_get_num_nodes network)
    (hM : eval M (tn_reduction network L) = true) (n : Nat) (k : Int) (hk : 0 ≤ k)
    (hn : k + n = L) :
    chain_from (scan_position M network L k).src (tn_get_final network)
      ((int_range k L).map fun pos =>
        tn_step_create
          (decode_action action_0 M pos (scan_position M network L pos).src_height
            (scan_position M network L pos).tgt_height)
          (scan_position M network L pos).src (scan_position M network L pos).tgt) = true := by
  have h1 := ((eval_tn_reduction M network L).1 hM).1
  induction n generalizing k with
  | zero =>
    have hkL : k = L := by simpa using hn
    subst hkL
    rw [int_range_empty k k (le_refl k)]
    have hd := occupied_destination network k M hL hdst hM
    have := (scan_position_src M network k k _ _ hd
      (fun u' h' hx => occupied_eq network k M h1 k ⟨hL, le_refl k⟩ _ _ u' h' hd hx)).1
    simp [chain_from, this]
  | succ n ih =>
    have hlt : k < L := by push_cast at hn; omega
    rw [int_range_cons k L hlt, List.map_cons, chain_from]
    have := ih (k + 1) (by omega) (by push_cast at hn; omega)
    rw [← (scan_tgt_eq network L M h1 k ⟨hk, hlt⟩).1] at this
    simp only [tn_step_create, decide_True, Bool.true_and]
    exact this

theorem decoded_length (action_0 : stack_action) (network : TunnelNetwork) (L : Int)
    (M : Z3_model) (hL : 0 ≤ L) :
    ((tn_get_path_from_model action_0 M network L).length : Int) = L := by
  unfold tn_get_path_from_model int_range
  simp only [List.length_map, List.length_range, sub_zero]
  omega

/-- The path decoded from a model in which every hop is enabled is a valid tunnel
path. -/
theorem decoded_path_valid (action_0 : stack_action) (network : TunnelNetwork) (L : Int)
    (M : Z3_model) (hL : 0 ≤ L)
    (hsrc : 0 ≤ tn_get_initial network ∧ tn_get_initial network < tn_get_num_nodes network)
    (hdst : 0 ≤ tn_get_final network ∧ tn_get_final network < tn_get_num_nodes network)
    (hM : eval M (tn_reduction network L) = true) (hen : all_hops_enabled network L M) :
    valid_tunnel_path network L (tn_get_path_from_model action_0 M network L) := by
  have h1 := ((eval_tn_reduction M network L).1 hM).1
  have h2 := (eval_create_phi_2 M network L).1 ((eval_tn_reduction M network L).1 hM).2.1
  refine ⟨decoded_length action_0 network L M hL, hsrc, hdst, ?_, ?_, ?_⟩
  · have hc := decoded_chain_from action_0 network L M hL hdst hM L.toNat 0 (le_refl 0)
      (by omega)
    have hs := occupied_source network L M hL hsrc hM
    have := (scan_position_src M network L 0 _ _ hs
      (fun u' h' hx => occupied_eq network L M h1 0 ⟨le_refl 0, hL⟩ _ _ u' h' hs hx)).1
    rw [this] at hc
    exact hc
  · intro s hs
    unfold tn_get_path_from_model at hs
    obtain ⟨pos, hpos, rfl⟩ := List.mem_map.1 hs
    rw [mem_int_range] at hpos
    have ho := scan_occupied network L M h1 pos ⟨hpos.1, by omega⟩
    have ho' := scan_occupied network L M h1 (pos + 1) ⟨by omega, by omega⟩
    obtain ⟨e1, e2⟩ := scan_tgt_eq network L M h1 pos hpos
    rw [← e1, ← e2] at ho'
    have hstep := hop_step action_0 network L M hM pos hpos _ _ _ _ ho ho'
      (hen pos hpos _ _ ho)
    exact ⟨ho.1, ho'.1, hstep.2.1, hstep.1⟩
  · have hd := occupied_destination network L M hL hdst hM
    have hcast : ((L.toNat : Nat) : Int) = L := Int.toNat_of_nonneg hL
    have hrun := decoded_prefix_run action_0 network L M hL hsrc hM hen L.toNat
      (by omega) (tn_get_final network) 0 (by rw [hcast]; exact hd)
    have hlen := decoded_length action_0 network L M hL
    rw [List.take_of_length_le (by omega), hcast, stack_of_zero M L h2.2.2.2] at hrun
    exact hrun

/-- C1 (amended): for a network with `N ≥ 1` whose source and destination are nodes of
the network and `L ≥ 0`, if `tn_reduction network L` has a model in which every hop is
enabled (at each hop `i < L` the node occupied at position `i` has an out-neighbour and
supports an action applicable at the occupied height: a transmission, an encapsulation
below the last cell of the stack array, or a decapsulation above cell 0), then the
network has a valid tunnel path of exactly `L` hops. -/
theorem reduction_sound_on_enabled_models (network : TunnelNetwork) (L : Int)
    (_hN : 1 ≤ tn_get_num_nodes network)
    (hsrc : 0 ≤ tn_get_initial network ∧ tn_get_initial network < tn_get_num_nodes network)
    (hdst : 0 ≤ tn_get_final network ∧ tn_get_final network < tn_get_num_nodes network)
    (hL : 0 ≤ L)
    (hsat : ∃ M, eval M (tn_reduction network L) = true ∧ all_hops_enabled network L M) :
    ∃ P, valid_tunnel_path network L P := by
  obtain ⟨M, hM, hen⟩ := hsat
  exact ⟨tn_get_path_from_model transmit_4 M network L,
    decoded_path_valid transmit_4 network L M hL hsrc hdst hM hen⟩

theorem reduction_sound_on_enabled_models_witness :
    ∃ P, valid_tunnel_path tunnel_network 3 P :=
  reduction_sound_on_enabled_models tunnel_network 3 (by decide) (by decide) (by decide)
    (by decide) ⟨tunnel_model, by decide, tunnel_hops_enabled⟩

/-- C1 as stated fails: `isolated_network` has one node, which is source and
destination, and no edge; its reduction for `L = 1` is satisfied by `isolated_model_1`,
and the network has no valid tunnel path of one hop. -/
theorem reduction_sound_counterexample :
    1 ≤ tn_get_num_nodes isolated_network ∧
      (0 ≤ tn_get_initial isolated_network ∧
        tn_get_initial isolated_network < tn_get_num_nodes isolated_network) ∧
      (0 ≤ tn_get_final isolated_network ∧
        tn_get_final isolated_network < tn_get_num_nodes isolated_network) ∧
      (∃ M, eval M (tn_reduction isolated_network 1) = true) ∧
      ¬ ∃ P, valid_tunnel_path isolated_network 1 P := by
  refine ⟨by decide, by decide, by decide, ⟨isolated_model_1, by decide⟩, ?_⟩
  rintro ⟨P, hlen, _, _, _, hsteps, _⟩
  cases P with
  | nil => simp at hlen
  | cons s rest =>
    have := (hsteps s (List.mem_cons_self _ _)).2.2.1
    simp [isolated_network] at this

/-! ## Completeness: the model of a trajectory satisfies the reduction -/

theorem asks_nothing_transmit (L : Int) (s : List protocol) (p : Int) :
    ¬ asks_nothing L s (if p = 4 then transmit_4 else transmit_6) := by
  split <;> exact id

theorem asks_nothing_push (L : Int) (s : List protocol) (pa pb : Int)
    (hpa : pa = 4 ∨ pa = 6) (hpb : pb = 4 ∨ pb = 6) :
    asks_nothing L s (push_action pa pb) ↔
      s.getLast? = some (proto_of_int pa) ∧ get_stack_size L ≤ (s.length : Int) := by
  rcases hpa with rfl | rfl <;> rcases hpb with rfl | rfl <;> rfl

theorem asks_nothing_pop (L : Int) (s : List protocol) (pa pb : Int)
    (hpa : pa = 4 ∨ pa = 6) (hpb : pb = 4 ∨ pb = 6) :
    asks_nothing L s (pop_action pa pb) ↔ s.length = 1 := by
  rcases hpa with rfl | rfl <;> rcases hpb with rfl | rfl <;> rfl


theorem trajectory_phi_1 (network : TunnelNetwork) (L : Int) (M : Z3_model)
    (nd : Int → Int) (st : Int → List protocol) (T : path_trajectory network L M nd st) :
    eval M (create_phi_1 network L) = true := by
  rw [eval_create_phi_1]
  intro pos h0 h1
  have hn := T.node_range pos ⟨h0, h1⟩
  have hs := T.stack_range pos ⟨h0, by omega⟩
  apply countP_eq_one_of_unique _ _ (node_height_pairs_nodup network L)
    (nd pos, ((st pos).length : Int) - 1)
  · rw [mem_node_height_pairs]
    exact ⟨hn, by simp only; omega, by simp only; omega⟩
  · rintro ⟨u, h⟩ hb
    rw [mem_node_height_pairs] at hb
    simp only at hb
    simp only [Prod.mk.injEq]
    rw [T.x_iff u pos h hb.1 ⟨h0, by omega⟩ ⟨hb.2.1, by omega⟩]
    constructor
    · rintro ⟨_, hu, hh⟩
      exact ⟨hu, by omega⟩
    · rintro ⟨hu, hh⟩
      exact ⟨h1, hu, by omega⟩

theorem trajectory_phi_2 (network : TunnelNetwork) (L : Int) (M : Z3_model)
    (nd : Int → Int) (st : Int → List protocol) (T : path_trajectory network L M nd st) :
    eval M (create_phi_2 network L) = true := by
  have hL := T.length_nonneg
  have hH := get_stack_size_pos L hL
  rw [eval_create_phi_2]
  have hn0 := T.node_range 0 ⟨le_refl 0, hL⟩
  have hnL := T.node_range L ⟨hL, le_refl L⟩
  rw [T.first_node] at hn0
  rw [T.last_node] at hnL
  refine ⟨?_, ?_, ?_, ?_⟩
  · rw [T.x_iff _ 0 0 hn0 ⟨le_refl 0, by omega⟩ ⟨le_refl 0, by omega⟩, T.first_stack]
    exact ⟨hL, T.first_node.symm, rfl⟩
  · rw [T.y4_iff 0 0 ⟨le_refl 0, by omega⟩ ⟨le_refl 0, by omega⟩, T.first_stack]
    rfl
  · rw [T.x_iff _ L 0 hnL ⟨hL, by omega⟩ ⟨le_refl 0, by omega⟩, T.last_stack]
    exact ⟨le_refl L, T.last_node.symm, rfl⟩
  · rw [T.y4_iff L 0 ⟨hL, by omega⟩ ⟨le_refl 0, by omega⟩, T.last_stack]
    rfl

/-- In the model of a trajectory a cell inside the stack holds exactly one protocol. -/
theorem trajectory_cell_xor (network : TunnelNetwork) (L : Int) (M : Z3_model)
    (nd : Int → Int) (st : Int → List protocol) (T : path_trajectory network L M nd st)
    (i k : Int) (hi : 0 ≤ i ∧ i ≤ L + 1) (hk : 0 ≤ k ∧ k < ((st i).length : Int)) :
    y4_val M i k = !y6_val M i k := by
  have hs := T.stack_range i hi
  have h4 := T.y4_iff i k hi ⟨hk.1, by omega⟩
  have h6 := T.y6_iff i k hi ⟨hk.1, by omega⟩
  have hlt : k.toNat < (st i).length := by omega
  rw [List.getElem?_eq_getElem hlt] at h4 h6
  cases hc : (st i)[k.toNat] with
  | P4 =>
    rw [hc] at h4 h6
    have e4 : y4_val M i k = true := h4.2 rfl
    have e6 : y6_val M i k = false := by
      cases h : y6_val M i k
      · rfl
      · exact absurd (h6.1 h) (by simp)
    rw [e4, e6]; rfl
  | P6 =>
    rw [hc] at h4 h6
    have e6 : y6_val M i k = true := h6.2 rfl
    have e4 : y4_val M i k = false := by
      cases h : y4_val M i k
      · rfl
      · exact absurd (h4.1 h) (by simp)
    rw [e4, e6]; rfl

theorem trajectory_phi_4 (network : TunnelNetwork) (L : Int) (M : Z3_model)
    (nd : Int → Int) (st : Int → List protocol) (T : path_trajectory network L M nd st) :
    eval M (create_phi_4 network L) = true := by
  rw [eval_create_phi_4]
  rintro pos h0 h1 height hh0 hh1 ⟨node, hn, hx⟩ cell hc0 hc1
  have hx' := (T.x_iff node pos height hn ⟨h0, by omega⟩ ⟨hh0, by omega⟩).1 hx
  exact trajectory_cell_xor network L M nd st T pos cell ⟨h0, by omega⟩
    ⟨hc0, by omega⟩

theorem do_transmit_some (P : protocol) (s t : List protocol) :
    do_transmit P s = some t ↔ s.getLast? = some P ∧ t = s := by
  unfold do_transmit
  split <;> simp_all [eq_comm]

theorem do_push_some (A B : protocol) (s t : List protocol) :
    do_push A B s = some t ↔ s.getLast? = some A ∧ t = s ++ [B] := by
  unfold do_push
  split <;> simp_all [eq_comm]

theorem do_pop_some (A B : protocol) (s t : List protocol) :
    do_pop A B s = some t ↔
      s.getLast? = some B ∧ s.dropLast.getLast? = some A ∧ t = s.dropLast := by
  unfold do_pop
  split
  · rename_i h
    constructor
    · intro e
      exact ⟨h.1, h.2, (Option.some.inj e).symm⟩
    · rintro ⟨_, _, rfl⟩
      rfl
  · rename_i h
    constructor
    · intro e
      cases e
    · rintro ⟨h1, h2, _⟩
      exact absurd ⟨h1, h2⟩ h

theorem trajectory_y_val (network : TunnelNetwork) (L : Int) (M : Z3_model)
    (nd : Int → Int) (st : Int → List protocol) (T : path_trajectory network L M nd st)
    (p i k : Int) (hp : p = 4 ∨ p = 6) (hi : 0 ≤ i ∧ i ≤ L + 1)
    (hk : 0 ≤ k ∧ k ≤ get_stack_size L) :
    y_val M p i k = true ↔ (st i)[k.toNat]? = some (proto_of_int p) := by
  unfold y_val proto_of_int
  rcases hp with rfl | rfl
  · simp only [if_true]
    exact T.y4_iff i k hi hk
  · simp only [show ¬ ((6 : Int) = 4) by decide, if_false]
    exact T.y6_iff i k hi hk

theorem getLast?_eq_index (s : List protocol) (h : Int) (hh : h + 1 = (s.length : Int)) :
    s.getLast? = s[h.toNat]? := by
  rw [List.getLast?_eq_getElem?]
  congr 1
  omega

theorem trajectory_phi_3_trans (network : TunnelNetwork) (L : Int) (M : Z3_model)
    (nd : Int → Int) (st : Int → List protocol) (T : path_trajectory network L M nd st) :
    eval M (create_phi_3_trans network L) = true := by
  rw [eval_create_phi_3_trans]
  intro pos hpos node hnode height hheight p hp hact _ hx _
  obtain ⟨_, hu, hh⟩ := (T.x_iff node pos height hnode ⟨hpos.1, by omega⟩
    ⟨hheight.1, by omega⟩).1 hx
  subst hu
  obtain ⟨a, hedge, _, happ, huniq⟩ := T.hop pos hpos
  have ha := (huniq _ hact).resolve_right (asks_nothing_transmit L _ p)
  subst ha
  rw [transmit_form, apply_transmit_tag, do_transmit_some] at happ
  refine ⟨nd (pos + 1), T.node_range (pos + 1) ⟨by omega, by omega⟩, hedge, ?_⟩
  rw [T.x_iff _ (pos + 1) height (T.node_range (pos + 1) ⟨by omega, by omega⟩)
    ⟨by omega, by omega⟩ ⟨hheight.1, by omega⟩, happ.2]
  exact ⟨by omega, rfl, hh⟩

theorem trajectory_phi_3_push (network : TunnelNetwork) (L : Int) (M : Z3_model)
    (nd : Int → Int) (st : Int → List protocol) (T : path_trajectory network L M nd st) :
    eval M (create_phi_3_push network L) = true := by
  rw [eval_create_phi_3_push]
  intro pos hpos node hnode height hheight pa hpa pb hpb hact _ hx _
  obtain ⟨_, hu, hh⟩ := (T.x_iff node pos height hnode ⟨hpos.1, by omega⟩
    ⟨hheight.1, by omega⟩).1 hx
  subst hu
  obtain ⟨a, hedge, _, happ, huniq⟩ := T.hop pos hpos
  have ha := (huniq _ hact).resolve_right fun hd => by
    have := ((asks_nothing_push L _ pa pb hpa hpb).1 hd).2
    omega
  subst ha
  rw [push_form pa pb hpa hpb, apply_push_tag, do_push_some] at happ
  have hr := T.node_range (pos + 1) ⟨by omega, by omega⟩
  refine ⟨nd (pos + 1), hr, hedge, ?_, ?_⟩
  · rw [T.x_iff _ (pos + 1) (height + 1) hr ⟨by omega, by omega⟩ ⟨by omega, by omega⟩,
      happ.2]
    refine ⟨by omega, rfl, ?_⟩
    simp only [List.length_append, List.length_singleton, Nat.cast_add, Nat.cast_one]
    omega
  · rw [trajectory_y_val network L M nd st T pb (pos + 1) (height + 1) hpb
      ⟨by omega, by omega⟩ ⟨by omega, by omega⟩, happ.2]
    have : (height + 1).toNat = (st pos).length := by omega
    rw [this]
    simp

theorem trajectory_phi_3_pop (network : TunnelNetwork) (L : Int) (M : Z3_model)
    (nd : Int → Int) (st : Int → List protocol) (T : path_trajectory network L M nd st) :
    eval M (create_phi_3_pop network L) = true := by
  rw [eval_create_phi_3_pop]
  intro pos hpos node hnode height hheight pa hpa pb hpb hact _ hx _ _
  obtain ⟨_, hu, hh⟩ := (T.x_iff node pos height hnode ⟨hpos.1, by omega⟩
    ⟨by omega, by omega⟩).1 hx
  subst hu
  obtain ⟨a, hedge, _, happ, huniq⟩ := T.hop pos hpos
  have ha := (huniq _ hact).resolve_right fun hd => by
    have := (asks_nothing_pop L _ pa pb hpa hpb).1 hd
    omega
  subst ha
  rw [pop_form pa pb hpa hpb, apply_pop_tag, do_pop_some] at happ
  have hr := T.node_range (pos + 1) ⟨by omega, by omega⟩
  refine ⟨nd (pos + 1), hr, hedge, ?_⟩
  rw [T.x_iff _ (pos + 1) (height - 1) hr ⟨by omega, by omega⟩ ⟨by omega, by omega⟩,
    happ.2.2]
  refine ⟨by omega, rfl, ?_⟩
  simp only [List.length_dropLast]
  omega

theorem trajectory_phi_3 (network : TunnelNetwork) (L : Int) (M : Z3_model)
    (nd : Int → Int) (st : Int → List protocol) (T : path_trajectory network L M nd st) :
    eval M (create_phi_3 network L) = true := by
  rw [eval_create_phi_3]
  exact ⟨trajectory_phi_3_trans network L M nd st T,
    trajectory_phi_3_push network L M nd st T, trajectory_phi_3_pop network L M nd st T⟩
theorem trajectory_phi_5_trans (network : TunnelNetwork) (L : Int) (M : Z3_model)
    (nd : Int → Int) (st : Int → List protocol) (T : path_trajectory network L M nd st) :
    eval M (create_phi_5_trans network L) = true := by
  rw [eval_create_phi_5_trans]
  intro pos hpos node hnode height hheight p hp hact hx
  obtain ⟨_, hu, hh⟩ := (T.x_iff node pos height hnode ⟨hpos.1, by omega⟩
    ⟨hheight.1, by omega⟩).1 hx
  subst hu
  rw [trajectory_y_val network L M nd st T p pos height hp ⟨hpos.1, by omega⟩
    ⟨hheight.1, by omega⟩, ← getLast?_eq_index _ height hh]
  by_cases hlt : pos < L
  · obtain ⟨a, _, _, happ, huniq⟩ := T.hop pos ⟨hpos.1, hlt⟩
    have ha := (huniq _ hact).resolve_right (asks_nothing_transmit L _ p)
    subst ha
    rw [transmit_form, apply_transmit_tag, do_transmit_some] at happ
    exact happ.1
  · have hposL : pos = L := by omega
    subst hposL
    rw [T.last_node] at hact
    rw [T.last_stack]
    rcases hp with rfl | rfl
    · rfl
    · simp only [show ¬ ((6 : Int) = 4) by decide, if_false, T.dest_actions.1] at hact
      exact absurd hact (by simp)

theorem trajectory_phi_5_push (network : TunnelNetwork) (L : Int) (M : Z3_model)
    (nd : Int → Int) (st : Int → List protocol) (T : path_trajectory network L M nd st) :
    eval M (create_phi_5_push network L) = true := by
  rw [eval_create_phi_5_push]
  intro pos hpos node hnode height hheight pa hpa pb hpb hact hx
  obtain ⟨_, hu, hh⟩ := (T.x_iff node pos height hnode ⟨hpos.1, by omega⟩
    ⟨hheight.1, by omega⟩).1 hx
  subst hu
  rw [trajectory_y_val network L M nd st T pa pos height hpa ⟨hpos.1, by omega⟩
    ⟨hheight.1, by omega⟩, ← getLast?_eq_index _ height hh]
  by_cases hlt : pos < L
  · obtain ⟨a, _, _, happ, huniq⟩ := T.hop pos ⟨hpos.1, hlt⟩
    rcases huniq _ hact with ha | hd
    · subst ha
      rw [push_form pa pb hpa hpb, apply_push_tag, do_push_some] at happ
      exact happ.1
    · exact ((asks_nothing_push L _ pa pb hpa hpb).1 hd).1
  · have hposL : pos = L := by omega
    subst hposL
    rw [T.last_node] at hact
    rw [T.last_stack]
    rcases hpa with rfl | rfl
    · rfl
    · rcases hpb with rfl | rfl
      · have : push_action 6 4 = push_6_4 := rfl
        rw [this, T.dest_actions.2.1] at hact
        exact absurd hact (by simp)
      · have : push_action 6 6 = push_6_6 := rfl
        rw [this, T.dest_actions.2.2] at hact
        exact absurd hact (by simp)

theorem trajectory_phi_5_pop (network : TunnelNetwork) (L : Int) (M : Z3_model)
    (nd : Int → Int) (st : Int → List protocol) (T : path_trajectory network L M nd st) :
    eval M (create_phi_5_pop network L) = true := by
  rw [eval_create_phi_5_pop]
  intro pos hpos node hnode height hheight pa hpa pb hpb hact hx
  obtain ⟨_, hu, hh⟩ := (T.x_iff node pos height hnode ⟨hpos.1, by omega⟩
    ⟨by omega, by omega⟩).1 hx
  subst hu
  by_cases hlt : pos < L
  · obtain ⟨a, _, _, happ, huniq⟩ := T.hop pos ⟨hpos.1, hlt⟩
    have ha := (huniq _ hact).resolve_right fun hd => by
      have := (asks_nothing_pop L _ pa pb hpa hpb).1 hd
      omega
    subst ha
    rw [pop_form pa pb hpa hpb, apply_pop_tag, do_pop_some] at happ
    rw [trajectory_y_val network L M nd st T pb pos height hpb ⟨hpos.1, by omega⟩
      ⟨by omega, by omega⟩, ← getLast?_eq_index _ height hh,
      trajectory_y_val network L M nd st T pa pos (height - 1) hpa ⟨hpos.1, by omega⟩
      ⟨by omega, by omega⟩]
    refine ⟨happ.1, ?_⟩
    have hd := getLast?_eq_index (st pos).dropLast (height - 1)
      (by simp only [List.length_dropLast]; omega)
    rw [← happ.2.1, hd, List.dropLast_eq_take, List.getElem?_take]
    rw [if_pos (by omega)]
  · have hposL : pos = L := by omega
    subst hposL
    rw [T.last_stack] at hh
    simp only [List.length_singleton, Nat.cast_one] at hh
    omega

theorem trajectory_phi_5 (network : TunnelNetwork) (L : Int) (M : Z3_model)
    (nd : Int → Int) (st : Int → List protocol) (T : path_trajectory network L M nd st) :
    eval M (create_phi_5 network L) = true := by
  rw [eval_create_phi_5]
  exact ⟨trajectory_phi_5_trans network L M nd st T,
    trajectory_phi_5_push network L M nd st T, trajectory_phi_5_pop network L M nd st T⟩
theorem trajectory_cell_preserved (network : TunnelNetwork) (L : Int) (M : Z3_model)
    (nd : Int → Int) (st : Int → List protocol) (T : path_trajectory network L M nd st)
    (pos k : Int) (hpos : 0 ≤ pos ∧ pos ≤ L) (hk : 0 ≤ k ∧ k ≤ get_stack_size L)
    (he : (st pos)[k.toNat]? = (st (pos + 1))[k.toNat]?) :
    y4_val M pos k = y4_val M (pos + 1) k ∧ y6_val M pos k = y6_val M (pos + 1) k := by
  constructor
  · rw [Bool.eq_iff_iff, T.y4_iff pos k ⟨hpos.1, by omega⟩ hk,
      T.y4_iff (pos + 1) k ⟨by omega, by omega⟩ hk, he]
  · rw [Bool.eq_iff_iff, T.y6_iff pos k ⟨hpos.1, by omega⟩ hk,
      T.y6_iff (pos + 1) k ⟨by omega, by omega⟩ hk, he]

theorem trajectory_phi_6_trans (network : TunnelNetwork) (L : Int) (M : Z3_model)
    (nd : Int → Int) (st : Int → List protocol) (T : path_trajectory network L M nd st) :
    eval M (create_phi_6_trans network L) = true := by
  rw [eval_create_phi_6_trans]
  intro pos hpos node hnode height hheight p hp hact hx cell hcell
  obtain ⟨_, hu, hh⟩ := (T.x_iff node pos height hnode ⟨hpos.1, by omega⟩
    ⟨hheight.1, by omega⟩).1 hx
  subst hu
  apply trajectory_cell_preserved network L M nd st T pos cell ⟨hpos.1, by omega⟩
    ⟨hcell.1, by omega⟩
  by_cases hlt : pos < L
  · obtain ⟨a, _, _, happ, huniq⟩ := T.hop pos ⟨hpos.1, hlt⟩
    have ha := (huniq _ hact).resolve_right (asks_nothing_transmit L _ p)
    subst ha
    rw [transmit_form, apply_transmit_tag, do_transmit_some] at happ
    rw [happ.2]
  · have hposL : pos = L := by omega
    subst hposL
    rw [T.after_last]

theorem trajectory_phi_6_push (network : TunnelNetwork) (L : Int) (M : Z3_model)
    (nd : Int → Int) (st : Int → List protocol) (T : path_trajectory network L M nd st) :
    eval M (create_phi_6_push network L) = true := by
  rw [eval_create_phi_6_push]
  intro pos hpos node hnode height hheight pa hpa pb hpb hact hx cell hcell
  obtain ⟨_, hu, hh⟩ := (T.x_iff node pos height hnode ⟨hpos.1, by omega⟩
    ⟨hheight.1, by omega⟩).1 hx
  subst hu
  apply trajectory_cell_preserved network L M nd st T pos cell ⟨hpos.1, by omega⟩
    ⟨hcell.1, by omega⟩
  obtain ⟨a, _, _, happ, huniq⟩ := T.hop pos hpos
  have ha := (huniq _ hact).resolve_right fun hd => by
    have := ((asks_nothing_push L _ pa pb hpa hpb).1 hd).2
    omega
  subst ha
  rw [push_form pa pb hpa hpb, apply_push_tag, do_push_some] at happ
  rw [happ.2, List.getElem?_append_left (by omega)]

theorem trajectory_phi_6_pop (network : TunnelNetwork) (L : Int) (M : Z3_model)
    (nd : Int → Int) (st : Int → List protocol) (T : path_trajectory network L M nd st) :
    eval M (create_phi_6_pop network L) = true := by
  rw [eval_create_phi_6_pop]
  intro pos hpos node hnode height hheight pa hpa pb hpb hact hx cell hcell
  obtain ⟨_, hu, hh⟩ := (T.x_iff node pos height hnode ⟨hpos.1, by omega⟩
    ⟨by omega, by omega⟩).1 hx
  subst hu
  apply trajectory_cell_preserved network L M nd st T pos cell ⟨hpos.1, by omega⟩
    ⟨hcell.1, by omega⟩
  obtain ⟨a, _, _, happ, huniq⟩ := T.hop pos hpos
  have ha := (huniq _ hact).resolve_right fun hd => by
    have := (asks_nothing_pop L _ pa pb hpa hpb).1 hd
    omega
  subst ha
  rw [pop_form pa pb hpa hpb, apply_pop_tag, do_pop_some] at happ
  rw [happ.2.2, List.dropLast_eq_take, List.getElem?_take, if_pos (by omega)]

theorem trajectory_phi_6 (network : TunnelNetwork) (L : Int) (M : Z3_model)
    (nd : Int → Int) (st : Int → List protocol) (T : path_trajectory network L M nd st) :
    eval M (create_phi_6 network L) = true := by
  rw [eval_create_phi_6]
  exact ⟨trajectory_phi_6_trans network L M nd st T,
    trajectory_phi_6_push network L M nd st T, trajectory_phi_6_pop network L M nd st T⟩

/-- The model of a trajectory satisfies the reduction. -/
theorem trajectory_satisfies (network : TunnelNetwork) (L : Int) (M : Z3_model)
    (nd : Int → Int) (st : Int → List protocol) (T : path_trajectory network L M nd st) :
    eval M (tn_reduction network L) = true := by
  rw [eval_tn_reduction]
  exact ⟨trajectory_phi_1 network L M nd st T, trajectory_phi_2 network L M nd st T,
    trajectory_phi_3 network L M nd st T, trajectory_phi_4 network L M nd st T,
    trajectory_phi_5 network L M nd st T, trajectory_phi_6 network L M nd st T⟩

/-! ## Variable names of in-range coordinates are distinct -/

theorem digitChar_spec : ∀ k, k < 10 →
    (Nat.digitChar k).toNat = 48 + k ∧ Nat.digitChar k ≠ ',' ∧ Nat.digitChar k ≠ ' ' := by
  decide

theorem decimal_value_concat (l : List Char) (c : Char) :
    decimal_value (l ++ [c]) = 10 * decimal_value l + (c.toNat - 48) := by
  unfold decimal_value
  rw [List.foldl_append]
  rfl

theorem toDigitsCore_spec : ∀ (fuel n : Nat) (ds : List Char), n < fuel →
    ∃ l, Nat.toDigitsCore 10 fuel n ds = l ++ ds ∧ decimal_value l = n ∧
      ∀ c ∈ l, c ≠ ',' ∧ c ≠ ' ' := by
  intro fuel
  induction fuel with
  | zero => intro n ds h; omega
  | succ fuel ih =>
    intro n ds h
    have hd := digitChar_spec (n % 10) (Nat.mod_lt _ (by decide))
    unfold Nat.toDigitsCore
    simp only
    by_cases h0 : n / 10 = 0
    · rw [if_pos h0]
      refine ⟨[Nat.digitChar (n % 10)], rfl, ?_, ?_⟩
      · have := decimal_value_concat [] (Nat.digitChar (n % 10))
        simp only [List.nil_append] at this
        rw [this, hd.1]
        simp only [decimal_value, List.foldl_nil]
        omega
      · intro c hc
        rw [List.mem_singleton] at hc
        subst hc
        exact hd.2
    · rw [if_neg h0]
      obtain ⟨l, hl, hv, hc⟩ := ih (n / 10) (Nat.digitChar (n % 10) :: ds) (by omega)
      refine ⟨l ++ [Nat.digitChar (n % 10)], ?_, ?_, ?_⟩
      · rw [hl, List.append_assoc]
        rfl
      · rw [decimal_value_concat, hv, hd.1]
        omega
      · intro c hc'
        rcases List.mem_append.1 hc' with h1 | h1
        · exact hc c h1
        · rw [List.mem_singleton] at h1
          subst h1
          exact hd.2

theorem fmt_d_spec (n : Int) (hn : 0 ≤ n) :
    decimal_value (fmt_d n) = n.toNat ∧ ∀ c ∈ fmt_d n, c ≠ ',' ∧ c ≠ ' ' := by
  unfold fmt_d
  rw [if_neg (by omega)]
  obtain ⟨l, hl, hv, hc⟩ := toDigitsCore_spec (n.toNat + 1) n.toNat [] (by omega)
  rw [List.append_nil] at hl
  unfold Nat.toDigits
  rw [hl]
  exact ⟨hv, hc⟩

theorem fmt_d_inj (n m : Int) (hn : 0 ≤ n) (hm : 0 ≤ m) (h : fmt_d n = fmt_d m) : n = m := by
  have h1 := (fmt_d_spec n hn).1
  have h2 := (fmt_d_spec m hm).1
  rw [h, h2] at h1
  omega

theorem fmt_d_length (n : Int) (hn : 0 ≤ n) (hb : n < 10000000000) :
    (fmt_d n).length ≤ 10 := by
  unfold fmt_d
  rw [if_neg (by omega)]
  exact Nat.toDigitsCore_length 10 (by decide) (n.toNat + 1) n.toNat 10
    (by norm_num; omega) (by decide)

theorem append_sep_inj {α : Type} (c : α) (l1 l2 r1 r2 : List α) (h1 : c ∉ l1)
    (h2 : c ∉ l2) (h : l1 ++ c :: r1 = l2 ++ c :: r2) : l1 = l2 ∧ r1 = r2 := by
  induction l1 generalizing l2 with
  | nil =>
    cases l2 with
    | nil => simpa using h
    | cons b t =>
      simp only [List.nil_append, List.cons_append, List.cons.injEq] at h
      exact absurd (h.1 ▸ List.mem_cons_self _ _) h2
  | cons a t ih =>
    cases l2 with
    | nil =>
      simp only [List.nil_append, List.cons_append, List.cons.injEq] at h
      exact absurd (h.1 ▸ List.mem_cons_self _ _) h1
    | cons b t' =>
      simp only [List.cons_append, List.cons.injEq] at h
      obtain ⟨e1, e2⟩ := ih t' (fun hm => h1 (List.mem_cons_of_mem _ hm))
        (fun hm => h2 (List.mem_cons_of_mem _ hm)) h.2
      exact ⟨by rw [h.1, e1], e2⟩

theorem snprintf_60_inj (t t' : List Char) (h1 : t.length ≤ 59) (h2 : t'.length ≤ 59)
    (h : snprintf_60 t = snprintf_60 t') : t = t' := by
  unfold snprintf_60 at h
  rw [List.take_of_length_le h1, List.take_of_length_le h2] at h
  exact congrArg String.data h
theorem path_variable_head (u i h : Int) :
    (var_name (tn_path_variable u i h)).data.head? = some 'n' := rfl

theorem four_variable_head (i k : Int) :
    (var_name (tn_4_variable i k)).data.head? = some '4' := rfl

theorem six_variable_head (i k : Int) :
    (var_name (tn_6_variable i k)).data.head? = some '6' := rfl

theorem path_ne_four (u i h i' k : Int) :
    var_name (tn_path_variable u i h) ≠ var_name (tn_4_variable i' k) := by
  intro e
  have := congrArg (fun s : String => s.data.head?) e
  simp only [path_variable_head, four_variable_head] at this
  exact absurd this (by decide)

theorem path_ne_six (u i h i' k : Int) :
    var_name (tn_path_variable u i h) ≠ var_name (tn_6_variable i' k) := by
  intro e
  have := congrArg (fun s : String => s.data.head?) e
  simp only [path_variable_head, six_variable_head] at this
  exact absurd this (by decide)

theorem four_ne_six (i k i' k' : Int) :
    var_name (tn_4_variable i k) ≠ var_name (tn_6_variable i' k') := by
  intro e
  have := congrArg (fun s : String => s.data.head?) e
  simp only [four_variable_head, six_variable_head] at this
  exact absurd this (by decide)

theorem path_variable_inj (u i h u' i' h' : Int)
    (hu : 0 ≤ u ∧ u < 10000000000) (hi : 0 ≤ i ∧ i < 10000000000)
    (hh : 0 ≤ h ∧ h < 10000000000) (hu' : 0 ≤ u' ∧ u' < 10000000000)
    (hi' : 0 ≤ i' ∧ i' < 10000000000) (hh' : 0 ≤ h' ∧ h' < 10000000000)
    (e : var_name (tn_path_variable u i h) = var_name (tn_path_variable u' i' h')) :
    u = u' ∧ i = i' ∧ h = h' := by
  have l1 := fmt_d_length u hu.1 hu.2
  have l2 := fmt_d_length i hi.1 hi.2
  have l3 := fmt_d_length h hh.1 hh.2
  have l1' := fmt_d_length u' hu'.1 hu'.2
  have l2' := fmt_d_length i' hi'.1 hi'.2
  have l3' := fmt_d_length h' hh'.1 hh'.2
  have e1 : snprintf_60 ("node ".toList ++ fmt_d u ++ ",pos ".toList ++ fmt_d i
      ++ ", height ".toList ++ fmt_d h) =
    snprintf_60 ("node ".toList ++ fmt_d u' ++ ",pos ".toList ++ fmt_d i'
      ++ ", height ".toList ++ fmt_d h') := e
  have e2 := snprintf_60_inj _ _
    (by simp only [List.length_append]
        have a1 : "node ".toList.length = 5 := by decide
        have a2 : ",pos ".toList.length = 5 := by decide
        have a3 : ", height ".toList.length = 9 := by decide
        omega)
    (by simp only [List.length_append]
        have a1 : "node ".toList.length = 5 := by decide
        have a2 : ",pos ".toList.length = 5 := by decide
        have a3 : ", height ".toList.length = 9 := by decide
        omega) e1
  simp only [List.append_assoc] at e2
  have e3 := List.append_cancel_left e2
  obtain ⟨r1, e4⟩ := append_sep_inj ',' (fmt_d u) (fmt_d u')
    ("pos ".toList ++ (fmt_d i ++ (", height ".toList ++ fmt_d h)))
    ("pos ".toList ++ (fmt_d i' ++ (", height ".toList ++ fmt_d h')))
    (fun hm => ((fmt_d_spec u hu.1).2 _ hm).1 rfl)
    (fun hm => ((fmt_d_spec u' hu'.1).2 _ hm).1 rfl) e3
  have e5 := List.append_cancel_left e4
  obtain ⟨r2, e6⟩ := append_sep_inj ',' (fmt_d i) (fmt_d i')
    (" height ".toList ++ fmt_d h) (" height ".toList ++ fmt_d h')
    (fun hm => ((fmt_d_spec i hi.1).2 _ hm).1 rfl)
    (fun hm => ((fmt_d_spec i' hi'.1).2 _ hm).1 rfl) e5
  have r3 := List.append_cancel_left e6
  exact ⟨fmt_d_inj u u' hu.1 hu'.1 r1, fmt_d_inj i i' hi.1 hi'.1 r2,
    fmt_d_inj h h' hh.1 hh'.1 r3⟩

theorem y_text_inj (tag : List Char) (i k i' k' : Int)
    (htag : tag.length = 12)
    (hi : 0 ≤ i ∧ i < 10000000000) (hk : 0 ≤ k ∧ k < 10000000000)
    (hi' : 0 ≤ i' ∧ i' < 10000000000) (hk' : 0 ≤ k' ∧ k' < 10000000000)
    (e : snprintf_60 (tag ++ fmt_d k ++ " on pos ".toList ++ fmt_d i) =
      snprintf_60 (tag ++ fmt_d k' ++ " on pos ".toList ++ fmt_d i')) :
    i = i' ∧ k = k' := by
  have l1 := fmt_d_length i hi.1 hi.2
  have l2 := fmt_d_length k hk.1 hk.2
  have l1' := fmt_d_length i' hi'.1 hi'.2
  have l2' := fmt_d_length k' hk'.1 hk'.2
  have e2 := snprintf_60_inj _ _
    (by simp only [List.length_append]
        have a1 : " on pos ".toList.length = 8 := by decide
        omega)
    (by simp only [List.length_append]
        have a1 : " on pos ".toList.length = 8 := by decide
        omega) e
  simp only [List.append_assoc] at e2
  have e3 := List.append_cancel_left e2
  obtain ⟨r1, e4⟩ := append_sep_inj ' ' (fmt_d k) (fmt_d k')
    ("on pos ".toList ++ fmt_d i) ("on pos ".toList ++ fmt_d i')
    (fun hm => ((fmt_d_spec k hk.1).2 _ hm).2 rfl)
    (fun hm => ((fmt_d_spec k' hk'.1).2 _ hm).2 rfl) e3
  have r2 := List.append_cancel_left e4
  exact ⟨fmt_d_inj i i' hi.1 hi'.1 r2, fmt_d_inj k k' hk.1 hk'.1 r1⟩

theorem four_variable_inj (i k i' k' : Int)
    (hi : 0 ≤ i ∧ i < 10000000000) (hk : 0 ≤ k ∧ k < 10000000000)
    (hi' : 0 ≤ i' ∧ i' < 10000000000) (hk' : 0 ≤ k' ∧ k' < 10000000000)
    (e : var_name (tn_4_variable i k) = var_name (tn_4_variable i' k')) :
    i = i' ∧ k = k' :=
  y_text_inj "4 at height ".toList i k i' k' (by decide) hi hk hi' hk' e

theorem six_variable_inj (i k i' k' : Int)
    (hi : 0 ≤ i ∧ i < 10000000000) (hk : 0 ≤ k ∧ k < 10000000000)
    (hi' : 0 ≤ i' ∧ i' < 10000000000) (hk' : 0 ≤ k' ∧ k' < 10000000000)
    (e : var_name (tn_6_variable i k) = var_name (tn_6_variable i' k')) :
    i = i' ∧ k = k' :=
  y_text_inj "6 at height ".toList i k i' k' (by decide) hi hk hi' hk' e

/-! ## The trajectory of a valid path -/

theorem chain_spec (finish : Int) (P : List tn_step) :
    ∀ start, chain_from start finish P = true →
      (∀ n, n < P.length →
        ∃ a, P[n]? = some ⟨a, node_at start P n, node_at start P (n + 1)⟩) ∧
      node_at start P P.length = finish := by
  induction P with
  | nil =>
    intro start h
    simp only [chain_from, decide_eq_true_eq] at h
    exact ⟨fun n hn => absurd hn (by simp), by simpa [node_at] using h⟩
  | cons s rest ih =>
    intro start h
    simp only [chain_from, Bool.and_eq_true, decide_eq_true_eq] at h
    obtain ⟨ih1, ih2⟩ := ih s.tgt h.2
    refine ⟨?_, ?_⟩
    · intro n hn
      cases n with
      | zero =>
        refine ⟨s.action, ?_⟩
        simp only [List.getElem?_cons_zero, node_at, Option.some.injEq]
        rw [← h.1]
      | succ n =>
        obtain ⟨a, ha⟩ := ih1 n (by simpa using hn)
        exact ⟨a, by simpa [node_at] using ha⟩
    · simpa [node_at] using ih2

theorem run_prefix (acts : List stack_action) (s0 t : List protocol)
    (h : run_actions acts s0 = some t) (n : Nat) :
    ∃ s, run_actions (acts.take n) s0 = some s := by
  have e : acts = acts.take n ++ acts.drop n := (List.take_append_drop n acts).symm
  rw [e, run_actions_append] at h
  cases hr : run_actions (acts.take n) s0 with
  | none => rw [hr] at h; simp at h
  | some s => exact ⟨s, rfl⟩

theorem run_step (acts : List stack_action) (t : List protocol)
    (h : run_actions acts [P4] = some t) (n : Nat) (a : stack_action)
    (ha : acts[n]? = some a) :
    apply_action a (stack_after acts n) = some (stack_after acts (n + 1)) := by
  obtain ⟨s, hs⟩ := run_prefix acts [P4] t h n
  obtain ⟨s', hs'⟩ := run_prefix acts [P4] t h (n + 1)
  unfold stack_after
  rw [hs, hs']
  rw [List.take_succ, ha, run_actions_append, hs] at hs'
  simpa [run_actions] using hs'

theorem stack_after_zero (acts : List stack_action) : stack_after acts 0 = [P4] := rfl

theorem stack_after_full (acts : List stack_action) (t : List protocol)
    (h : run_actions acts [P4] = some t) (n : Nat) (hn : acts.length ≤ n) :
    stack_after acts n = t := by
  unfold stack_after
  rw [List.take_of_length_le hn, h]
  rfl

theorem apply_action_length (a : stack_action) (s t : List protocol)
    (h : apply_action a s = some t) :
    1 ≤ t.length ∧ t.length ≤ s.length + 1 ∧ s.length ≤ t.length + 1 := by
  rcases action_forms a with ⟨p, hp, rfl⟩ | ⟨pa, pb, hpa, hpb, rfl⟩ | ⟨pa, pb, hpa, hpb, rfl⟩
  · rw [transmit_form, apply_transmit_tag, do_transmit_some] at h
    obtain ⟨h1, rfl⟩ := h
    cases t with
    | nil => simp at h1
    | cons c r => simp
  · rw [push_form pa pb hpa hpb, apply_push_tag, do_push_some] at h
    obtain ⟨_, rfl⟩ := h
    simp only [List.length_append, List.length_singleton]
    omega
  · rw [pop_form pa pb hpa hpb, apply_pop_tag, do_pop_some] at h
    obtain ⟨_, h2, rfl⟩ := h
    have hne : s.dropLast ≠ [] := by
      intro he
      rw [he] at h2
      simp at h2
    have := List.length_pos.2 hne
    simp only [List.length_dropLast] at this ⊢
    omega

/-- Along a run that ends with one cell, the stack after `n` of the `L` actions has at
least one cell and at most `min n (L - n) + 1`. -/
theorem stack_after_length (acts : List stack_action)
    (h : run_actions acts [P4] = some [P4]) (n : Nat) (hn : n ≤ acts.length) :
    1 ≤ (stack_after acts n).length ∧ (stack_after acts n).length ≤ n + 1 ∧
      (stack_after acts n).length + n ≤ acts.length + 1 := by
  have hstep : ∀ m, m < acts.length →
      1 ≤ (stack_after acts (m + 1)).length ∧
      (stack_after acts (m + 1)).length ≤ (stack_after acts m).length + 1 ∧
      (stack_after acts m).length ≤ (stack_after acts (m + 1)).length + 1 := by
    intro m hm
    exact apply_action_length _ _ _
      (run_step acts [P4] h m acts[m] (List.getElem?_eq_getElem hm))
  have hup : ∀ m, m ≤ acts.length →
      1 ≤ (stack_after acts m).length ∧ (stack_after acts m).length ≤ m + 1 := by
    intro m
    induction m with
    | zero => intro _; simp [stack_after_zero]
    | succ m ih =>
      intro hm
      have := hstep m (by omega)
      have := ih (by omega)
      omega
  have hdown : ∀ d m, m + d = acts.length → (stack_after acts m).length ≤ d + 1 := by
    intro d
    induction d with
    | zero =>
      intro m hm
      rw [stack_after_full acts [P4] h m (by omega)]
      simp
    | succ d ih =>
      intro m hm
      have := hstep m (by omega)
      have := ih (m + 1) (by omega)
      omega
  have := hup n hn
  have := hdown (acts.length - n) n (by omega)
  omega
theorem node_at_zero (start : Int) (P : List tn_step) : node_at start P 0 = start := by
  cases P <;> rfl

/-- The steps of a valid path, position by position. -/
theorem valid_path_step (network : TunnelNetwork) (L : Int) (P : List tn_step)
    (hP : valid_tunnel_path network L P) (n : Nat) (hn : n < P.length) :
    ∃ a, P[n]? = some ⟨a, node_at (tn_get_initial network) P n,
        node_at (tn_get_initial network) P (n + 1)⟩ ∧
      (0 ≤ node_at (tn_get_initial network) P (n + 1) ∧
        node_at (tn_get_initial network) P (n + 1) < tn_get_num_nodes network) ∧
      tn_is_edge network (node_at (tn_get_initial network) P n)
        (node_at (tn_get_initial network) P (n + 1)) = true ∧
      tn_node_has_action network (node_at (tn_get_initial network) P n) a = true ∧
      apply_action a (stack_after (P.map tn_step.action) n) =
        some (stack_after (P.map tn_step.action) (n + 1)) := by
  obtain ⟨_, _, _, hchain, hsteps, hrun⟩ := hP
  obtain ⟨a, ha⟩ := (chain_spec _ P _ hchain).1 n hn
  have hmem := List.getElem?_mem ha
  obtain ⟨_, h2, h3, h4⟩ := hsteps _ hmem
  refine ⟨a, ha, h2, h3, h4, ?_⟩
  apply run_step _ _ hrun
  rw [List.getElem?_map, ha]
  rfl

theorem valid_path_node_range (network : TunnelNetwork) (L : Int) (P : List tn_step)
    (hP : valid_tunnel_path network L P) (n : Nat) (hn : n ≤ P.length) :
    0 ≤ node_at (tn_get_initial network) P n ∧
      node_at (tn_get_initial network) P n < tn_get_num_nodes network := by
  cases n with
  | zero =>
    rw [node_at_zero]
    exact hP.2.1
  | succ m =>
    obtain ⟨_, _, h, _⟩ := valid_path_step network L P hP m (by omega)
    exact h

theorem valid_path_stack_range (network : TunnelNetwork) (L : Int) (P : List tn_step)
    (hP : valid_tunnel_path network L P) (n : Nat) :
    1 ≤ ((stack_after (P.map tn_step.action) n).length : Int) ∧
      ((stack_after (P.map tn_step.action) n).length : Int) ≤ get_stack_size L := by
  have hL : (0 : Int) ≤ L := by rw [← hP.1]; omega
  have hlen : (P.map tn_step.action).length = P.length := List.length_map _ _
  have hLen : (P.length : Int) = L := hP.1
  rw [get_stack_size_eq L hL]
  by_cases hn : n ≤ P.length
  · have := stack_after_length _ hP.2.2.2.2.2 n (by omega)
    omega
  · rw [stack_after_full _ _ hP.2.2.2.2.2 n (by omega)]
    simp only [List.length_singleton, Nat.cast_one]
    omega

theorem path_model_true (source : Int) (P : List tn_step) (name : String) :
    path_model source P name = true ↔
      (∃ i, (0 ≤ i ∧ i < (P.length : Int) + 1) ∧
        name = var_name (tn_path_variable (node_at source P i.toNat) i
          (((stack_after (P.map tn_step.action) i.toNat).length : Int) - 1))) ∨
      (∃ i, (0 ≤ i ∧ i < (P.length : Int) + 2) ∧
        ∃ k, (0 ≤ k ∧ k < ((stack_after (P.map tn_step.action) i.toNat).length : Int)) ∧
          name = var_name (y_variable
            (((stack_after (P.map tn_step.action) i.toNat)[k.toNat]?).getD P4) i k)) := by
  simp only [path_model, Bool.or_eq_true, List.any_eq_true, mem_int_range, beq_iff_eq]

theorem y_variable_ne_path (c : protocol) (i k u i' h : Int) :
    var_name (tn_path_variable u i' h) ≠ var_name (y_variable c i k) := by
  cases c
  · exact path_ne_four u i' h i k
  · exact path_ne_six u i' h i k
theorem path_model_x_iff (network : TunnelNetwork) (L : Int) (P : List tn_step)
    (hP : valid_tunnel_path network L P) (hLb : L < 2147483647)
    (hNb : tn_get_num_nodes network ≤ 2147483647) (u i h : Int)
    (hu : 0 ≤ u ∧ u < tn_get_num_nodes network) (hi : 0 ≤ i ∧ i ≤ L + 1)
    (hh : 0 ≤ h ∧ h ≤ get_stack_size L) :
    x_val (path_model (tn_get_initial network) P) u i h = true ↔
      i ≤ L ∧ u = node_at (tn_get_initial network) P i.toNat ∧
        h + 1 = ((stack_after (P.map tn_step.action) i.toNat).length : Int) := by
  have hL : (0 : Int) ≤ L := by rw [← hP.1]; omega
  have hLen : (P.length : Int) = L := hP.1
  have hH := get_stack_size_eq L hL
  have hx : x_val (path_model (tn_get_initial network) P) u i h =
      path_model (tn_get_initial network) P (var_name (tn_path_variable u i h)) := rfl
  rw [hx, path_model_true]
  constructor
  · rintro (⟨j, hj, e⟩ | ⟨j, _, k, _, e⟩)
    · have hn := valid_path_node_range network L P hP j.toNat (by omega)
      have hs := valid_path_stack_range network L P hP j.toNat
      obtain ⟨e1, e2, e3⟩ := path_variable_inj u i h _ j _ ⟨hu.1, by omega⟩
        ⟨hi.1, by omega⟩ ⟨hh.1, by omega⟩ ⟨hn.1, by omega⟩ ⟨hj.1, by omega⟩
        ⟨by omega, by omega⟩ e
      subst e2
      exact ⟨by omega, e1, by omega⟩
    · exact absurd e (y_variable_ne_path _ _ _ _ _ _)
  · rintro ⟨h1, h2, h3⟩
    refine Or.inl ⟨i, ⟨hi.1, by omega⟩, ?_⟩
    rw [h2, ← h3]
    congr 2
    omega

theorem stack_getD (s : List protocol) (k : Int) (hk : 0 ≤ k ∧ k < (s.length : Int)) :
    s[k.toNat]? = some ((s[k.toNat]?).getD P4) := by
  have : k.toNat < s.length := by omega
  rw [List.getElem?_eq_getElem this]
  rfl

theorem path_model_y4_iff (network : TunnelNetwork) (L : Int) (P : List tn_step)
    (hP : valid_tunnel_path network L P) (hLb : L < 2147483647) (i k : Int)
    (hi : 0 ≤ i ∧ i ≤ L + 1) (hk : 0 ≤ k ∧ k ≤ get_stack_size L) :
    y4_val (path_model (tn_get_initial network) P) i k = true ↔
      (stack_after (P.map tn_step.action) i.toNat)[k.toNat]? = some P4 := by
  have hL : (0 : Int) ≤ L := by rw [← hP.1]; omega
  have hLen : (P.length : Int) = L := hP.1
  have hH := get_stack_size_eq L hL
  have hy : y4_val (path_model (tn_get_initial network) P) i k =
      path_model (tn_get_initial network) P (var_name (tn_4_variable i k)) := rfl
  rw [hy, path_model_true]
  constructor
  · rintro (⟨j, _, e⟩ | ⟨j, hj, k', hk', e⟩)
    · exact absurd e.symm (path_ne_four _ _ _ _ _)
    · have hs := valid_path_stack_range network L P hP j.toNat
      have hget := stack_getD _ k' hk'
      cases hc : ((stack_after (P.map tn_step.action) j.toNat)[k'.toNat]?).getD P4 with
      | P4 =>
        rw [hc] at e hget
        obtain ⟨e1, e2⟩ := four_variable_inj i k j k' ⟨hi.1, by omega⟩ ⟨hk.1, by omega⟩
          ⟨hj.1, by omega⟩ ⟨hk'.1, by omega⟩ e
        rw [e1, e2]
        exact hget
      | P6 =>
        rw [hc] at e
        exact absurd e (four_ne_six _ _ _ _)
  · intro h
    have hlt : k.toNat < (stack_after (P.map tn_step.action) i.toNat).length :=
      (List.getElem?_eq_some.1 h).1
    refine Or.inr ⟨i, ⟨hi.1, by omega⟩, k, ⟨hk.1, by omega⟩, ?_⟩
    rw [h]
    rfl

theorem path_model_y6_iff (network : TunnelNetwork) (L : Int) (P : List tn_step)
    (hP : valid_tunnel_path network L P) (hLb : L < 2147483647) (i k : Int)
    (hi : 0 ≤ i ∧ i ≤ L + 1) (hk : 0 ≤ k ∧ k ≤ get_stack_size L) :
    y6_val (path_model (tn_get_initial network) P) i k = true ↔
      (stack_after (P.map tn_step.action) i.toNat)[k.toNat]? = some P6 := by
  have hL : (0 : Int) ≤ L := by rw [← hP.1]; omega
  have hLen : (P.length : Int) = L := hP.1
  have hH := get_stack_size_eq L hL
  have hy : y6_val (path_model (tn_get_initial network) P) i k =
      path_model (tn_get_initial network) P (var_name (tn_6_variable i k)) := rfl
  rw [hy, path_model_true]
  constructor
  · rintro (⟨j, _, e⟩ | ⟨j, hj, k', hk', e⟩)
    · exact absurd e.symm (path_ne_six _ _ _ _ _)
    · have hs := valid_path_stack_range network L P hP j.toNat
      have hget := stack_getD _ k' hk'
      cases hc : ((stack_after (P.map tn_step.action) j.toNat)[k'.toNat]?).getD P4 with
      | P4 =>
        rw [hc] at e
        exact absurd e.symm (four_ne_six _ _ _ _)
      | P6 =>
        rw [hc] at e hget
        obtain ⟨e1, e2⟩ := six_variable_inj i k j k' ⟨hi.1, by omega⟩ ⟨hk.1, by omega⟩
          ⟨hj.1, by omega⟩ ⟨hk'.1, by omega⟩ e
        rw [e1, e2]
        exact hget
  · intro h
    have hlt : k.toNat < (stack_after (P.map tn_step.action) i.toNat).length :=
      (List.getElem?_eq_some.1 h).1
    refine Or.inr ⟨i, ⟨hi.1, by omega⟩, k, ⟨hk.1, by omega⟩, ?_⟩
    rw [h]
    rfl
/-- The model of a valid path whose nodes support only the action the path performs
there, with a destination that accepts the stack `[P4]`, describes a trajectory. -/
theorem path_trajectory_of_valid (network : TunnelNetwork) (L : Int) (P : List tn_step)
    (hP : valid_tunnel_path network L P) (hLb : L < 2147483647)
    (hNb : tn_get_num_nodes network ≤ 2147483647)
    (hob : obligations_met network L P) :
    path_trajectory network L (path_model (tn_get_initial network) P)
      (fun i => node_at (tn_get_initial network) P i.toNat)
      (fun i => stack_after (P.map tn_step.action) i.toNat) := by
  have hL : (0 : Int) ≤ L := by rw [← hP.1]; omega
  have hLen : (P.length : Int) = L := hP.1
  have hlen' : (P.map tn_step.action).length = P.length := List.length_map _ _
  have hrun := hP.2.2.2.2.2
  have hLn : L.toNat = P.length := by omega
  refine {
    length_nonneg := hL
    node_range := fun i hi => valid_path_node_range network L P hP i.toNat (by omega)
    stack_range := fun i _ => valid_path_stack_range network L P hP i.toNat
    first_node := node_at_zero _ _
    last_node := ?_
    first_stack := stack_after_zero _
    last_stack := stack_after_full _ _ hrun _ (by omega)
    after_last := ?_
    hop := ?_
    dest_actions := hob.2
    x_iff := path_model_x_iff network L P hP hLb hNb
    y4_iff := path_model_y4_iff network L P hP hLb
    y6_iff := path_model_y6_iff network L P hP hLb }
  · simp only [hLn]
    exact (chain_spec _ P _ hP.2.2.2.1).2
  · show stack_after _ (L + 1).toNat = stack_after _ L.toNat
    rw [stack_after_full _ _ hrun _ (by omega), stack_after_full _ _ hrun _ (by omega)]
  · intro i hi
    obtain ⟨a, ha, _, hedge, hact, happ⟩ := valid_path_step network L P hP i.toNat (by omega)
    have e : (i + 1).toNat = i.toNat + 1 := by omega
    simp only [e]
    refine ⟨a, hedge, hact, happ, ?_⟩
    intro b hb
    exact hob.1 i.toNat _ ha b hb

/-- Every tag is `transmit_P`, `push_A_B` or `pop_A_B`. -/
theorem tag_forms (a : stack_action) :
    (∃ P, a = transmit_tag P) ∨ (∃ A B, a = push_tag A B) ∨ (∃ A B, a = pop_tag A B) := by
  cases a
  · exact Or.inl ⟨P4, rfl⟩
  · exact Or.inl ⟨P6, rfl⟩
  · exact Or.inr (Or.inl ⟨P4, P4, rfl⟩)
  · exact Or.inr (Or.inl ⟨P4, P6, rfl⟩)
  · exact Or.inr (Or.inl ⟨P6, P4, rfl⟩)
  · exact Or.inr (Or.inl ⟨P6, P6, rfl⟩)
  · exact Or.inr (Or.inr ⟨P4, P4, rfl⟩)
  · exact Or.inr (Or.inr ⟨P4, P6, rfl⟩)
  · exact Or.inr (Or.inr ⟨P6, P4, rfl⟩)
  · exact Or.inr (Or.inr ⟨P6, P6, rfl⟩)

theorem getLast?_some_length (s : List protocol) (c : protocol)
    (h : s.getLast? = some c) : 1 ≤ s.length := by
  cases s with
  | nil => simp at h
  | cons a r => simp

/-- The action of a step of the stack machine is determined by the stacks before and
after it. -/
theorem apply_action_inj (a b : stack_action) (s t : List protocol)
    (ha : apply_action a s = some t) (hb : apply_action b s = some t) : a = b := by
  rcases tag_forms a with ⟨P, rfl⟩ | ⟨A, B, rfl⟩ | ⟨A, B, rfl⟩ <;>
    rcases tag_forms b with ⟨Q, rfl⟩ | ⟨C, D, rfl⟩ | ⟨C, D, rfl⟩
  · rw [apply_transmit_tag, do_transmit_some] at ha hb
    have := ha.1.symm.trans hb.1
    rw [Option.some.inj this]
  · rw [apply_transmit_tag, do_transmit_some] at ha
    rw [apply_push_tag, do_push_some] at hb
    have := congrArg List.length (ha.2.symm.trans hb.2)
    simp at this
  · rw [apply_transmit_tag, do_transmit_some] at ha
    rw [apply_pop_tag, do_pop_some] at hb
    have h1 := getLast?_some_length s _ ha.1
    have := congrArg List.length (ha.2.symm.trans hb.2.2)
    simp only [List.length_dropLast] at this
    omega
  · rw [apply_push_tag, do_push_some] at ha
    rw [apply_transmit_tag, do_transmit_some] at hb
    have := congrArg List.length (ha.2.symm.trans hb.2)
    simp at this
  · rw [apply_push_tag, do_push_some] at ha hb
    have h1 := Option.some.inj (ha.1.symm.trans hb.1)
    have h2 := List.append_cancel_left (ha.2.symm.trans hb.2)
    simp only [List.cons.injEq, and_true] at h2
    rw [h1, h2]
  · rw [apply_push_tag, do_push_some] at ha
    rw [apply_pop_tag, do_pop_some] at hb
    have := congrArg List.length (ha.2.symm.trans hb.2.2)
    simp only [List.length_append, List.length_singleton, List.length_dropLast] at this
    omega
  · rw [apply_pop_tag, do_pop_some] at ha
    rw [apply_transmit_tag, do_transmit_some] at hb
    have h1 := getLast?_some_length s _ hb.1
    have := congrArg List.length (ha.2.2.symm.trans hb.2)
    simp only [List.length_dropLast] at this
    omega
  · rw [apply_pop_tag, do_pop_some] at ha
    rw [apply_push_tag, do_push_some] at hb
    have := congrArg List.length (ha.2.2.symm.trans hb.2)
    simp only [List.length_append, List.length_singleton, List.length_dropLast] at this
    omega
  · rw [apply_pop_tag, do_pop_some] at ha hb
    have h1 := Option.some.inj (ha.1.symm.trans hb.1)
    have h2 := Option.some.inj (ha.2.1.symm.trans hb.2.1)
    rw [h1, h2]

/-- An action that asks nothing of a hop leaving a stack as long as `s0` is not the
action of a step between stacks of the array that starts from a stack of that length. -/
theorem asks_nothing_not_applied (L : Int) (s0 s t : List protocol) (d : stack_action)
    (hd : asks_nothing L s0 d) (happ : apply_action d s = some t)
    (hlen : s.length = s0.length) (ht : (t.length : Int) ≤ get_stack_size L) : False := by
  rcases action_forms d with ⟨p, _, rfl⟩ | ⟨pa, pb, hpa, hpb, rfl⟩ | ⟨pa, pb, hpa, hpb, rfl⟩
  · exact asks_nothing_transmit L s0 p hd
  · have h1 := ((asks_nothing_push L s0 pa pb hpa hpb).1 hd).2
    rw [push_form pa pb hpa hpb, apply_push_tag, do_push_some] at happ
    have := congrArg List.length happ.2
    simp only [List.length_append, List.length_singleton] at this
    omega
  · have h1 := (asks_nothing_pop L s0 pa pb hpa hpb).1 hd
    rw [pop_form pa pb hpa hpb, apply_pop_tag, do_pop_some] at happ
    have h2 := getLast?_some_length _ _ happ.2.1
    simp only [List.length_dropLast] at h2
    omega

/-- In the model of a trajectory the decoder recovers each step. -/
theorem trajectory_decoded (action_0 : stack_action) (network : TunnelNetwork) (L : Int)
    (M : Z3_model) (nd : Int → Int) (st : Int → List protocol)
    (T : path_trajectory network L M nd st) (i : Int) (hi : 0 ≤ i ∧ i < L)
    (b : stack_action) (hb : apply_action b (st i) = some (st (i + 1))) :
    (tn_get_path_from_model action_0 M network L)[i.toNat]? =
      some ⟨b, nd i, nd (i + 1)⟩ := by
  have hM := trajectory_satisfies network L M nd st T
  have h1 := ((eval_tn_reduction M network L).1 hM).1
  have hs := T.stack_range i ⟨hi.1, by omega⟩
  have hs' := T.stack_range (i + 1) ⟨by omega, by omega⟩
  have hn := T.node_range i ⟨hi.1, by omega⟩
  have hn' := T.node_range (i + 1) ⟨by omega, by omega⟩
  have ho : occupied network L M i (nd i) (((st i).length : Int) - 1) :=
    ⟨hn, ⟨by omega, by omega⟩,
      (T.x_iff _ i _ hn ⟨hi.1, by omega⟩ ⟨by omega, by omega⟩).2 ⟨by omega, rfl, by omega⟩⟩
  have ho' : occupied network L M (i + 1) (nd (i + 1)) (((st (i + 1)).length : Int) - 1) :=
    ⟨hn', ⟨by omega, by omega⟩,
      (T.x_iff _ (i + 1) _ hn' ⟨by omega, by omega⟩ ⟨by omega, by omega⟩).2
        ⟨by omega, rfl, by omega⟩⟩
  obtain ⟨a, hedge, hact, happ, huniq⟩ := T.hop i hi
  have hba : b = a := apply_action_inj b a _ _ hb happ
  have hlen := apply_action_length a _ _ happ
  have hen : hop_enabled network L (nd i) (((st i).length : Int) - 1) := by
    refine ⟨⟨nd (i + 1), hn', hedge⟩, a, hact, ?_⟩
    rcases action_forms a with ⟨p, hp, rfl⟩ | ⟨pa, pb, hpa, hpb, rfl⟩ |
      ⟨pa, pb, hpa, hpb, rfl⟩
    · split <;> trivial
    · rw [applicable_push L _ pa pb hpa hpb]
      rw [push_form pa pb hpa hpb, apply_push_tag, do_push_some] at happ
      have := congrArg List.length happ.2
      simp only [List.length_append, List.length_singleton] at this
      omega
    · rw [applicable_pop L _ pa pb hpa hpb]
      rw [pop_form pa pb hpa hpb, apply_pop_tag, do_pop_some] at happ
      have := congrArg List.length happ.2.2
      simp only [List.length_dropLast] at this
      omega
  have hstep := hop_step action_0 network L M hM i hi _ _ _ _ ho ho' hen
  have hda := (huniq _ hstep.1).resolve_right fun hd =>
    asks_nothing_not_applied L (st i) _ _ _ hd hstep.2.2.2
      (by rw [stack_of_length]; omega) (by rw [stack_of_length]; omega)
  rw [decoded_step_of_occupied action_0 network L M h1 i hi _ _ _ _ ho ho', hda, hba]
  rfl

/-- The bounded reduction, when it has a value, is the conjunction of φ1, ..., φ6. -/
theorem tn_reduction_bounded_some (network : TunnelNetwork) (L : Int) (f : Z3_ast)
    (hf : tn_reduction_bounded network L = some f) : f = tn_reduction network L := by
  unfold tn_reduction_bounded at hf
  split at hf
  · exact (Option.some.inj hf).symm
  · exact Option.noConfusion hf

/-- When the bounded reduction has a value, `L` and the number of nodes are within the
range of a C `int`. -/
theorem tn_reduction_bounded_int_range (network : TunnelNetwork) (L : Int) (f : Z3_ast)
    (hf : tn_reduction_bounded network L = some f) (hN : 1 ≤ tn_get_num_nodes network) :
    L < 2147483647 ∧ tn_get_num_nodes network ≤ 2147483647 := by
  unfold tn_reduction_bounded at hf
  split at hf
  · rename_i hb
    unfold stores_in_bounds at hb
    simp only [Bool.and_eq_true] at hb
    have hc := hb.1.1.1.1.1.1.1.1.1.1
    unfold capacities_fit_int max_implications_phi_5_push_pop at hc
    obtain ⟨hL, _, hcap⟩ := of_decide_eq_true hc
    have hg := get_stack_size_pos L hL
    have h1 : (0 : Int) ≤ (L + 1) * tn_get_num_nodes network :=
      mul_nonneg (by omega) (by omega)
    have h2 : (L + 1) * tn_get_num_nodes network ≤
        (L + 1) * tn_get_num_nodes network * get_stack_size L :=
      le_mul_of_one_le_right h1 (by omega)
    have h3 : L + 1 ≤ (L + 1) * tn_get_num_nodes network :=
      le_mul_of_one_le_right (by omega) hN
    have h4 : tn_get_num_nodes network ≤ (L + 1) * tn_get_num_nodes network :=
      le_mul_of_one_le_left (by omega) (by omega)
    constructor <;> omega
  · exact Option.noConfusion hf

/-! ## Completeness (C2) -/

/-- C2 (amended): for every network and every `L ≥ 0` for which the array capacities
are computed within a C `int` and no store of `tn_reduction` falls past the end of an
array, and every valid tunnel path `P` of length `L` that meets its
obligations (every action supported by the node a step leaves is the action of that
step, or a `push_A_B` while the stack has top `A` and fills the stack array, or a
decapsulation while the stack has one cell; the destination supports none of
`transmit_6`, `push_6_4`, `push_6_6`), there is a valuation `M` satisfying the formula
returned by `tn_reduction network L` whose decoding `tn_get_path_from_model M network L`
equals `P`. -/
theorem completeness_on_compatible_paths (action_0 : stack_action)
    (network : TunnelNetwork) (L : Int) (P : List tn_step) (_hL : 0 ≤ L)
    (hP : valid_tunnel_path network L P) (hob : obligations_met network L P)
    (f : Z3_ast) (hf : tn_reduction_bounded network L = some f) :
    ∃ M, eval M f = true ∧ tn_get_path_from_model action_0 M network L = P := by
  obtain ⟨hLb, hNb⟩ := tn_reduction_bounded_int_range network L f hf (by
    have := hP.2.1
    omega)
  have hfe := tn_reduction_bounded_some network L f hf
  subst hfe
  have T := path_trajectory_of_valid network L P hP hLb hNb hob
  have hL : (0 : Int) ≤ L := T.length_nonneg
  have hLen : (P.length : Int) = L := hP.1
  refine ⟨path_model (tn_get_initial network) P, trajectory_satisfies network L _ _ _ T, ?_⟩
  apply List.ext_getElem?
  intro n
  by_cases hn : n < P.length
  · obtain ⟨a, ha, _, _, _, happ⟩ := valid_path_step network L P hP n hn
    have := trajectory_decoded action_0 network L _ _ _ T n ⟨by omega, by omega⟩ a
      (by
        have e1 : ((n : Int) + 1).toNat = n + 1 := by omega
        simp only [Int.toNat_ofNat, e1]
        exact happ)
    have e1 : ((n : Int) + 1).toNat = n + 1 := by omega
    simp only [Int.toNat_ofNat, e1] at this
    rw [this, ha]
  · have hlen := decoded_length action_0 network L
      (path_model (tn_get_initial network) P) hL
    rw [List.getElem?_eq_none (by omega), List.getElem?_eq_none (by omega)]

theorem tunnel_path_valid : valid_tunnel_path tunnel_network 3 tunnel_path := by
  unfold valid_tunnel_path
  decide

theorem tunnel_obligations_met : obligations_met tunnel_network 3 tunnel_path := by
  refine ⟨?_, by decide, by decide, by decide⟩
  intro n s hs b hb
  have hmem := List.getElem?_mem hs
  simp only [tunnel_path, List.mem_cons, List.mem_singleton, List.not_mem_nil,
    or_false] at hmem
  left
  rcases hmem with rfl | rfl | rfl <;> cases b <;>
    first
    | rfl
    | exact absurd hb (by decide)

/-- On `transmit_or_push_network` with `L = 1` the stack array has one cell, so the
`push_4_6` that node 0 supports besides `transmit_4` asks nothing of the hop. -/
theorem transmit_or_push_obligations_met :
    obligations_met transmit_or_push_network 1 [⟨transmit_4, 0, 1⟩] := by
  refine ⟨?_, by decide, by decide, by decide⟩
  intro n s hs b hb
  have hn : n = 0 := by
    cases n with
    | zero => rfl
    | succ m => simp at hs
  subst hn
  have hs0 : s = ⟨transmit_4, 0, 1⟩ := by
    simp only [List.getElem?_cons_zero, Option.some.injEq] at hs
    exact hs.symm
  subst hs0
  cases b
  · exact Or.inl rfl
  · exact absurd hb (by decide)
  · exact absurd hb (by decide)
  · exact Or.inr ⟨by decide, by decide⟩
  all_goals exact absurd hb (by decide)

theorem completeness_on_compatible_paths_witness :
    (∃ M, eval M (tn_reduction tunnel_network 3) = true ∧
      tn_get_path_from_model transmit_4 M tunnel_network 3 = tunnel_path) ∧
    (∃ M, eval M (tn_reduction transmit_or_push_network 1) = true ∧
      tn_get_path_from_model transmit_4 M transmit_or_push_network 1 =
        [⟨transmit_4, 0, 1⟩]) :=
  ⟨completeness_on_compatible_paths transmit_4 tunnel_network 3 tunnel_path (by decide)
      tunnel_path_valid tunnel_obligations_met
      (tn_reduction tunnel_network 3) (by
        unfold tn_reduction_bounded
        rw [if_pos (by decide)]),
    completeness_on_compatible_paths transmit_4 transmit_or_push_network 1
      [⟨transmit_4, 0, 1⟩] (by decide)
      (by unfold valid_tunnel_path; decide) transmit_or_push_obligations_met
      (tn_reduction transmit_or_push_network 1) (by
        unfold tn_reduction_bounded
        rw [if_pos (by decide)])⟩

/-- C2 as stated fails: in `two_transmit_network` (edge `0 -> 1`, node 0 supporting
`transmit_4` and `transmit_6`) the path `[(transmit_4, 0, 1)]` is a valid tunnel path of
length 1, every store of `tn_reduction` for `L = 1` is in bounds, and no valuation
satisfies the formula returned. -/
theorem completeness_counterexample :
    valid_tunnel_path two_transmit_network 1 [⟨transmit_4, 0, 1⟩] ∧
      tn_reduction_bounded two_transmit_network 1 =
        some (tn_reduction two_transmit_network 1) ∧
      ¬ ∃ M, eval M (tn_reduction two_transmit_network 1) = true ∧
        tn_get_path_from_model transmit_4 M two_transmit_network 1 =
          [⟨transmit_4, 0, 1⟩] := by
  refine ⟨by unfold valid_tunnel_path; decide, ?_, ?_⟩
  · unfold tn_reduction_bounded
    rw [if_pos (by decide)]
  rintro ⟨M, hM, _⟩
  obtain ⟨_, h2, _, h4, h5, _⟩ := (eval_tn_reduction M two_transmit_network 1).1 hM
  obtain ⟨hx, hy4, _, _⟩ := (eval_create_phi_2 M two_transmit_network 1).1 h2
  have hx0 : x_val M 0 0 0 = true := hx
  have hy6 : y_val M 6 0 0 = true :=
    (eval_create_phi_5_trans M two_transmit_network 1).1
      ((eval_create_phi_5 M two_transmit_network 1).1 h5).1 0 (by decide) 0 (by decide) 0
      (by decide) 6 (Or.inr rfl) (by decide) hx0
  have hxor := cell_xor two_transmit_network 1 M h4 0 (by decide) 0 0
    ⟨by decide, by decide, hx0⟩ 0 (by decide)
  have hy6' : y6_val M 0 0 = true := hy6
  rw [hy4, hy6'] at hxor
  exact absurd hxor (by decide)

/-! ## The stack bound (C15) -/

theorem walk_le_up (L : Int) (h : Int → Int) (h0 : h 0 = 0)
    (hstep : ∀ i, 0 ≤ i ∧ i < L → |h (i + 1) - h i| ≤ 1) (n : Nat) (hn : (n : Int) ≤ L) :
    h n ≤ n := by
  induction n with
  | zero => simp [h0]
  | succ n ih =>
    have h1 := ih (by push_cast at hn; omega)
    have h2 := hstep n ⟨by omega, by push_cast at hn; omega⟩
    rw [abs_le] at h2
    push_cast
    omega

theorem walk_le_down (L : Int) (h : Int → Int) (hL : h L = 0)
    (hstep : ∀ i, 0 ≤ i ∧ i < L → |h (i + 1) - h i| ≤ 1) (d : Nat) (hd : (d : Int) ≤ L) :
    h (L - d) ≤ d := by
  induction d with
  | zero => simp [hL]
  | succ d ih =>
    have h1 := ih (by push_cast at hd; omega)
    have h2 := hstep (L - (d + 1 : Nat)) ⟨by omega, by push_cast; omega⟩
    rw [abs_le] at h2
    have e : L - ((d + 1 : Nat) : Int) + 1 = L - (d : Int) := by push_cast; omega
    rw [e] at h2
    push_cast at h2 ⊢
    omega

/-- C15 (stack bound): for `L ≥ 0`, `get_stack_size L = ⌊L / 2⌋ + 1`; every sequence
`h_0 .. h_L` with `h_0 = h_L = 0` and `|h_{i+1} - h_i| ≤ 1` has every
`h_i ≤ get_stack_size L - 1`, and some such sequence attains `get_stack_size L - 1`. -/
theorem stack_size_is_max_height (L : Int) (hL : 0 ≤ L) :
    get_stack_size L = L / 2 + 1 ∧
    (∀ h : Int → Int, h 0 = 0 → h L = 0 →
      (∀ i, 0 ≤ i ∧ i < L → |h (i + 1) - h i| ≤ 1) →
      ∀ i, 0 ≤ i ∧ i ≤ L → h i ≤ get_stack_size L - 1) ∧
    (∃ h : Int → Int, h 0 = 0 ∧ h L = 0 ∧
      (∀ i, 0 ≤ i ∧ i < L → |h (i + 1) - h i| ≤ 1) ∧
      ∃ i, (0 ≤ i ∧ i ≤ L) ∧ h i = get_stack_size L - 1) := by
  have hs := get_stack_size_eq L hL
  refine ⟨hs, ?_, ?_⟩
  · intro h h0 hLz hstep i hi
    have h1 := walk_le_up L h h0 hstep i.toNat (by omega)
    have h2 := walk_le_down L h hLz hstep (L - i).toNat (by omega)
    rw [Int.toNat_of_nonneg hi.1] at h1
    rw [Int.toNat_of_nonneg (by omega), show L - (L - i) = i by omega] at h2
    rw [hs]
    omega
  · refine ⟨fun i => min i (L - i), by simp [hL], by simp [hL], ?_, L / 2, ⟨by omega, by omega⟩,
      ?_⟩
    · intro i _
      simp only []
      rw [abs_le]
      omega
    · simp only []
      rw [hs]
      omega

theorem stack_size_is_max_height_witness :
    get_stack_size 5 = 5 / 2 + 1 ∧
    (∀ h : Int → Int, h 0 = 0 → h 5 = 0 →
      (∀ i, 0 ≤ i ∧ i < 5 → |h (i + 1) - h i| ≤ 1) →
      ∀ i, 0 ≤ i ∧ i ≤ 5 → h i ≤ get_stack_size 5 - 1) ∧
    (∃ h : Int → Int, h 0 = 0 ∧ h 5 = 0 ∧
      (∀ i, 0 ≤ i ∧ i < 5 → |h (i + 1) - h i| ≤ 1) ∧
      ∃ i, (0 ≤ i ∧ i ≤ 5) ∧ h i = get_stack_size 5 - 1) :=
  stack_size_is_max_height 5 (by decide)

/-! ## Variable names for all 32-bit coordinates (C13) -/

theorem digitChar_ne_minus : ∀ k, k < 10 → Nat.digitChar k ≠ '-' := by
  decide

theorem toDigitsCore_no_minus : ∀ (fuel n : Nat) (ds : List Char),
    (∀ c ∈ ds, c ≠ '-') → ∀ c ∈ Nat.toDigitsCore 10 fuel n ds, c ≠ '-' := by
  intro fuel
  induction fuel with
  | zero =>
    intro n ds h c hc
    exact h c hc
  | succ fuel ih =>
    intro n ds h c hc
    have hd := digitChar_ne_minus (n % 10) (Nat.mod_lt _ (by decide))
    have hds : ∀ c ∈ Nat.digitChar (n % 10) :: ds, c ≠ '-' := by
      intro c hc
      rcases List.mem_cons.1 hc with rfl | h'
      · exact hd
      · exact h c h'
    unfold Nat.toDigitsCore at hc
    simp only at hc
    by_cases h0 : n / 10 = 0
    · rw [if_pos h0] at hc
      exact hds c hc
    · rw [if_neg h0] at hc
      exact ih (n / 10) _ hds c hc

theorem toDigits_spec (n : Nat) :
    decimal_value (Nat.toDigits 10 n) = n ∧
      ∀ c ∈ Nat.toDigits 10 n, c ≠ ',' ∧ c ≠ ' ' ∧ c ≠ '-' := by
  obtain ⟨l, hl, hv, hc⟩ := toDigitsCore_spec (n + 1) n [] (by omega)
  rw [List.append_nil] at hl
  have hm := toDigitsCore_no_minus (n + 1) n [] (fun c hc => absurd hc (List.not_mem_nil c))
  unfold Nat.toDigits
  refine ⟨by rw [hl]; exact hv, ?_⟩
  intro c hc'
  refine ⟨?_, ?_, hm c hc'⟩
  · rw [hl] at hc'; exact (hc c hc').1
  · rw [hl] at hc'; exact (hc c hc').2

/-- The text printed by `%d` contains neither a comma nor a blank. -/
theorem fmt_d_no_separator (n : Int) : ∀ c ∈ fmt_d n, c ≠ ',' ∧ c ≠ ' ' := by
  intro c hc
  unfold fmt_d at hc
  split at hc
  · rcases List.mem_cons.1 hc with rfl | h
    · exact ⟨by decide, by decide⟩
    · exact ⟨((toDigits_spec _).2 c h).1, ((toDigits_spec _).2 c h).2.1⟩
  · exact ⟨((toDigits_spec _).2 c hc).1, ((toDigits_spec _).2 c hc).2.1⟩

/-- The conversion `%d` is injective. -/
theorem fmt_d_injective (n m : Int) (h : fmt_d n = fmt_d m) : n = m := by
  unfold fmt_d at h
  by_cases hn : n < 0 <;> by_cases hm : m < 0
  · rw [if_pos hn, if_pos hm] at h
    have h' := List.tail_eq_of_cons_eq h
    have e := congrArg decimal_value h'
    rw [(toDigits_spec _).1, (toDigits_spec _).1] at e
    omega
  · rw [if_pos hn, if_neg hm] at h
    have : '-' ∈ Nat.toDigits 10 m.toNat := by rw [← h]; exact List.mem_cons_self _ _
    exact absurd rfl ((toDigits_spec _).2 _ this).2.2
  · rw [if_neg hn, if_pos hm] at h
    have : '-' ∈ Nat.toDigits 10 n.toNat := by rw [h]; exact List.mem_cons_self _ _
    exact absurd rfl ((toDigits_spec _).2 _ this).2.2
  · rw [if_neg hn, if_neg hm] at h
    have e := congrArg decimal_value h
    rw [(toDigits_spec _).1, (toDigits_spec _).1] at e
    omega

/-- A 32-bit integer is printed by `%d` with at most 11 characters. -/
theorem fmt_d_length_int (n : Int) (hn : -2147483648 ≤ n ∧ n ≤ 2147483647) :
    (fmt_d n).length ≤ 11 := by
  unfold fmt_d
  split
  · have := Nat.toDigitsCore_length 10 (by decide) (n.natAbs + 1) n.natAbs 10
      (by norm_num; omega) (by decide)
    have e : (Nat.toDigits 10 n.natAbs).length ≤ 10 := this
    simp only [List.length_cons]
    omega
  · have := Nat.toDigitsCore_length 10 (by decide) (n.toNat + 1) n.toNat 10
      (by norm_num; omega) (by decide)
    have e : (Nat.toDigits 10 n.toNat).length ≤ 10 := this
    omega
theorem path_text_length (u i h : Int) (l1 : (fmt_d u).length ≤ 11)
    (l2 : (fmt_d i).length ≤ 11) (l3 : (fmt_d h).length ≤ 11) :
    ("node ".toList ++ fmt_d u ++ ",pos ".toList ++ fmt_d i ++ ", height ".toList
      ++ fmt_d h).length ≤ 59 := by
  simp only [List.length_append]
  have a1 : "node ".toList.length = 5 := by decide
  have a2 : ",pos ".toList.length = 5 := by decide
  have a3 : ", height ".toList.length = 9 := by decide
  omega

theorem y_text_length (tag : List Char) (htag : tag.length = 12) (i k : Int)
    (l1 : (fmt_d i).length ≤ 11) (l2 : (fmt_d k).length ≤ 11) :
    (tag ++ fmt_d k ++ " on pos ".toList ++ fmt_d i).length ≤ 59 := by
  simp only [List.length_append]
  have a1 : " on pos ".toList.length = 8 := by decide
  omega

theorem snprintf_60_short (t : List Char) (h : t.length ≤ 59) :
    snprintf_60 t = String.mk t := by
  unfold snprintf_60
  rw [List.take_of_length_le h]

/-- Two names of `x` variables that are not truncated are equal only for equal
coordinates. -/
theorem path_text_inj (u i h u' i' h' : Int)
    (l1 : (fmt_d u).length ≤ 11) (l2 : (fmt_d i).length ≤ 11) (l3 : (fmt_d h).length ≤ 11)
    (l1' : (fmt_d u').length ≤ 11) (l2' : (fmt_d i').length ≤ 11)
    (l3' : (fmt_d h').length ≤ 11)
    (e : var_name (tn_path_variable u i h) = var_name (tn_path_variable u' i' h')) :
    u = u' ∧ i = i' ∧ h = h' := by
  have e1 : snprintf_60 ("node ".toList ++ fmt_d u ++ ",pos ".toList ++ fmt_d i
      ++ ", height ".toList ++ fmt_d h) =
    snprintf_60 ("node ".toList ++ fmt_d u' ++ ",pos ".toList ++ fmt_d i'
      ++ ", height ".toList ++ fmt_d h') := e
  have e2 := snprintf_60_inj _ _ (path_text_length u i h l1 l2 l3)
    (path_text_length u' i' h' l1' l2' l3') e1
  simp only [List.append_assoc] at e2
  have e3 := List.append_cancel_left e2
  obtain ⟨r1, e4⟩ := append_sep_inj ',' (fmt_d u) (fmt_d u')
    ("pos ".toList ++ (fmt_d i ++ (", height ".toList ++ fmt_d h)))
    ("pos ".toList ++ (fmt_d i' ++ (", height ".toList ++ fmt_d h')))
    (fun hm => (fmt_d_no_separator u _ hm).1 rfl)
    (fun hm => (fmt_d_no_separator u' _ hm).1 rfl) e3
  have e5 := List.append_cancel_left e4
  obtain ⟨r2, e6⟩ := append_sep_inj ',' (fmt_d i) (fmt_d i')
    (" height ".toList ++ fmt_d h) (" height ".toList ++ fmt_d h')
    (fun hm => (fmt_d_no_separator i _ hm).1 rfl)
    (fun hm => (fmt_d_no_separator i' _ hm).1 rfl) e5
  have r3 := List.append_cancel_left e6
  exact ⟨fmt_d_injective u u' r1, fmt_d_injective i i' r2, fmt_d_injective h h' r3⟩

theorem y_text_inj_int (tag : List Char) (htag : tag.length = 12) (i k i' k' : Int)
    (l1 : (fmt_d i).length ≤ 11) (l2 : (fmt_d k).length ≤ 11)
    (l1' : (fmt_d i').length ≤ 11) (l2' : (fmt_d k').length ≤ 11)
    (e : snprintf_60 (tag ++ fmt_d k ++ " on pos ".toList ++ fmt_d i) =
      snprintf_60 (tag ++ fmt_d k' ++ " on pos ".toList ++ fmt_d i')) :
    i = i' ∧ k = k' := by
  have e2 := snprintf_60_inj _ _ (y_text_length tag htag i k l1 l2)
    (y_text_length tag htag i' k' l1' l2') e
  simp only [List.append_assoc] at e2
  have e3 := List.append_cancel_left e2
  obtain ⟨r1, e4⟩ := append_sep_inj ' ' (fmt_d k) (fmt_d k')
    ("on pos ".toList ++ fmt_d i) ("on pos ".toList ++ fmt_d i')
    (fun hm => (fmt_d_no_separator k _ hm).2 rfl)
    (fun hm => (fmt_d_no_separator k' _ hm).2 rfl) e3
  have r2 := List.append_cancel_left e4
  exact ⟨fmt_d_injective i i' r2, fmt_d_injective k k' r1⟩

/-- C13 (collision-free names): for 32-bit integer coordinates, no name is truncated by
the 60-byte buffer (the name is the whole formatted text), the name built by
`tn_path_variable` determines `(node, pos, height)`, the names built by `tn_4_variable`
and by `tn_6_variable` determine `(pos, height)`, and names of the three families `x`,
`y4`, `y6` are pairwise different. -/
theorem variable_names_collision_free (node pos height node' pos' height' : Int)
    (hn : -2147483648 ≤ node ∧ node ≤ 2147483647)
    (hp : -2147483648 ≤ pos ∧ pos ≤ 2147483647)
    (hh : -2147483648 ≤ height ∧ height ≤ 2147483647)
    (hn' : -2147483648 ≤ node' ∧ node' ≤ 2147483647)
    (hp' : -2147483648 ≤ pos' ∧ pos' ≤ 2147483647)
    (hh' : -2147483648 ≤ height' ∧ height' ≤ 2147483647) :
    (var_name (tn_path_variable node pos height) =
        String.mk ("node ".toList ++ fmt_d node ++ ",pos ".toList ++ fmt_d pos
          ++ ", height ".toList ++ fmt_d height) ∧
      var_name (tn_4_variable pos height) =
        String.mk ("4 at height ".toList ++ fmt_d height ++ " on pos ".toList
          ++ fmt_d pos) ∧
      var_name (tn_6_variable pos height) =
        String.mk ("6 at height ".toList ++ fmt_d height ++ " on pos ".toList
          ++ fmt_d pos)) ∧
    (var_name (tn_path_variable node pos height) =
        var_name (tn_path_variable node' pos' height') →
      node = node' ∧ pos = pos' ∧ height = height') ∧
    (var_name (tn_4_variable pos height) = var_name (tn_4_variable pos' height') →
      pos = pos' ∧ height = height') ∧
    (var_name (tn_6_variable pos height) = var_name (tn_6_variable pos' height') →
      pos = pos' ∧ height = height') ∧
    var_name (tn_path_variable node pos height) ≠ var_name (tn_4_variable pos' height') ∧
    var_name (tn_path_variable node pos height) ≠ var_name (tn_6_variable pos' height') ∧
    var_name (tn_4_variable pos height) ≠ var_name (tn_6_variable pos' height') := by
  have l1 := fmt_d_length_int node hn
  have l2 := fmt_d_length_int pos hp
  have l3 := fmt_d_length_int height hh
  have l1' := fmt_d_length_int node' hn'
  have l2' := fmt_d_length_int pos' hp'
  have l3' := fmt_d_length_int height' hh'
  refine ⟨⟨?_, ?_, ?_⟩, ?_, ?_, ?_, path_ne_four _ _ _ _ _, path_ne_six _ _ _ _ _,
    four_ne_six _ _ _ _⟩
  · exact snprintf_60_short _ (path_text_length node pos height l1 l2 l3)
  · exact snprintf_60_short _ (y_text_length _ (by decide) pos height l2 l3)
  · exact snprintf_60_short _ (y_text_length _ (by decide) pos height l2 l3)
  · exact path_text_inj node pos height node' pos' height' l1 l2 l3 l1' l2' l3'
  · exact y_text_inj_int "4 at height ".toList (by decide) pos height pos' height'
      l2 l3 l2' l3'
  · exact y_text_inj_int "6 at height ".toList (by decide) pos height pos' height'
      l2 l3 l2' l3'

theorem variable_names_collision_free_witness :
    (var_name (tn_path_variable (-2147483648) 2147483647 (-1)) =
        String.mk ("node ".toList ++ fmt_d (-2147483648) ++ ",pos ".toList
          ++ fmt_d 2147483647 ++ ", height ".toList ++ fmt_d (-1)) ∧
      var_name (tn_4_variable 2147483647 (-1)) =
        String.mk ("4 at height ".toList ++ fmt_d (-1) ++ " on pos ".toList
          ++ fmt_d 2147483647) ∧
      var_name (tn_6_variable 2147483647 (-1)) =
        String.mk ("6 at height ".toList ++ fmt_d (-1) ++ " on pos ".toList
          ++ fmt_d 2147483647)) ∧
    (var_name (tn_path_variable (-2147483648) 2147483647 (-1)) =
        var_name (tn_path_variable 21 47 483648) →
      (-2147483648 : Int) = 21 ∧ (2147483647 : Int) = 47 ∧ (-1 : Int) = 483648) ∧
    (var_name (tn_4_variable 2147483647 (-1)) = var_name (tn_4_variable 47 483648) →
      (2147483647 : Int) = 47 ∧ (-1 : Int) = 483648) ∧
    (var_name (tn_6_variable 2147483647 (-1)) = var_name (tn_6_variable 47 483648) →
      (2147483647 : Int) = 47 ∧ (-1 : Int) = 483648) ∧
    var_name (tn_path_variable (-2147483648) 2147483647 (-1)) ≠
      var_name (tn_4_variable 47 483648) ∧
    var_name (tn_path_variable (-2147483648) 2147483647 (-1)) ≠
      var_name (tn_6_variable 47 483648) ∧
    var_name (tn_4_variable 2147483647 (-1)) ≠ var_name (tn_6_variable 47 483648) :=
  variable_names_collision_free (-2147483648) 2147483647 (-1) 21 47 483648 (by decide)
    (by decide) (by decide) (by decide) (by decide) (by decide)

/-! ## The decoder on inconsistent models (C11) -/

theorem decode_action_far (action_0 : stack_action) (M : Z3_model) (i s t : Int)
    (h : |t - s| > 1) : decode_action action_0 M i s t = action_0 := by
  have h' : ¬ (-1 ≤ t - s ∧ t - s ≤ 1) := by
    intro hc
    have := abs_le.2 hc
    omega
  unfold decode_action
  rw [if_neg (by omega), if_neg (by omega), if_neg (by omega)]

/-- A loop that keeps the last element satisfying `P` returns an element satisfying `P`
when there is one. -/
theorem foldl_select_some {α : Type} (P : α → Bool) (l : List α) (init : α)
    (h : ∃ a ∈ l, P a = true) :
    (l.foldl (fun acc b => if P b = true then b else acc) init) ∈ l ∧
      P (l.foldl (fun acc b => if P b = true then b else acc) init) = true := by
  induction l generalizing init with
  | nil => simp at h
  | cons b rest ih =>
    rw [List.foldl_cons]
    by_cases hr : ∃ a ∈ rest, P a = true
    · obtain ⟨h1, h2⟩ := ih (if P b = true then b else init) hr
      exact ⟨List.mem_cons_of_mem _ h1, h2⟩
    · have hnone : ∀ c ∈ rest, P c = false := by
        intro c hc
        by_contra hPc
        exact hr ⟨c, hc, by simpa using hPc⟩
      rw [foldl_select_none P rest _ hnone]
      obtain ⟨a, ha, hPa⟩ := h
      have hab : a = b := by
        rcases List.mem_cons.1 ha with h' | h'
        · exact h'
        · rw [hnone a h'] at hPa
          exact absurd hPa (by simp)
      subst hab
      rw [if_pos hPa]
      exact ⟨List.mem_cons_self _ _, hPa⟩

/-- What the scan leaves in `src, src_height`: `-1, -1` when no pair is occupied at
`pos`, an occupied pair otherwise. -/
theorem scan_position_src_cases (M : Z3_model) (network : TunnelNetwork) (bound pos : Int) :
    ((∀ u h, ¬ occupied network bound M pos u h) →
      (scan_position M network bound pos).src = -1 ∧
        (scan_position M network bound pos).src_height = -1) ∧
    ((∃ u h, occupied network bound M pos u h) →
      occupied network bound M pos (scan_position M network bound pos).src
        (scan_position M network bound pos).src_height) := by
  have hc := (scan_fold_components M pos (node_height_pairs network bound)
    ⟨-1, -1, -1, -1⟩).1
  rw [← scan_position_eq] at hc
  simp only at hc
  constructor
  · intro hnone
    rw [foldl_select_none (fun p : Int × Int => x_val M p.1 pos p.2)] at hc
    · exact ⟨congrArg Prod.fst hc, congrArg Prod.snd hc⟩
    · intro p hp
      by_contra hx
      exact hnone p.1 p.2 ((occupied_iff_mem network bound M pos p).2
        ⟨hp, by simpa using hx⟩)
  · rintro ⟨u, h, ho⟩
    have hs := foldl_select_some (fun p : Int × Int => x_val M p.1 pos p.2)
      (node_height_pairs network bound) (-1, -1)
      ⟨(u, h), ((occupied_iff_mem network bound M pos (u, h)).1 ho).1, ho.2.2⟩
    rw [← hc] at hs
    exact (occupied_iff_mem network bound M pos _).2 hs

/-- What the scan leaves in `tgt, tgt_height`: `-1, -1` when no pair is occupied at
`pos + 1`, an occupied pair otherwise. -/
theorem scan_position_tgt_cases (M : Z3_model) (network : TunnelNetwork) (bound pos : Int) :
    ((∀ u h, ¬ occupied network bound M (pos + 1) u h) →
      (scan_position M network bound pos).tgt = -1 ∧
        (scan_position M network bound pos).tgt_height = -1) ∧
    ((∃ u h, occupied network bound M (pos + 1) u h) →
      occupied network bound M (pos + 1) (scan_position M network bound pos).tgt
        (scan_position M network bound pos).tgt_height) := by
  have hc := (scan_fold_components M pos (node_height_pairs network bound)
    ⟨-1, -1, -1, -1⟩).2
  rw [← scan_position_eq] at hc
  simp only at hc
  constructor
  · intro hnone
    rw [foldl_select_none (fun p : Int × Int => x_val M p.1 (pos + 1) p.2)] at hc
    · exact ⟨congrArg Prod.fst hc, congrArg Prod.snd hc⟩
    · intro p hp
      by_contra hx
      exact hnone p.1 p.2 ((occupied_iff_mem network bound M (pos + 1) p).2
        ⟨hp, by simpa using hx⟩)
  · rintro ⟨u, h, ho⟩
    have hs := foldl_select_some (fun p : Int × Int => x_val M p.1 (pos + 1) p.2)
      (node_height_pairs network bound) (-1, -1)
      ⟨(u, h), ((occupied_iff_mem network bound M (pos + 1) (u, h)).1 ho).1, ho.2.2⟩
    rw [← hc] at hs
    exact (occupied_iff_mem network bound M (pos + 1) _).2 hs

/-- A loop that keeps the last element satisfying `P` returns the last such element of
the list, and the initial value when there is none. -/
theorem foldl_select_last {α : Type} (P : α → Bool) (l : List α) (init : α) :
    l.foldl (fun acc b => if P b = true then b else acc) init =
      ((l.filter P).getLast?).getD init := by
  induction l generalizing init with
  | nil => rfl
  | cons b rest ih =>
    rw [List.foldl_cons, ih]
    by_cases hb : P b = true
    · rw [if_pos hb, List.filter_cons_of_pos hb, List.getLast?_cons]
      rfl
    · rw [if_neg hb, List.filter_cons_of_neg hb]

/-- In a list whose elements are pairwise in the relation `R`, every element is the last
one or in relation with it. -/
theorem pairwise_getLast {α : Type} (R : α → α → Prop) (t : List α) (r : α)
    (hp : t.Pairwise R) (hl : t.getLast? = some r) : ∀ b ∈ t, b = r ∨ R b r := by
  obtain ⟨ys, rfl⟩ := List.getLast?_eq_some_iff.1 hl
  intro b hb
  rcases List.mem_append.1 hb with h | h
  · exact Or.inr ((List.pairwise_append.1 hp).2.2 b h r (List.mem_singleton.2 rfl))
  · exact Or.inl (List.mem_singleton.1 h)

theorem int_range_pairwise (lo hi : Int) : (int_range lo hi).Pairwise (· < ·) := by
  unfold int_range
  rw [List.pairwise_map]
  refine (List.pairwise_lt_range _).imp ?_
  intro a b hab
  omega

/-- The loops of the decoder visit the pairs in node-major, height-minor order. -/
theorem node_height_pairs_pairwise (network : TunnelNetwork) (length : Int) :
    (node_height_pairs network length).Pairwise
      fun p q => p.1 < q.1 ∨ (p.1 = q.1 ∧ p.2 < q.2) := by
  unfold node_height_pairs
  rw [List.pairwise_flatMap]
  constructor
  · intro node _
    rw [List.pairwise_map]
    refine (int_range_pairwise _ _).imp ?_
    intro a b hab
    exact Or.inr ⟨rfl, hab⟩
  · refine (int_range_pairwise _ _).imp ?_
    intro a b hab x hx y hy
    obtain ⟨_, _, rfl⟩ := List.mem_map.1 hx
    obtain ⟨_, _, rfl⟩ := List.mem_map.1 hy
    exact Or.inl hab

/-- The pair kept by the scanning fold over `node_height_pairs`: every pair whose
variable is true comes no later in node-major, height-minor order. -/
theorem scan_fold_last (network : TunnelNetwork) (bound pos : Int) (M : Z3_model)
    (u h : Int) (ho : occupied network bound M pos u h) :
    let r := (node_height_pairs network bound).foldl
      (fun acc p => if x_val M p.1 pos p.2 = true then p else acc) (-1, -1)
    u < r.1 ∨ (u = r.1 ∧ h ≤ r.2) := by
  intro r
  have hr : r = (((node_height_pairs network bound).filter
      fun p => x_val M p.1 pos p.2).getLast?).getD (-1, -1) :=
    foldl_select_last (fun p : Int × Int => x_val M p.1 pos p.2) _ _
  have hmem : (u, h) ∈ (node_height_pairs network bound).filter
      fun p => x_val M p.1 pos p.2 :=
    List.mem_filter.2 ⟨((occupied_iff_mem network bound M pos (u, h)).1 ho).1, ho.2.2⟩
  cases hl : ((node_height_pairs network bound).filter
      fun p => x_val M p.1 pos p.2).getLast? with
  | none =>
    rw [List.getLast?_eq_none_iff] at hl
    rw [hl] at hmem
    exact absurd hmem (List.not_mem_nil _)
  | some q =>
    rw [hl] at hr
    have hq : r = q := hr
    rw [hq]
    rcases pairwise_getLast _ _ q
      ((node_height_pairs_pairwise network bound).filter _) hl (u, h) hmem with e | hlt
    · rw [← e]
      exact Or.inr ⟨rfl, le_refl h⟩
    · rcases hlt with h1 | ⟨h1, h2⟩
      · exact Or.inl h1
      · exact Or.inr ⟨h1, le_of_lt h2⟩

/-- The pair left in `src, src_height` is the last occupied pair of position `pos` in
node-major, height-minor order. -/
theorem scan_position_src_last (M : Z3_model) (network : TunnelNetwork) (bound pos : Int)
    (u h : Int) (ho : occupied network bound M pos u h) :
    u < (scan_position M network bound pos).src ∨
      (u = (scan_position M network bound pos).src ∧
        h ≤ (scan_position M network bound pos).src_height) := by
  have hc := (scan_fold_components M pos (node_height_pairs network bound)
    ⟨-1, -1, -1, -1⟩).1
  rw [← scan_position_eq] at hc
  simp only at hc
  have := scan_fold_last network bound pos M u h ho
  simp only at this
  rw [← hc] at this
  exact this

/-- The pair left in `tgt, tgt_height` is the last occupied pair of position `pos + 1`
in node-major, height-minor order. -/
theorem scan_position_tgt_last (M : Z3_model) (network : TunnelNetwork) (bound pos : Int)
    (u h : Int) (ho : occupied network bound M (pos + 1) u h) :
    u < (scan_position M network bound pos).tgt ∨
      (u = (scan_position M network bound pos).tgt ∧
        h ≤ (scan_position M network bound pos).tgt_height) := by
  have hc := (scan_fold_components M pos (node_height_pairs network bound)
    ⟨-1, -1, -1, -1⟩).2
  rw [← scan_position_eq] at hc
  simp only at hc
  have := scan_fold_last network bound (pos + 1) M u h ho
  simp only at this
  rw [← hc] at this
  exact this

/-- C11 (amended): `tn_get_path_from_model` has no failure result.  For every valuation
`M` and bound `L ≥ 0` it writes `L` steps; the step of hop `i` carries the `src` and `tgt`
left by the scan of positions `i` and `i + 1`, which are `-1` (with height `-1`) when no
`x` variable is true at the position and, when one or several are, the last occupied
pair in node-major, height-minor order (an occupied pair that every occupied pair of
the position precedes or equals); and when the heights found satisfy
`|tgt_h - src_h| > 1` its action is the tag of integer value 0. -/
theorem decoder_never_reports_failure (action_0 : stack_action) (M : Z3_model)
    (network : TunnelNetwork) (L : Int) (hL : 0 ≤ L) :
    ((tn_get_path_from_model action_0 M network L).length : Int) = L ∧
    ∀ i, 0 ≤ i ∧ i < L →
      ∃ step,
        (tn_get_path_from_model action_0 M network L)[i.toNat]? = some step ∧
        step.src = (scan_position M network L i).src ∧
        step.tgt = (scan_position M network L i).tgt ∧
        ((∀ u h, ¬ occupied network L M i u h) →
          (scan_position M network L i).src = -1 ∧
            (scan_position M network L i).src_height = -1) ∧
        ((∃ u h, occupied network L M i u h) →
          occupied network L M i (scan_position M network L i).src
            (scan_position M network L i).src_height) ∧
        (∀ u h, occupied network L M i u h →
          u < (scan_position M network L i).src ∨
            (u = (scan_position M network L i).src ∧
              h ≤ (scan_position M network L i).src_height)) ∧
        ((∀ u h, ¬ occupied network L M (i + 1) u h) →
          (scan_position M network L i).tgt = -1 ∧
            (scan_position M network L i).tgt_height = -1) ∧
        ((∃ u h, occupied network L M (i + 1) u h) →
          occupied network L M (i + 1) (scan_position M network L i).tgt
            (scan_position M network L i).tgt_height) ∧
        (∀ u h, occupied network L M (i + 1) u h →
          u < (scan_position M network L i).tgt ∨
            (u = (scan_position M network L i).tgt ∧
              h ≤ (scan_position M network L i).tgt_height)) ∧
        (|(scan_position M network L i).tgt_height -
            (scan_position M network L i).src_height| > 1 → step.action = action_0) := by
  refine ⟨decoded_length action_0 network L M hL, ?_⟩
  intro i hi
  refine ⟨_, decoded_step action_0 M network L i hi.1 hi.2, rfl, rfl,
    (scan_position_src_cases M network L i).1, (scan_position_src_cases M network L i).2,
    scan_position_src_last M network L i,
    (scan_position_tgt_cases M network L i).1, (scan_position_tgt_cases M network L i).2,
    scan_position_tgt_last M network L i, ?_⟩
  intro hfar
  exact decode_action_far action_0 M i _ _ hfar

theorem decoder_never_reports_failure_witness :
    ((tn_get_path_from_model pop_6_6 isolated_model_4 isolated_network 4).length : Int) = 4 ∧
    ∀ i : Int, 0 ≤ i ∧ i < 4 →
      ∃ step,
        (tn_get_path_from_model pop_6_6 isolated_model_4 isolated_network 4)[i.toNat]?
          = some step ∧
        step.src = (scan_position isolated_model_4 isolated_network 4 i).src ∧
        step.tgt = (scan_position isolated_model_4 isolated_network 4 i).tgt ∧
        ((∀ u h, ¬ occupied isolated_network 4 isolated_model_4 i u h) →
          (scan_position isolated_model_4 isolated_network 4 i).src = -1 ∧
            (scan_position isolated_model_4 isolated_network 4 i).src_height = -1) ∧
        ((∃ u h, occupied isolated_network 4 isolated_model_4 i u h) →
          occupied isolated_network 4 isolated_model_4 i
            (scan_position isolated_model_4 isolated_network 4 i).src
            (scan_position isolated_model_4 isolated_network 4 i).src_height) ∧
        (∀ u h, occupied isolated_network 4 isolated_model_4 i u h →
          u < (scan_position isolated_model_4 isolated_network 4 i).src ∨
            (u = (scan_position isolated_model_4 isolated_network 4 i).src ∧
              h ≤ (scan_position isolated_model_4 isolated_network 4 i).src_height)) ∧
        ((∀ u h, ¬ occupied isolated_network 4 isolated_model_4 (i + 1) u h) →
          (scan_position isolated_model_4 isolated_network 4 i).tgt = -1 ∧
            (scan_position isolated_model_4 isolated_network 4 i).tgt_height = -1) ∧
        ((∃ u h, occupied isolated_network 4 isolated_model_4 (i + 1) u h) →
          occupied isolated_network 4 isolated_model_4 (i + 1)
            (scan_position isolated_model_4 isolated_network 4 i).tgt
            (scan_position isolated_model_4 isolated_network 4 i).tgt_height) ∧
        (∀ u h, occupied isolated_network 4 isolated_model_4 (i + 1) u h →
          u < (scan_position isolated_model_4 isolated_network 4 i).tgt ∨
            (u = (scan_position isolated_model_4 isolated_network 4 i).tgt ∧
              h ≤ (scan_position isolated_model_4 isolated_network 4 i).tgt_height)) ∧
        (|(scan_position isolated_model_4 isolated_network 4 i).tgt_height -
            (scan_position isolated_model_4 isolated_network 4 i).src_height| > 1 →
          step.action = pop_6_6) :=
  decoder_never_reports_failure pop_6_6 isolated_model_4 isolated_network 4 (by decide)

/-- C11 as stated fails: in `isolated_model_4` the tops found at positions 0 and 1 are 0
and 2, and the decoder still writes a routing step for hop 0 (and for every hop): with
`pop_6_6` standing for the tag of value 0, the path written is
`(pop_6_6, 0, 0), (pop_6_6, 0, 0), (transmit_4, 0, 0), (transmit_4, 0, 0)`. -/
theorem decoder_failure_counterexample :
    occupied isolated_network 4 isolated_model_4 0 0 0 ∧
      occupied isolated_network 4 isolated_model_4 (0 + 1) 0 2 ∧
      |(2 : Int) - 0| > 1 ∧
      tn_get_path_from_model pop_6_6 isolated_model_4 isolated_network 4 =
        [⟨pop_6_6, 0, 0⟩, ⟨pop_6_6, 0, 0⟩, ⟨transmit_4, 0, 0⟩, ⟨transmit_4, 0, 0⟩] := by
  refine ⟨by decide, by decide, by decide, by decide⟩

/-! ## No validation of the input (C12) -/

theorem variables_of_list_eq (l : List Z3_ast) :
    variables_of_list l = l.flatMap variables_of := by
  induction l with
  | nil => rfl
  | cons a rest ih => simp [variables_of_list, ih]

theorem mem_variables_of_and (name : String) (l : List Z3_ast) :
    name ∈ variables_of (Z3_mk_and l) ↔ ∃ f ∈ l, name ∈ variables_of f := by
  have : variables_of (Z3_mk_and l) = variables_of_list l := rfl
  rw [this, variables_of_list_eq, List.mem_flatMap]

theorem mem_variables_of_or (name : String) (l : List Z3_ast) :
    name ∈ variables_of (Z3_mk_or l) ↔ ∃ f ∈ l, name ∈ variables_of f := by
  have : variables_of (Z3_mk_or l) = variables_of_list l := rfl
  rw [this, variables_of_list_eq, List.mem_flatMap]

theorem mem_variables_of_unique (name : String) (l : List Z3_ast) :
    name ∈ variables_of (uniqueFormula l) ↔ ∃ f ∈ l, name ∈ variables_of f := by
  have : variables_of (uniqueFormula l) = variables_of_list l := rfl
  rw [this, variables_of_list_eq, List.mem_flatMap]

theorem mem_variables_of_implies (name : String) (a b : Z3_ast) :
    name ∈ variables_of (Z3_mk_implies a b) ↔
      name ∈ variables_of a ∨ name ∈ variables_of b := by
  have : variables_of (Z3_mk_implies a b) = variables_of a ++ variables_of b := rfl
  rw [this, List.mem_append]

theorem mem_variables_of_eq (name : String) (a b : Z3_ast) :
    name ∈ variables_of (Z3_mk_eq a b) ↔
      name ∈ variables_of a ∨ name ∈ variables_of b := by
  have : variables_of (Z3_mk_eq a b) = variables_of a ++ variables_of b := rfl
  rw [this, List.mem_append]

theorem mem_variables_of_path (name : String) (u i h : Int) :
    name ∈ variables_of (tn_path_variable u i h) ↔
      name = var_name (tn_path_variable u i h) := by
  have : variables_of (tn_path_variable u i h) = [var_name (tn_path_variable u i h)] := rfl
  rw [this, List.mem_singleton]

theorem mem_variables_of_4 (name : String) (i h : Int) :
    name ∈ variables_of (tn_4_variable i h) ↔ name = var_name (tn_4_variable i h) := by
  have : variables_of (tn_4_variable i h) = [var_name (tn_4_variable i h)] := rfl
  rw [this, List.mem_singleton]

theorem mem_variables_of_6 (name : String) (i h : Int) :
    name ∈ variables_of (tn_6_variable i h) ↔ name = var_name (tn_6_variable i h) := by
  have : variables_of (tn_6_variable i h) = [var_name (tn_6_variable i h)] := rfl
  rw [this, List.mem_singleton]

theorem variables_of_phi_2 (network : TunnelNetwork) (length : Int) :
    variables_of (create_phi_2 network length) =
      [var_name (tn_path_variable (tn_get_initial network) 0 0),
        var_name (tn_4_variable 0 0),
        var_name (tn_path_variable (tn_get_final network) length 0),
        var_name (tn_4_variable length 0)] := rfl

theorem phi_2_variables_in_reduction (network : TunnelNetwork) (length : Int)
    (name : String) (h : name ∈ variables_of (create_phi_2 network length)) :
    name ∈ variables_of (tn_reduction network length) := by
  unfold tn_reduction
  rw [mem_variables_of_and]
  exact ⟨_, List.mem_cons_of_mem _ (List.mem_cons_self _ _), h⟩

/-- Without node, φ1 is false in every model. -/
theorem phi_1_false_without_node (network : TunnelNetwork) (L : Int) (hL : 0 ≤ L)
    (hN : tn_get_num_nodes network ≤ 0) (M : Z3_model) :
    eval M (tn_reduction network L) = false := by
  cases h : eval M (tn_reduction network L) with
  | false => rfl
  | true =>
    have h1 := ((eval_tn_reduction M network L).1 h).1
    obtain ⟨u, _, ho, _⟩ := occupied_exists_unique network L M h1 0 ⟨le_refl 0, hL⟩
    have := ho.1
    omega

/-- C12 (amended): `tn_reduction` does not validate its input.  For every network, also
with `N = 0` or with the source or the destination outside `[0, N)`, and every `L ≥ 0`,
it returns the conjunction of φ1, ..., φ6, in which the variables `x(source, 0, 0)`,
`y4(0, 0)`, `x(destination, L, 0)` and `y4(L, 0)` of φ2 occur; when `N = 0` the formula
returned is false in every model. -/
theorem reduction_without_validation (network : TunnelNetwork) (L : Int) (hL : 0 ≤ L) :
    tn_reduction network L =
      Z3_mk_and [create_phi_1 network L, create_phi_2 network L, create_phi_3 network L,
        create_phi_4 network L, create_phi_5 network L, create_phi_6 network L] ∧
    var_name (tn_path_variable (tn_get_initial network) 0 0) ∈
      variables_of (tn_reduction network L) ∧
    var_name (tn_4_variable 0 0) ∈ variables_of (tn_reduction network L) ∧
    var_name (tn_path_variable (tn_get_final network) L 0) ∈
      variables_of (tn_reduction network L) ∧
    var_name (tn_4_variable L 0) ∈ variables_of (tn_reduction network L) ∧
    (tn_get_num_nodes network ≤ 0 → ∀ M, eval M (tn_reduction network L) = false) := by
  refine ⟨rfl, ?_, ?_, ?_, ?_, fun hN M => phi_1_false_without_node network L hL hN M⟩
  · apply phi_2_variables_in_reduction
    rw [variables_of_phi_2]
    simp
  · apply phi_2_variables_in_reduction
    rw [variables_of_phi_2]
    simp
  · apply phi_2_variables_in_reduction
    rw [variables_of_phi_2]
    simp
  · apply phi_2_variables_in_reduction
    rw [variables_of_phi_2]
    simp

theorem reduction_without_validation_witness :
    tn_reduction stray_source_network 1 =
      Z3_mk_and [create_phi_1 stray_source_network 1, create_phi_2 stray_source_network 1,
        create_phi_3 stray_source_network 1, create_phi_4 stray_source_network 1,
        create_phi_5 stray_source_network 1, create_phi_6 stray_source_network 1] ∧
    var_name (tn_path_variable (tn_get_initial stray_source_network) 0 0) ∈
      variables_of (tn_reduction stray_source_network 1) ∧
    var_name (tn_4_variable 0 0) ∈ variables_of (tn_reduction stray_source_network 1) ∧
    var_name (tn_path_variable (tn_get_final stray_source_network) 1 0) ∈
      variables_of (tn_reduction stray_source_network 1) ∧
    var_name (tn_4_variable 1 0) ∈ variables_of (tn_reduction stray_source_network 1) ∧
    (tn_get_num_nodes stray_source_network ≤ 0 →
      ∀ M, eval M (tn_reduction stray_source_network 1) = false) :=
  reduction_without_validation stray_source_network 1 (by decide)

/-- C12 as stated fails: `empty_network` has no node (so its source 0 is out of range),
and `tn_reduction empty_network 0` is a formula in which Boolean variables have been
created, among them `x(0, 0, 0)`. -/
theorem input_rejection_counterexample :
    tn_get_num_nodes empty_network = 0 ∧
      ¬ (0 ≤ tn_get_initial empty_network ∧
        tn_get_initial empty_network < tn_get_num_nodes empty_network) ∧
      variables_of (tn_reduction empty_network 0) ≠ [] ∧
      "node 0,pos 0, height 0" ∈ variables_of (tn_reduction empty_network 0) := by
  refine ⟨by decide, by decide, by decide, by decide⟩

/-! ## Only defined variables occur (C14) -/

theorem od_and (network : TunnelNetwork) (L : Int) (l : List Z3_ast)
    (h : ∀ f ∈ l, only_defined_variables network L f) :
    only_defined_variables network L (Z3_mk_and l) := by
  intro name hn
  obtain ⟨f, hf, hm⟩ := (mem_variables_of_and name l).1 hn
  exact h f hf name hm

theorem od_or (network : TunnelNetwork) (L : Int) (l : List Z3_ast)
    (h : ∀ f ∈ l, only_defined_variables network L f) :
    only_defined_variables network L (Z3_mk_or l) := by
  intro name hn
  obtain ⟨f, hf, hm⟩ := (mem_variables_of_or name l).1 hn
  exact h f hf name hm

theorem od_unique (network : TunnelNetwork) (L : Int) (l : List Z3_ast)
    (h : ∀ f ∈ l, only_defined_variables network L f) :
    only_defined_variables network L (uniqueFormula l) := by
  intro name hn
  obtain ⟨f, hf, hm⟩ := (mem_variables_of_unique name l).1 hn
  exact h f hf name hm

theorem od_implies (network : TunnelNetwork) (L : Int) (a b : Z3_ast)
    (ha : only_defined_variables network L a) (hb : only_defined_variables network L b) :
    only_defined_variables network L (Z3_mk_implies a b) := by
  intro name hn
  rcases (mem_variables_of_implies name a b).1 hn with h | h
  · exact ha name h
  · exact hb name h

theorem od_eq (network : TunnelNetwork) (L : Int) (a b : Z3_ast)
    (ha : only_defined_variables network L a) (hb : only_defined_variables network L b) :
    only_defined_variables network L (Z3_mk_eq a b) := by
  intro name hn
  rcases (mem_variables_of_eq name a b).1 hn with h | h
  · exact ha name h
  · exact hb name h

theorem od_not (network : TunnelNetwork) (L : Int) (a : Z3_ast)
    (ha : only_defined_variables network L a) :
    only_defined_variables network L (Z3_mk_not a) := ha

theorem od_conjunction_or_true (network : TunnelNetwork) (L : Int) (l : List Z3_ast)
    (h : ∀ f ∈ l, only_defined_variables network L f) :
    only_defined_variables network L (conjunction_or_true l) := by
  unfold conjunction_or_true
  split
  · intro name hn
    exact absurd hn (List.not_mem_nil name)
  · exact od_and network L l h

theorem od_path (network : TunnelNetwork) (L u i h : Int)
    (hu : 0 ≤ u ∧ u < tn_get_num_nodes network) (hi : 0 ≤ i ∧ i ≤ L)
    (hh : 0 ≤ h ∧ h < get_stack_size L) :
    only_defined_variables network L (tn_path_variable u i h) := by
  intro name hn
  rw [mem_variables_of_path] at hn
  exact Or.inl ⟨u, i, h, hu, hi, hh, hn⟩

theorem od_4 (network : TunnelNetwork) (L i h : Int) (hi : 0 ≤ i ∧ i ≤ L)
    (hh : 0 ≤ h ∧ h < get_stack_size L) :
    only_defined_variables network L (tn_4_variable i h) := by
  intro name hn
  rw [mem_variables_of_4] at hn
  exact Or.inr (Or.inl ⟨i, h, hi, hh, hn⟩)

theorem od_6 (network : TunnelNetwork) (L i h : Int) (hi : 0 ≤ i ∧ i ≤ L)
    (hh : 0 ≤ h ∧ h < get_stack_size L) :
    only_defined_variables network L (tn_6_variable i h) := by
  intro name hn
  rw [mem_variables_of_6] at hn
  exact Or.inr (Or.inr ⟨i, h, hi, hh, hn⟩)

theorem od_y (network : TunnelNetwork) (L p i h : Int) (hi : 0 ≤ i ∧ i ≤ L)
    (hh : 0 ≤ h ∧ h < get_stack_size L) :
    only_defined_variables network L
      (if p = 4 then tn_4_variable i h else tn_6_variable i h) := by
  split
  · exact od_4 network L i h hi hh
  · exact od_6 network L i h hi hh

theorem od_pair (network : TunnelNetwork) (L : Int) (a b : Z3_ast)
    (ha : only_defined_variables network L a) (hb : only_defined_variables network L b) :
    ∀ f ∈ [a, b], only_defined_variables network L f := by
  intro f hf
  simp only [List.mem_cons, List.mem_singleton, List.not_mem_nil, or_false] at hf
  rcases hf with rfl | rfl
  · exact ha
  · exact hb

theorem od_neighbors (network : TunnelNetwork) (L node : Int) (g : Int → Z3_ast)
    (h : ∀ v, 0 ≤ v ∧ v < tn_get_num_nodes network → only_defined_variables network L (g v)) :
    only_defined_variables network L (Z3_mk_or (neighbor_entries network node g)) := by
  apply od_or
  intro f hf
  unfold neighbor_entries at hf
  obtain ⟨v, hv, rfl⟩ := List.mem_map.1 hf
  exact h v ((mem_int_range _ _ _).1 (List.mem_filter.1 hv).1)

theorem od_cell_preservation (network : TunnelNetwork) (L pos cell : Int)
    (hpos : 0 ≤ pos ∧ pos < L) (hc : 0 ≤ cell ∧ cell < get_stack_size L) :
    only_defined_variables network L (cell_preservation pos cell) := by
  unfold cell_preservation
  apply od_and
  apply od_pair
  · exact od_eq _ _ _ _ (od_4 network L pos cell ⟨hpos.1, by omega⟩ hc)
      (od_4 network L (pos + 1) cell ⟨by omega, by omega⟩ hc)
  · exact od_eq _ _ _ _ (od_6 network L pos cell ⟨hpos.1, by omega⟩ hc)
      (od_6 network L (pos + 1) cell ⟨by omega, by omega⟩ hc)

theorem od_phi_1 (network : TunnelNetwork) (L : Int) :
    only_defined_variables network L (create_phi_1 network L) := by
  unfold create_phi_1
  apply od_and
  intro f hf
  obtain ⟨pos, hpos, rfl⟩ := List.mem_map.1 hf
  rw [mem_int_range] at hpos
  apply od_unique
  intro g hg
  simp only [List.mem_flatMap, List.mem_map, mem_int_range] at hg
  obtain ⟨node, hnode, height, hheight, rfl⟩ := hg
  exact od_path network L node pos height hnode ⟨hpos.1, by omega⟩ hheight

theorem od_phi_2 (network : TunnelNetwork) (L : Int) (hL : 0 ≤ L)
    (hsrc : 0 ≤ tn_get_initial network ∧ tn_get_initial network < tn_get_num_nodes network)
    (hdst : 0 ≤ tn_get_final network ∧ tn_get_final network < tn_get_num_nodes network) :
    only_defined_variables network L (create_phi_2 network L) := by
  have hH := get_stack_size_pos L hL
  unfold create_phi_2
  apply od_and
  apply od_pair
  · apply od_and
    apply od_pair
    · exact od_path network L _ 0 0 hsrc ⟨le_refl 0, hL⟩ ⟨le_refl 0, hH⟩
    · exact od_4 network L 0 0 ⟨le_refl 0, hL⟩ ⟨le_refl 0, hH⟩
  · apply od_and
    apply od_pair
    · exact od_path network L _ L 0 hdst ⟨hL, le_refl L⟩ ⟨le_refl 0, hH⟩
    · exact od_4 network L L 0 ⟨hL, le_refl L⟩ ⟨le_refl 0, hH⟩
theorem od_phi_3_trans (network : TunnelNetwork) (L : Int) :
    only_defined_variables network L (create_phi_3_trans network L) := by
  unfold create_phi_3_trans
  apply od_conjunction_or_true
  intro f hf
  simp only [List.mem_flatMap, mem_int_range, mem_protocol_range] at hf
  obtain ⟨pos, hpos, node, hnode, height, hheight, p, _, hf⟩ := hf
  rw [mem_unless, mem_unless_zero] at hf
  obtain ⟨_, _, rfl⟩ := hf
  apply od_implies
  · apply od_and
    apply od_pair
    · exact od_path network L node pos height hnode ⟨hpos.1, by omega⟩ hheight
    · exact od_y network L p pos height ⟨hpos.1, by omega⟩ hheight
  · apply od_neighbors
    intro v hv
    exact od_path network L v (pos + 1) height hv ⟨by omega, by omega⟩ hheight

theorem od_phi_3_push (network : TunnelNetwork) (L : Int) :
    only_defined_variables network L (create_phi_3_push network L) := by
  unfold create_phi_3_push
  apply od_conjunction_or_true
  intro f hf
  simp only [List.mem_flatMap, mem_int_range, mem_protocol_range] at hf
  obtain ⟨pos, hpos, node, hnode, height, hheight, pa, _, pb, _, hf⟩ := hf
  rw [mem_unless, mem_unless_zero] at hf
  obtain ⟨_, _, rfl⟩ := hf
  apply od_implies
  · apply od_and
    apply od_pair
    · exact od_path network L node pos height hnode ⟨hpos.1, by omega⟩
        ⟨hheight.1, by omega⟩
    · exact od_y network L pa pos height ⟨hpos.1, by omega⟩ ⟨hheight.1, by omega⟩
  · apply od_neighbors
    intro v hv
    apply od_and
    apply od_pair
    · exact od_path network L v (pos + 1) (height + 1) hv ⟨by omega, by omega⟩
        ⟨by omega, by omega⟩
    · exact od_y network L pb (pos + 1) (height + 1) ⟨by omega, by omega⟩
        ⟨by omega, by omega⟩

theorem od_phi_3_pop (network : TunnelNetwork) (L : Int) :
    only_defined_variables network L (create_phi_3_pop network L) := by
  unfold create_phi_3_pop
  apply od_conjunction_or_true
  intro f hf
  simp only [List.mem_flatMap, mem_int_range, mem_protocol_range] at hf
  obtain ⟨pos, hpos, node, hnode, height, hheight, pa, _, pb, _, hf⟩ := hf
  rw [mem_unless, mem_unless_zero] at hf
  obtain ⟨_, _, rfl⟩ := hf
  apply od_implies
  · apply od_and
    intro g hg
    simp only [List.mem_cons, List.mem_singleton, List.not_mem_nil, or_false] at hg
    rcases hg with rfl | rfl | rfl
    · exact od_path network L node pos height hnode ⟨hpos.1, by omega⟩
        ⟨by omega, hheight.2⟩
    · exact od_y network L pb pos height ⟨hpos.1, by omega⟩ ⟨by omega, hheight.2⟩
    · exact od_y network L pa pos (height - 1) ⟨hpos.1, by omega⟩ ⟨by omega, by omega⟩
  · apply od_neighbors
    intro v hv
    exact od_path network L v (pos + 1) (height - 1) hv ⟨by omega, by omega⟩
      ⟨by omega, by omega⟩

theorem od_triple (network : TunnelNetwork) (L : Int) (a b c : Z3_ast)
    (ha : only_defined_variables network L a) (hb : only_defined_variables network L b)
    (hc : only_defined_variables network L c) :
    only_defined_variables network L (Z3_mk_and [a, b, c]) := by
  apply od_and
  intro f hf
  simp only [List.mem_cons, List.mem_singleton, List.not_mem_nil, or_false] at hf
  rcases hf with rfl | rfl | rfl
  · exact ha
  · exact hb
  · exact hc

theorem od_phi_4 (network : TunnelNetwork) (L : Int) :
    only_defined_variables network L (create_phi_4 network L) := by
  unfold create_phi_4
  apply od_and
  intro f hf
  simp only [List.mem_flatMap, List.mem_map, mem_int_range] at hf
  obtain ⟨pos, hpos, height, hheight, rfl⟩ := hf
  have hp : 0 ≤ pos ∧ pos ≤ L := ⟨hpos.1, by omega⟩
  apply od_implies
  · apply od_or
    intro g hg
    obtain ⟨node, hnode, rfl⟩ := List.mem_map.1 hg
    exact od_path network L node pos height ((mem_int_range _ _ _).1 hnode) hp hheight
  · apply od_and
    intro g hg
    obtain ⟨cell, hcell, rfl⟩ := List.mem_map.1 hg
    rw [mem_int_range] at hcell
    have hc : 0 ≤ cell ∧ cell < get_stack_size L := ⟨hcell.1, by omega⟩
    apply od_or
    apply od_pair
    · apply od_and
      apply od_pair
      · exact od_4 network L pos cell hp hc
      · exact od_not _ _ _ (od_6 network L pos cell hp hc)
    · apply od_and
      apply od_pair
      · exact od_not _ _ _ (od_4 network L pos cell hp hc)
      · exact od_6 network L pos cell hp hc

theorem od_phi_5_trans (network : TunnelNetwork) (L : Int) :
    only_defined_variables network L (create_phi_5_trans network L) := by
  unfold create_phi_5_trans
  apply od_conjunction_or_true
  intro f hf
  simp only [List.mem_flatMap, mem_int_range, mem_protocol_range] at hf
  obtain ⟨pos, hpos, node, hnode, height, hheight, p, _, hf⟩ := hf
  rw [mem_unless, List.mem_singleton] at hf
  obtain ⟨_, rfl⟩ := hf
  exact od_implies _ _ _ _
    (od_path network L node pos height hnode ⟨hpos.1, by omega⟩ hheight)
    (od_y network L p pos height ⟨hpos.1, by omega⟩ hheight)

theorem od_phi_5_push (network : TunnelNetwork) (L : Int) :
    only_defined_variables network L (create_phi_5_push network L) := by
  unfold create_phi_5_push
  apply od_conjunction_or_true
  intro f hf
  simp only [List.mem_flatMap, mem_int_range, mem_protocol_range] at hf
  obtain ⟨pos, hpos, node, hnode, height, hheight, pa, _, pb, _, hf⟩ := hf
  rw [mem_unless, List.mem_singleton] at hf
  obtain ⟨_, rfl⟩ := hf
  exact od_implies _ _ _ _
    (od_path network L node pos height hnode ⟨hpos.1, by omega⟩ hheight)
    (od_y network L pa pos height ⟨hpos.1, by omega⟩ hheight)

theorem od_phi_5_pop (network : TunnelNetwork) (L : Int) :
    only_defined_variables network L (create_phi_5_pop network L) := by
  unfold create_phi_5_pop
  apply od_conjunction_or_true
  intro f hf
  simp only [List.mem_flatMap, mem_int_range, mem_protocol_range] at hf
  obtain ⟨pos, hpos, node, hnode, height, hheight, pa, _, pb, _, hf⟩ := hf
  rw [mem_unless, List.mem_singleton] at hf
  obtain ⟨_, rfl⟩ := hf
  apply od_implies
  · exact od_path network L node pos height hnode ⟨hpos.1, by omega⟩ ⟨by omega, hheight.2⟩
  · apply od_and
    apply od_pair
    · exact od_y network L pb pos height ⟨hpos.1, by omega⟩ ⟨by omega, hheight.2⟩
    · exact od_y network L pa pos (height - 1) ⟨hpos.1, by omega⟩ ⟨by omega, by omega⟩

theorem od_phi_6_push (network : TunnelNetwork) (L : Int) :
    only_defined_variables network L (create_phi_6_push network L) := by
  unfold create_phi_6_push
  apply od_conjunction_or_true
  intro f hf
  simp only [List.mem_flatMap, mem_int_range, mem_protocol_range] at hf
  obtain ⟨pos, hpos, node, hnode, height, hheight, pa, _, pb, _, hf⟩ := hf
  rw [mem_unless, List.mem_singleton] at hf
  obtain ⟨_, rfl⟩ := hf
  apply od_implies
  · exact od_path network L node pos height hnode ⟨hpos.1, by omega⟩
      ⟨hheight.1, by omega⟩
  · apply od_and
    intro g hg
    obtain ⟨cell, hcell, rfl⟩ := List.mem_map.1 hg
    rw [mem_int_range] at hcell
    exact od_cell_preservation network L pos cell hpos ⟨hcell.1, by omega⟩

theorem od_phi_6_pop (network : TunnelNetwork) (L : Int) :
    only_defined_variables network L (create_phi_6_pop network L) := by
  unfold create_phi_6_pop
  apply od_conjunction_or_true
  intro f hf
  simp only [List.mem_flatMap, mem_int_range, mem_protocol_range] at hf
  obtain ⟨pos, hpos, node, hnode, height, hheight, pa, _, pb, _, hf⟩ := hf
  rw [mem_unless] at hf
  obtain ⟨_, hf⟩ := hf
  have hx := od_path network L node pos height hnode ⟨hpos.1, by omega⟩
    ⟨by omega, hheight.2⟩
  split at hf
  · rw [List.mem_singleton] at hf
    subst hf
    apply od_implies _ _ _ _ hx
    exact od_cell_preservation network L pos 0 hpos ⟨le_refl 0, by omega⟩
  · rw [List.mem_singleton] at hf
    subst hf
    apply od_implies _ _ _ _ hx
    apply od_and
    intro g hg
    obtain ⟨cell, hcell, rfl⟩ := List.mem_map.1 (List.mem_of_mem_take hg)
    rw [mem_int_range] at hcell
    exact od_cell_preservation network L pos cell hpos ⟨hcell.1, by omega⟩
theorem od_phi_3 (network : TunnelNetwork) (L : Int) :
    only_defined_variables network L (create_phi_3 network L) :=
  od_triple network L _ _ _ (od_phi_3_trans network L) (od_phi_3_push network L)
    (od_phi_3_pop network L)

theorem od_phi_5 (network : TunnelNetwork) (L : Int) :
    only_defined_variables network L (create_phi_5 network L) :=
  od_triple network L _ _ _ (od_phi_5_trans network L) (od_phi_5_push network L)
    (od_phi_5_pop network L)

/-- The variables of the reduction are those of φ1, ..., φ5 and of the three parts
of φ6. -/
theorem mem_variables_of_reduction (network : TunnelNetwork) (L : Int) (name : String) :
    name ∈ variables_of (tn_reduction network L) ↔
      ∃ f ∈ [create_phi_1 network L, create_phi_2 network L, create_phi_3 network L,
        create_phi_4 network L, create_phi_5 network L, create_phi_6_trans network L,
        create_phi_6_push network L, create_phi_6_pop network L],
        name ∈ variables_of f := by
  unfold tn_reduction create_phi_6
  simp only [mem_variables_of_and, List.mem_cons, List.mem_singleton, List.not_mem_nil,
    or_false, exists_eq_or_imp, exists_eq_left]

/-- On the network with a single node that transmits to itself, φ6 for length 0
mentions a cell of position 1. -/
theorem phi_6_trans_position_after_last :
    "4 at height 0 on pos 1" ∈ variables_of (create_phi_6_trans identity_network 0) := by
  decide

/-- C14 (amended): with source and destination among the nodes and `0 ≤ L`, every
variable occurring in φ1, φ2, φ3, φ4, φ5 and in the push and pop parts of φ6 is an
`x(u, i, h)` with `u ∈ [0, N)`, `i ∈ [0, L]`, `h ∈ [0, get_stack_size L)`, or a
`y4(i, h)` or `y6(i, h)` with `i ∈ [0, L]`, `h ∈ [0, get_stack_size L)`; hence every
variable of `tn_reduction network L` is such a variable or occurs in the transmission
part of φ6. -/
theorem defined_variables_outside_phi_6_trans (network : TunnelNetwork) (L : Int)
    (hL : 0 ≤ L)
    (hsrc : 0 ≤ tn_get_initial network ∧ tn_get_initial network < tn_get_num_nodes network)
    (hdst : 0 ≤ tn_get_final network ∧ tn_get_final network < tn_get_num_nodes network) :
    (∀ f ∈ [create_phi_1 network L, create_phi_2 network L, create_phi_3 network L,
        create_phi_4 network L, create_phi_5 network L, create_phi_6_push network L,
        create_phi_6_pop network L], only_defined_variables network L f) ∧
    (∀ name ∈ variables_of (tn_reduction network L),
      defined_variable network L name ∨
        name ∈ variables_of (create_phi_6_trans network L)) := by
  have parts : ∀ f ∈ [create_phi_1 network L, create_phi_2 network L,
      create_phi_3 network L, create_phi_4 network L, create_phi_5 network L,
      create_phi_6_push network L, create_phi_6_pop network L],
      only_defined_variables network L f := by
    intro f hf
    simp only [List.mem_cons, List.mem_singleton, List.not_mem_nil, or_false] at hf
    rcases hf with rfl | rfl | rfl | rfl | rfl | rfl | rfl
    · exact od_phi_1 network L
    · exact od_phi_2 network L hL hsrc hdst
    · exact od_phi_3 network L
    · exact od_phi_4 network L
    · exact od_phi_5 network L
    · exact od_phi_6_push network L
    · exact od_phi_6_pop network L
  refine ⟨parts, ?_⟩
  intro name hn
  obtain ⟨f, hf, hm⟩ := (mem_variables_of_reduction network L name).1 hn
  simp only [List.mem_cons, List.mem_singleton, List.not_mem_nil, or_false] at hf
  rcases hf with rfl | rfl | rfl | rfl | rfl | rfl | rfl | rfl
  · exact Or.inl (parts _ (by simp) name hm)
  · exact Or.inl (parts _ (by simp) name hm)
  · exact Or.inl (parts _ (by simp) name hm)
  · exact Or.inl (parts _ (by simp) name hm)
  · exact Or.inl (parts _ (by simp) name hm)
  · exact Or.inr hm
  · exact Or.inl (parts _ (by simp) name hm)
  · exact Or.inl (parts _ (by simp) name hm)

theorem defined_variables_outside_phi_6_trans_witness :
    (∀ f ∈ [create_phi_1 tunnel_network 3, create_phi_2 tunnel_network 3,
        create_phi_3 tunnel_network 3, create_phi_4 tunnel_network 3,
        create_phi_5 tunnel_network 3, create_phi_6_push tunnel_network 3,
        create_phi_6_pop tunnel_network 3], only_defined_variables tunnel_network 3 f) ∧
    (∀ name ∈ variables_of (tn_reduction tunnel_network 3),
      defined_variable tunnel_network 3 name ∨
        name ∈ variables_of (create_phi_6_trans tunnel_network 3)) :=
  defined_variables_outside_phi_6_trans tunnel_network 3 (by decide)
    ⟨by decide, by decide⟩ ⟨by decide, by decide⟩

/-- C14 (counterexample): the network has one node and its source is 1; the
reduction for length 1 mentions `x(1, 0, 0)`, which is none of the variables defined
for one node. -/
theorem undefined_variable_counterexample :
    tn_get_num_nodes stray_source_network = 1 ∧
    "node 1,pos 0, height 0" ∈ variables_of (tn_reduction stray_source_network 1) ∧
    ¬ defined_variable stray_source_network 1 "node 1,pos 0, height 0" := by
  refine ⟨rfl, by decide, ?_⟩
  have hname : "node 1,pos 0, height 0" = var_name (tn_path_variable 1 0 0) := by decide
  have hs : get_stack_size 1 = 1 := by decide
  have hN : tn_get_num_nodes stray_source_network = 1 := rfl
  rintro (⟨u, i, h, hu, hi, hh, e⟩ | ⟨i, h, _, _, e⟩ | ⟨i, h, _, _, e⟩)
  · rw [hs] at hh
    rw [hN] at hu
    have hu0 : u = 0 := by omega
    have hh0 : h = 0 := by omega
    subst hu0 hh0
    have hi01 : i = 0 ∨ i = 1 := by omega
    rcases hi01 with rfl | rfl
    · exact absurd e (by decide)
    · exact absurd e (by decide)
  · rw [hname] at e
    exact path_ne_four _ _ _ _ _ e
  · rw [hname] at e
    exact path_ne_six _ _ _ _ _ e

/-! ## The scenarios (C16 - C20) -/

/-- A constrained hop: from the pair occupied at `i`, whose stack reads `s`, the model
moves to a pair occupied at `i + 1` whose stack reads `t`; the decoded step carries an
action `a` supported by `u` with `apply_action a s = some t`, along an edge. -/
theorem forced_hop (action_0 : stack_action) (network : TunnelNetwork) (L : Int)
    (M : Z3_model) (hM : eval M (tn_reduction network L) = true)
    (i j : Int) (n : Nat) (hi : 0 ≤ i ∧ i < L) (hj : j = i + 1) (hn : n = i.toNat)
    (u h : Int) (s : List protocol)
    (ho : occupied network L M i u h) (hs : stack_of M i h = s)
    (hen : hop_enabled network L u h) :
    ∃ a v h' t, occupied network L M j v h' ∧ stack_of M j h' = t ∧
      h' = (t.length : Int) - 1 ∧
      (tn_get_path_from_model action_0 M network L)[n]? = some ⟨a, u, v⟩ ∧
      tn_node_has_action network u a = true ∧ tn_is_edge network u v = true ∧
      apply_action a s = some t := by
  subst hj hn hs
  have h1 := ((eval_tn_reduction M network L).1 hM).1
  obtain ⟨v, h', ho', _⟩ := occupied_exists_unique network L M h1 (i + 1)
    ⟨by omega, by omega⟩
  obtain ⟨hact, hedge, _, happ⟩ := hop_step action_0 network L M hM i hi u h v h' ho ho' hen
  refine ⟨_, v, h', _, ho', rfl, ?_,
    decoded_step_of_occupied action_0 network L M h1 i hi u h v h' ho ho', hact, hedge, happ⟩
  rw [stack_of_length]
  have := ho'.2.1.1
  omega

/-- The stack read at position 0 up to height 0 in a model of the reduction. -/
theorem stack_of_source (network : TunnelNetwork) (L : Int) (M : Z3_model)
    (hM : eval M (tn_reduction network L) = true) : stack_of M 0 0 = [P4] :=
  stack_of_zero M 0
    ((eval_create_phi_2 M network L).1 ((eval_tn_reduction M network L).1 hM).2.1).2.1

theorem list_eq_of_getElem? {α : Type} (l l' : List α) (hl : l.length = l'.length)
    (h : ∀ n, n < l'.length → l[n]? = l'[n]?) : l = l' := by
  apply List.ext_getElem?
  intro n
  by_cases hn : n < l'.length
  · exact h n hn
  · rw [List.getElem?_eq_none (by omega), List.getElem?_eq_none (by omega)]

theorem decoded_length_nat (action_0 : stack_action) (network : TunnelNetwork) (L : Int)
    (M : Z3_model) (n : Nat) (hL : L = n) :
    (tn_get_path_from_model action_0 M network L).length = n := by
  have := decoded_length action_0 network L M (by omega)
  omega

/-- On `identity_network` every model of the reduction for length 1 decodes to the
single step `(transmit_4, 0, 0)`. -/
theorem identity_decoded (action_0 : stack_action) (M : Z3_model)
    (hM : eval M (tn_reduction identity_network 1) = true) :
    tn_get_path_from_model action_0 M identity_network 1 = [⟨transmit_4, 0, 0⟩] := by
  have hs := occupied_source identity_network 1 M (by decide) (by decide) hM
  obtain ⟨a, v, h', t, ho1, _, _, hdec, hact, _, _⟩ :=
    forced_hop action_0 identity_network 1 M hM 0 1 0 (by decide) (by decide) rfl
      (tn_get_initial identity_network) 0 [P4] hs (stack_of_source identity_network 1 M hM)
      ⟨⟨0, by decide, by decide⟩, transmit_4, by decide, trivial⟩
  have ha : a = transmit_4 := by
    cases a <;> first | rfl | exact absurd hact (by decide)
  have hv : v = 0 := by
    have := ho1.1
    change 0 ≤ v ∧ v < 1 at this
    omega
  subst ha hv
  refine list_eq_of_getElem? _ [(⟨transmit_4, 0, 0⟩ : tn_step)]
    (decoded_length_nat action_0 identity_network 1 M 1 rfl) ?_
  intro n hn
  have hn0 : n = 0 := by simpa using hn
  subst hn0
  exact hdec

/-- C16 (the claim fails on the code at `L = 0`): on the network with one node 0 that
supports only `transmit_4`, has a self-loop and is source and destination,
`create_phi_6_trans` declares `implications` with `max_implications = 0` entries for
`L = 0` and stores one implication, so that `tn_reduction` has no defined value there.
For `L = 1` every store is in bounds, the formula returned is satisfiable and every
model of it decodes to `[(transmit_4, 0, 0)]`. -/
theorem scenario_identity_length_zero :
    max_implications_phi_6 identity_network 0 = 0 ∧
    impl_count (create_phi_6_trans identity_network 0) = 1 ∧
    create_phi_6_trans_bounded identity_network 0 = none ∧
    tn_reduction_bounded identity_network 0 = none ∧
    tn_reduction_bounded identity_network 1 = some (tn_reduction identity_network 1) ∧
    eval identity_model_1 (tn_reduction identity_network 1) = true ∧
    (∀ action_0 M, eval M (tn_reduction identity_network 1) = true →
      tn_get_path_from_model action_0 M identity_network 1 = [⟨transmit_4, 0, 0⟩]) := by
  refine ⟨by decide, by decide, ?_, ?_, ?_, by decide,
    fun action_0 M hM => identity_decoded action_0 M hM⟩
  · unfold create_phi_6_trans_bounded
    rw [if_neg (by decide)]
  · unfold tn_reduction_bounded
    rw [if_neg (by decide)]
  · unfold tn_reduction_bounded
    rw [if_pos (by decide)]

/-- The result of an action on a stack is the one computed. -/
theorem apply_action_eq (a : stack_action) (s t t' : List protocol)
    (h : apply_action a s = some t) (h' : apply_action a s = some t') : t = t' :=
  Option.some.inj (h.symm.trans h')

/-- On `wire_network` the first hop of a model of the reduction goes from node 0 to
node 1 by `transmit_4`, at height 0. -/
theorem wire_first_hop (action_0 : stack_action) (L : Int) (hL : 1 ≤ L) (M : Z3_model)
    (hM : eval M (tn_reduction wire_network L) = true) :
    occupied wire_network L M 1 1 0 ∧ stack_of M 1 0 = [P4] ∧
      (tn_get_path_from_model action_0 M wire_network L)[0]? =
        some ⟨transmit_4, 0, 1⟩ := by
  have hs := occupied_source wire_network L M (by omega) (by decide) hM
  obtain ⟨a, v, h', t, ho1, hst, hh, hdec, hact, hedge, happ⟩ :=
    forced_hop action_0 wire_network L M hM 0 1 0 ⟨le_refl 0, by omega⟩ (by decide) rfl
      (tn_get_initial wire_network) 0 [P4] hs (stack_of_source wire_network L M hM)
      ⟨⟨1, by decide, by decide⟩, transmit_4, by decide, trivial⟩
  have ha : a = transmit_4 := by
    cases a <;> first | rfl | exact absurd hact (by decide)
  subst ha
  have ht := apply_action_eq _ _ _ _ happ (show apply_action transmit_4 [P4] = some [P4] from rfl)
  subst ht
  have hh0 : h' = 0 := by rw [hh]; rfl
  subst hh0
  have hv : v = 1 := by
    have : tn_is_edge wire_network 0 v = true := hedge
    simp [wire_network] at this
    exact this
  subst hv
  exact ⟨ho1, hst, hdec⟩

/-- On `wire_network` every model of the reduction for length 2 decodes to the two
transmissions `0 -> 1 -> 2`. -/
theorem wire_decoded (action_0 : stack_action) (M : Z3_model)
    (hM : eval M (tn_reduction wire_network 2) = true) :
    tn_get_path_from_model action_0 M wire_network 2 =
      [⟨transmit_4, 0, 1⟩, ⟨transmit_4, 1, 2⟩] := by
  obtain ⟨ho1, hst1, hdec0⟩ := wire_first_hop action_0 2 (by decide) M hM
  obtain ⟨a, v, h', t, ho2, hst, hh, hdec, hact, hedge, happ⟩ :=
    forced_hop action_0 wire_network 2 M hM 1 2 1 (by decide) (by decide) rfl
      1 0 [P4] ho1 hst1 ⟨⟨2, by decide, by decide⟩, transmit_4, by decide, trivial⟩
  have ha : a = transmit_4 := by
    cases a <;> first | rfl | exact absurd hact (by decide)
  subst ha
  have hv : v = 2 := by
    simp [wire_network] at hedge
    exact hedge
  subst hv
  refine list_eq_of_getElem? _ [(⟨transmit_4, 0, 1⟩ : tn_step), ⟨transmit_4, 1, 2⟩]
    (decoded_length_nat action_0 wire_network 2 M 2 rfl) ?_
  intro n hn
  have hn' : n = 0 ∨ n = 1 := by
    simp only [List.length_cons, List.length_nil] at hn
    omega
  rcases hn' with rfl | rfl
  · exact hdec0
  · exact hdec

/-- On `wire_network` the reduction for length 1 has no model: the first hop reaches
node 1, not the destination. -/
theorem wire_too_short (M : Z3_model) :
    eval M (tn_reduction wire_network 1) = false := by
  cases hM : eval M (tn_reduction wire_network 1) with
  | false => rfl
  | true =>
    exfalso
    obtain ⟨ho1, _, _⟩ := wire_first_hop transmit_4 1 (by decide) M hM
    have hd := occupied_destination wire_network 1 M (by decide) (by decide) hM
    have h1 := ((eval_tn_reduction M wire_network 1).1 hM).1
    have := (occupied_eq wire_network 1 M h1 1 (by decide) _ _ _ _ ho1 hd).1
    exact absurd this (by decide)

/-- C17 (scenario 2, straight wire): on the network with nodes 0, 1, 2, edges exactly
`0 -> 1` and `1 -> 2`, every node supporting only `transmit_4`, source 0 and
destination 2, the reduction for length 2 is satisfiable and every model of it decodes
to `[(transmit_4, 0, 1), (transmit_4, 1, 2)]`, and the reduction for length 1 has no
model. -/
theorem scenario_wire (action_0 : stack_action) :
    (∃ M, eval M (tn_reduction wire_network 2) = true) ∧
    (∀ M, eval M (tn_reduction wire_network 2) = true →
      tn_get_path_from_model action_0 M wire_network 2 =
        [⟨transmit_4, 0, 1⟩, ⟨transmit_4, 1, 2⟩]) ∧
    (∀ M, eval M (tn_reduction wire_network 1) = false) :=
  ⟨⟨wire_model, by decide⟩, fun M hM => wire_decoded action_0 M hM, wire_too_short⟩

theorem scenario_wire_witness :
    tn_get_path_from_model pop_6_6 wire_model wire_network 2 =
      [⟨transmit_4, 0, 1⟩, ⟨transmit_4, 1, 2⟩] :=
  (scenario_wire pop_6_6).2.1 wire_model (by decide)
/-- On the tunnel graph with node 0 encapsulating by `push_4_6` and node 1 transmitting
by `transmit_6`, the first two hops of a model of the reduction for length 3 go
`0 -> 1 -> 2` at height 1 with the stack `[P4, P6]`. -/
theorem tunnel_two_hops (action_0 : stack_action) (network : TunnelNetwork)
    (hnet : network = tunnel_network ∨ network = mismatch_network) (M : Z3_model)
    (hM : eval M (tn_reduction network 3) = true) :
    occupied network 3 M 1 1 1 ∧ stack_of M 1 1 = [P4, P6] ∧
    occupied network 3 M 2 2 1 ∧ stack_of M 2 1 = [P4, P6] ∧
    (tn_get_path_from_model action_0 M network 3)[0]? = some ⟨push_4_6, 0, 1⟩ ∧
    (tn_get_path_from_model action_0 M network 3)[1]? = some ⟨transmit_6, 1, 2⟩ := by
  have hsrc : 0 ≤ tn_get_initial network ∧ tn_get_initial network < tn_get_num_nodes network := by
    rcases hnet with rfl | rfl <;> decide
  have hinit : tn_get_initial network = 0 := by
    rcases hnet with rfl | rfl <;> rfl
  have hedge_succ : ∀ u v, tn_is_edge network u v = true → v = u + 1 := by
    intro u v h
    rcases hnet with rfl | rfl
    · simpa [tunnel_network] using h
    · simpa [mismatch_network] using h
  have hnb : ∀ u, 0 ≤ u ∧ u < 3 → has_neighbor network u := by
    intro u hu
    refine ⟨u + 1, ?_, ?_⟩
    · rcases hnet with rfl | rfl
      · change 0 ≤ u + 1 ∧ u + 1 < 4
        omega
      · change 0 ≤ u + 1 ∧ u + 1 < 4
        omega
    · rcases hnet with rfl | rfl
      · simp [tunnel_network]
      · simp [mismatch_network]
  have hact0 : ∀ a, tn_node_has_action network 0 a = true ↔ a = push_4_6 := by
    intro a
    rcases hnet with rfl | rfl <;> cases a <;> decide
  have hact1 : ∀ a, tn_node_has_action network 1 a = true ↔ a = transmit_6 := by
    intro a
    rcases hnet with rfl | rfl <;> cases a <;> decide
  have hs := occupied_source network 3 M (by decide) hsrc hM
  rw [hinit] at hs
  obtain ⟨a, v, h', t, ho1, hst1, hh, hdec0, hact, hedge, happ⟩ :=
    forced_hop action_0 network 3 M hM 0 1 0 (by decide) (by decide) rfl
      0 0 [P4] hs (stack_of_source network 3 M hM)
      ⟨hnb 0 (by decide), push_4_6, (hact0 _).2 rfl,
        show (0 : Int) < get_stack_size 3 - 1 by decide⟩
  have ha := (hact0 a).1 hact
  subst ha
  have ht := apply_action_eq _ _ _ _ happ
    (show apply_action push_4_6 [P4] = some [P4, P6] from rfl)
  subst ht
  have hh1 : h' = 1 := by rw [hh]; rfl
  subst hh1
  have hv := hedge_succ _ _ hedge
  have hv1 : v = 1 := by omega
  subst hv1
  obtain ⟨a, v, h', t, ho2, hst2, hh, hdec1, hact, hedge, happ⟩ :=
    forced_hop action_0 network 3 M hM 1 2 1 (by decide) (by decide) rfl
      1 1 [P4, P6] ho1 hst1 ⟨hnb 1 (by decide), transmit_6, (hact1 _).2 rfl, trivial⟩
  have ha := (hact1 a).1 hact
  subst ha
  have ht := apply_action_eq _ _ _ _ happ
    (show apply_action transmit_6 [P4, P6] = some [P4, P6] from rfl)
  subst ht
  have hh1 : h' = 1 := by rw [hh]; rfl
  subst hh1
  have hv := hedge_succ _ _ hedge
  have hv2 : v = 2 := by omega
  subst hv2
  exact ⟨ho1, hst1, ho2, hst2, hdec0, hdec1⟩

/-- On `tunnel_network` the third hop of a model of the reduction for length 3 goes
from node 2 to node 3 by `pop_4_6` and leaves the stack `[P4]`. -/
theorem tunnel_third_hop (action_0 : stack_action) (M : Z3_model)
    (hM : eval M (tn_reduction tunnel_network 3) = true) :
    occupied tunnel_network 3 M 3 3 0 ∧ stack_of M 3 0 = [P4] ∧
    (tn_get_path_from_model action_0 M tunnel_network 3)[2]? = some ⟨pop_4_6, 2, 3⟩ := by
  obtain ⟨_, _, ho2, hst2, _, _⟩ := tunnel_two_hops action_0 tunnel_network (Or.inl rfl) M hM
  obtain ⟨a, v, h', t, ho3, hst3, hh, hdec2, hact, hedge, happ⟩ :=
    forced_hop action_0 tunnel_network 3 M hM 2 3 2 (by decide) (by decide) rfl
      2 1 [P4, P6] ho2 hst2
      ⟨⟨3, by decide, by decide⟩, pop_4_6, by decide, show (1 : Int) ≤ 1 by decide⟩
  have ha : a = pop_4_6 := by
    cases a <;> first | rfl | exact absurd hact (by decide)
  subst ha
  have ht := apply_action_eq _ _ _ _ happ
    (show apply_action pop_4_6 [P4, P6] = some [P4] from rfl)
  subst ht
  have hh0 : h' = 0 := by rw [hh]; rfl
  subst hh0
  have hv : v = 3 := by
    simp [tunnel_network] at hedge
    omega
  subst hv
  exact ⟨ho3, hst3, hdec2⟩

/-- The values of `y4` and `y6` in a cell up to an occupied top, from the protocol read
there. -/
theorem cell_values (network : TunnelNetwork) (L : Int) (M : Z3_model)
    (hM : eval M (tn_reduction network L) = true) (i : Int) (hi : 0 ≤ i ∧ i ≤ L)
    (u h : Int) (ho : occupied network L M i u h) (k : Int) (hk : 0 ≤ k ∧ k ≤ h)
    (s : List protocol) (hs : stack_of M i h = s) (P : protocol)
    (hP : s[k.toNat]? = some P) :
    y4_val M i k = decide (P = P4) ∧ y6_val M i k = decide (P = P6) := by
  have h4 := ((eval_tn_reduction M network L).1 hM).2.2.2.1
  have hxor := cell_xor network L M h4 i hi u h ho k hk
  have hg := stack_of_getElem? M i h k hk
  rw [hs, hP] at hg
  have hp : protocol_at M i k = P := (Option.some.inj hg).symm
  unfold protocol_at at hp
  cases h6 : y6_val M i k <;> rw [h6] at hxor <;> rw [hxor] at hp <;> subst hp <;> simp [hxor]

/-- C18 (scenario 3, tunnel): on the network with nodes 0, 1, 2, 3, edges exactly
`0 -> 1`, `1 -> 2`, `2 -> 3`, node 0 supporting only `push_4_6`, node 1 only
`transmit_6`, node 2 only `pop_4_6`, node 3 no action, source 0 and destination 3, the
reduction for length 3 is satisfiable; every model of it decodes to
`[(push_4_6, 0, 1), (transmit_6, 1, 2), (pop_4_6, 2, 3)]`, and in every model the
occupied tops are 1, 1, 0 at positions 1, 2, 3, the cells up to the top read `[P4, P6]`
at positions 1 and 2 and `[P4]` at position 3: `y4` alone is true in cell 0 and `y6`
alone in cell 1. -/
theorem scenario_tunnel (action_0 : stack_action) :
    (∃ M, eval M (tn_reduction tunnel_network 3) = true) ∧
    (∀ M, eval M (tn_reduction tunnel_network 3) = true →
      tn_get_path_from_model action_0 M tunnel_network 3 =
        [⟨push_4_6, 0, 1⟩, ⟨transmit_6, 1, 2⟩, ⟨pop_4_6, 2, 3⟩] ∧
      (occupied tunnel_network 3 M 1 1 1 ∧ stack_of M 1 1 = [P4, P6]) ∧
      (occupied tunnel_network 3 M 2 2 1 ∧ stack_of M 2 1 = [P4, P6]) ∧
      (occupied tunnel_network 3 M 3 3 0 ∧ stack_of M 3 0 = [P4]) ∧
      (y4_val M 1 0 = true ∧ y6_val M 1 0 = false ∧
        y4_val M 1 1 = false ∧ y6_val M 1 1 = true) ∧
      (y4_val M 2 0 = true ∧ y6_val M 2 0 = false ∧
        y4_val M 2 1 = false ∧ y6_val M 2 1 = true) ∧
      (y4_val M 3 0 = true ∧ y6_val M 3 0 = false)) := by
  refine ⟨⟨tunnel_model, by decide⟩, ?_⟩
  intro M hM
  obtain ⟨ho1, hst1, ho2, hst2, hdec0, hdec1⟩ :=
    tunnel_two_hops action_0 tunnel_network (Or.inl rfl) M hM
  obtain ⟨ho3, hst3, hdec2⟩ := tunnel_third_hop action_0 M hM
  have c10 := cell_values tunnel_network 3 M hM 1 (by decide) 1 1 ho1 0 (by decide)
    [P4, P6] hst1 P4 rfl
  have c11 := cell_values tunnel_network 3 M hM 1 (by decide) 1 1 ho1 1 (by decide)
    [P4, P6] hst1 P6 rfl
  have c20 := cell_values tunnel_network 3 M hM 2 (by decide) 2 1 ho2 0 (by decide)
    [P4, P6] hst2 P4 rfl
  have c21 := cell_values tunnel_network 3 M hM 2 (by decide) 2 1 ho2 1 (by decide)
    [P4, P6] hst2 P6 rfl
  have c30 := cell_values tunnel_network 3 M hM 3 (by decide) 3 0 ho3 0 (by decide)
    [P4] hst3 P4 rfl
  refine ⟨?_, ⟨ho1, hst1⟩, ⟨ho2, hst2⟩, ⟨ho3, hst3⟩,
    ⟨c10.1, c10.2, c11.1, c11.2⟩, ⟨c20.1, c20.2, c21.1, c21.2⟩, ⟨c30.1, c30.2⟩⟩
  refine list_eq_of_getElem? _
    [(⟨push_4_6, 0, 1⟩ : tn_step), ⟨transmit_6, 1, 2⟩, ⟨pop_4_6, 2, 3⟩]
    (decoded_length_nat action_0 tunnel_network 3 M 3 rfl) ?_
  intro n hn
  have hn' : n = 0 ∨ n = 1 ∨ n = 2 := by
    simp only [List.length_cons, List.length_nil] at hn
    omega
  rcases hn' with rfl | rfl | rfl
  · exact hdec0
  · exact hdec1
  · exact hdec2

theorem scenario_tunnel_witness :
    tn_get_path_from_model pop_6_6 tunnel_model tunnel_network 3 =
      [⟨push_4_6, 0, 1⟩, ⟨transmit_6, 1, 2⟩, ⟨pop_4_6, 2, 3⟩] :=
  ((scenario_tunnel pop_6_6).2 tunnel_model (by decide)).1

/-- C19 (scenario 4, protocol mismatch): on the tunnel graph where node 0 supports only
`push_4_6`, node 1 only `transmit_6`, node 2 only `pop_4_4` and node 3 no action, the
reduction for length 3 has no model. -/
theorem scenario_mismatch (M : Z3_model) :
    eval M (tn_reduction mismatch_network 3) = false := by
  cases hM : eval M (tn_reduction mismatch_network 3) with
  | false => rfl
  | true =>
    exfalso
    obtain ⟨_, _, ho2, hst2, _, _⟩ :=
      tunnel_two_hops transmit_4 mismatch_network (Or.inr rfl) M hM
    obtain ⟨a, v, h', t, _, _, _, _, hact, _, happ⟩ :=
      forced_hop transmit_4 mismatch_network 3 M hM 2 3 2 (by decide) (by decide) rfl
        2 1 [P4, P6] ho2 hst2
        ⟨⟨3, by decide, by decide⟩, pop_4_4, by decide, show (1 : Int) ≤ 1 by decide⟩
    have ha : a = pop_4_4 := by
      cases a <;> first | rfl | exact absurd hact (by decide)
    subst ha
    have hnone : apply_action pop_4_4 [P4, P6] = none := rfl
    rw [hnone] at happ
    exact Option.noConfusion happ
/-- An action that shortens the stack is a decapsulation. -/
theorem shrinking_action_is_pop (a : stack_action) (s t : List protocol)
    (h : apply_action a s = some t) (hl : t.length < s.length) :
    ∃ A B, a = pop_tag A B := by
  have htr : ∀ P, do_transmit P s = some t → False := by
    intro P e
    obtain ⟨_, rfl⟩ := (do_transmit_some P s t).1 e
    omega
  have hpu : ∀ A B, do_push A B s = some t → False := by
    intro A B e
    obtain ⟨_, rfl⟩ := (do_push_some A B s t).1 e
    simp only [List.length_append, List.length_singleton] at hl
    omega
  cases a
  · exact (htr P4 h).elim
  · exact (htr P6 h).elim
  · exact (hpu P4 P4 h).elim
  · exact (hpu P4 P6 h).elim
  · exact (hpu P6 P4 h).elim
  · exact (hpu P6 P6 h).elim
  · exact ⟨P4, P4, rfl⟩
  · exact ⟨P4, P6, rfl⟩
  · exact ⟨P6, P4, rfl⟩
  · exact ⟨P6, P6, rfl⟩

/-- C20 (amended): when source and destination are nodes of the network, the source
supports `push_4_4` and no other action and has an out-neighbour, every out-neighbour of
the source has an out-neighbour and supports a transmission, and no node supports a
decapsulation, the reduction for length 2 has no model. -/
theorem height_exhausted_on_constrained_hops (network : TunnelNetwork)
    (hsrc : 0 ≤ tn_get_initial network ∧ tn_get_initial network < tn_get_num_nodes network)
    (hdst : 0 ≤ tn_get_final network ∧ tn_get_final network < tn_get_num_nodes network)
    (honly : ∀ a, tn_node_has_action network (tn_get_initial network) a = true ↔
      a = push_4_4)
    (hnopop : ∀ u, 0 ≤ u ∧ u < tn_get_num_nodes network →
      ∀ A B, tn_node_has_action network u (pop_tag A B) = false)
    (hnb : has_neighbor network (tn_get_initial network))
    (hnext : ∀ v, 0 ≤ v ∧ v < tn_get_num_nodes network →
      tn_is_edge network (tn_get_initial network) v = true →
      has_neighbor network v ∧ ∃ P, tn_node_has_action network v (transmit_tag P) = true)
    (M : Z3_model) :
    eval M (tn_reduction network 2) = false := by
  cases hM : eval M (tn_reduction network 2) with
  | false => rfl
  | true =>
    exfalso
    have h1 := ((eval_tn_reduction M network 2).1 hM).1
    have hs := occupied_source network 2 M (by decide) hsrc hM
    obtain ⟨a, v, h', t, ho1, hst1, hh, _, hact, hedge, happ⟩ :=
      forced_hop transmit_4 network 2 M hM 0 1 0 (by decide) (by decide) rfl
        (tn_get_initial network) 0 [P4] hs (stack_of_source network 2 M hM)
        ⟨hnb, push_4_4, (honly _).2 rfl, show (0 : Int) < get_stack_size 2 - 1 by decide⟩
    have ha := (honly a).1 hact
    subst ha
    have ht := apply_action_eq _ _ _ _ happ
      (show apply_action push_4_4 [P4] = some [P4, P4] from rfl)
    subst ht
    have hh1 : h' = 1 := by rw [hh]; rfl
    subst hh1
    obtain ⟨hnbv, P, hP⟩ := hnext v ho1.1 hedge
    have happl : action_applicable 2 1 (transmit_tag P) := by
      cases P <;> trivial
    obtain ⟨a, w, h', t, ho2, _, hh, _, hact, _, happ⟩ :=
      forced_hop transmit_4 network 2 M hM 1 2 1 (by decide) (by decide) rfl
        v 1 [P4, P4] ho1 hst1 ⟨hnbv, transmit_tag P, hP, happl⟩
    have hd := occupied_destination network 2 M (by decide) hdst hM
    have hh0 := (occupied_eq network 2 M h1 2 (by decide) _ _ _ _ hd ho2).2
    have hlen : t.length < [P4, P4].length := by
      simp only [List.length_cons, List.length_nil]
      omega
    obtain ⟨A, B, rfl⟩ := shrinking_action_is_pop a [P4, P4] t happ hlen
    rw [hnopop v ho1.1 A B] at hact
    exact Bool.noConfusion hact

theorem height_exhausted_on_constrained_hops_witness :
    (0 ≤ tn_get_initial push_transmit_network ∧
      tn_get_initial push_transmit_network < tn_get_num_nodes push_transmit_network) ∧
    (∀ a, tn_node_has_action push_transmit_network
      (tn_get_initial push_transmit_network) a = true ↔ a = push_4_4) ∧
    has_neighbor push_transmit_network (tn_get_initial push_transmit_network) ∧
    eval push_only_model (tn_reduction push_transmit_network 2) = false :=
  ⟨by decide, fun a => by cases a <;> decide, ⟨1, by decide, by decide⟩,
    height_exhausted_on_constrained_hops push_transmit_network (by decide) (by decide)
      (fun a => by cases a <;> decide)
      (fun u hu A B => by
        have hu' : u = 0 ∨ u = 1 := by
          change 0 ≤ u ∧ u < 2 at hu
          omega
        rcases hu' with rfl | rfl <;> cases A <;> cases B <;> decide)
      ⟨1, by decide, by decide⟩
      (fun v _ he => by
        have hv : v = 1 := by simpa [push_transmit_network] using he
        subst hv
        exact ⟨⟨1, by decide, by decide⟩, P4, by decide⟩)
      push_only_model⟩

/-- C20 (counterexample): on the network with edge `0 -> 1`, source 0 and destination 1,
node 0 supports only `push_4_4` and no node supports a decapsulation, yet the reduction
for length 2 has a model: node 1 supports no action, so nothing constrains the hop that
leaves it at height 1. -/
theorem height_exhausted_counterexample :
    (∀ a, tn_node_has_action push_only_network (tn_get_initial push_only_network) a = true ↔
      a = push_4_4) ∧
    (∀ u A B, tn_node_has_action push_only_network u (pop_tag A B) = false) ∧
    eval push_only_model (tn_reduction push_only_network 2) = true := by
  refine ⟨fun a => by cases a <;> decide, ?_, by decide⟩
  intro u A B
  cases A <;> cases B <;> simp [push_only_network, pop_tag]

/-! ## The sub-builders of φ3 (C21 - C23) -/

theorem conjunction_or_true_eq_true (l : List Z3_ast) :
    conjunction_or_true l = Z3_mk_true ↔ l = [] := by
  unfold conjunction_or_true
  constructor
  · intro h
    by_cases hl : l.length = 0
    · exact List.length_eq_zero.mp hl
    · rw [if_neg hl] at h
      exact Z3_ast.noConfusion h
  · rintro rfl
    rfl

theorem unless_eq_nil {α : Type} (c : Bool) (l : List α) :
    (if (!c) = true then [] else l) = [] ↔ (c = true → l = []) := by
  cases c <;> simp

theorem unless_zero_eq_nil {α : Type} (n : Nat) (g : α) :
    (if n = 0 then [] else [g]) = [] ↔ n = 0 := by
  by_cases h : n = 0 <;> simp [h]

theorem transmit_tag_eq (P : protocol) :
    transmit_tag P = if (if P = P4 then (4 : Int) else 6) = 4 then transmit_4 else transmit_6 := by
  cases P <;> rfl

theorem push_tag_eq (A B : protocol) :
    push_tag A B = push_action (if A = P4 then 4 else 6) (if B = P4 then 4 else 6) := by
  cases A <;> cases B <;> rfl

theorem pop_tag_eq (A B : protocol) :
    pop_tag A B = pop_action (if A = P4 then 4 else 6) (if B = P4 then 4 else 6) := by
  cases A <;> cases B <;> rfl

theorem y_holds_eq (M : Z3_model) (P : protocol) (i k : Int) :
    y_holds M P i k = y_val M (if P = P4 then 4 else 6) i k := by
  cases P <;> rfl

theorem proto_int_cases (P : protocol) :
    (if P = P4 then (4 : Int) else 6) = 4 ∨ (if P = P4 then (4 : Int) else 6) = 6 := by
  cases P
  · exact Or.inl rfl
  · exact Or.inr rfl

theorem int_of_proto_of_int (p : Int) (hp : p = 4 ∨ p = 6) :
    (if proto_of_int p = P4 then (4 : Int) else 6) = p := by
  rcases hp with rfl | rfl <;> rfl

/-- C21 (φ3, transmission): a valuation satisfies `create_phi_3_trans network L` if and
only if for every hop `i` in `[0, L)`, node `u` in `[0, N)`, height `h` in
`[0, get_stack_size L)` and protocol `P` such that `u` supports `transmit_P` and has an
out-neighbour, `x(u, i, h)` and `y_P(i, h)` together imply `x(v, i + 1, h)` for some `v`
with an edge `u -> v`; and the builder returns the constant `Z3_mk_true` exactly when no
such `(i, u, h, P)` exists. -/
theorem phi_3_trans_meaning (network : TunnelNetwork) (L : Int) :
    (∀ M, eval M (create_phi_3_trans network L) = true ↔
      ∀ i, 0 ≤ i ∧ i < L → ∀ u, 0 ≤ u ∧ u < tn_get_num_nodes network →
      ∀ h, 0 ≤ h ∧ h < get_stack_size L → ∀ P : protocol,
        tn_node_has_action network u (transmit_tag P) = true → has_neighbor network u →
        x_val M u i h = true → y_holds M P i h = true →
        ∃ v, (0 ≤ v ∧ v < tn_get_num_nodes network) ∧ tn_is_edge network u v = true ∧
          x_val M v (i + 1) h = true) ∧
    (create_phi_3_trans network L = Z3_mk_true ↔
      ¬ ∃ i u h, ∃ P : protocol, (0 ≤ i ∧ i < L) ∧ (0 ≤ u ∧ u < tn_get_num_nodes network) ∧
        (0 ≤ h ∧ h < get_stack_size L) ∧
        tn_node_has_action network u (transmit_tag P) = true ∧ has_neighbor network u) := by
  refine ⟨fun M => ?_, ?_⟩
  · rw [eval_create_phi_3_trans]
    constructor
    · intro H i hi u hu h hh P hact hnb hx hy
      rw [transmit_tag_eq] at hact
      rw [y_holds_eq] at hy
      exact H i hi u hu h hh _ (proto_int_cases P) hact hnb hx hy
    · intro H i hi u hu h hh p hp hact hnb hx hy
      refine H i hi u hu h hh (proto_of_int p) ?_ hnb hx ?_
      · rw [transmit_tag_eq, int_of_proto_of_int p hp]
        exact hact
      · rw [y_holds_eq, int_of_proto_of_int p hp]
        exact hy
  · unfold create_phi_3_trans
    rw [conjunction_or_true_eq_true]
    simp only [List.flatMap_eq_nil_iff, mem_int_range, mem_protocol_range, unless_eq_nil,
      unless_zero_eq_nil, neighbor_entries_length]
    constructor
    · rintro H ⟨i, u, h, P, hi, hu, hh, hact, hnb⟩
      rw [transmit_tag_eq] at hact
      exact H i hi u hu h hh _ (proto_int_cases P) hact hnb
    · intro H i hi u hu h hh p hp hact hnb
      refine H ⟨i, u, h, proto_of_int p, hi, hu, hh, ?_, hnb⟩
      rw [transmit_tag_eq, int_of_proto_of_int p hp]
      exact hact

theorem phi_3_trans_meaning_witness :
    (∃ v, (0 ≤ v ∧ v < tn_get_num_nodes wire_network) ∧ tn_is_edge wire_network 0 v = true ∧
      x_val wire_model v (0 + 1) 0 = true) ∧
    create_phi_3_trans isolated_network 2 = Z3_mk_true :=
  ⟨((phi_3_trans_meaning wire_network 2).1 wire_model).1 (by decide) 0 (by decide) 0
      (by decide) 0 (by decide) P4 (by decide) ⟨1, by decide, by decide⟩ (by decide)
      (by decide),
    (phi_3_trans_meaning isolated_network 2).2.2 (by
      rintro ⟨i, u, h, P, _, _, _, hact, _⟩
      exact Bool.noConfusion hact)⟩

/-- C22 (φ3, encapsulation): a valuation satisfies `create_phi_3_push network L` if and
only if for every hop `i` in `[0, L)`, node `u` in `[0, N)`, height `h` with
`0 ≤ h < get_stack_size L - 1` and protocols `(A, B)` such that `u` supports `push_A_B`
and has an out-neighbour, `x(u, i, h)` and `y_A(i, h)` together imply that for some `v`
with an edge `u -> v` both `x(v, i + 1, h + 1)` and `y_B(i + 1, h + 1)` are true. -/
theorem phi_3_push_meaning (network : TunnelNetwork) (L : Int) (M : Z3_model) :
    eval M (create_phi_3_push network L) = true ↔
      ∀ i, 0 ≤ i ∧ i < L → ∀ u, 0 ≤ u ∧ u < tn_get_num_nodes network →
      ∀ h, 0 ≤ h ∧ h < get_stack_size L - 1 → ∀ A B : protocol,
        tn_node_has_action network u (push_tag A B) = true → has_neighbor network u →
        x_val M u i h = true → y_holds M A i h = true →
        ∃ v, (0 ≤ v ∧ v < tn_get_num_nodes network) ∧ tn_is_edge network u v = true ∧
          x_val M v (i + 1) (h + 1) = true ∧ y_holds M B (i + 1) (h + 1) = true := by
  rw [eval_create_phi_3_push]
  constructor
  · intro H i hi u hu h hh A B hact hnb hx hy
    rw [push_tag_eq] at hact
    rw [y_holds_eq] at hy
    obtain ⟨v, hv, he, hxv, hyv⟩ :=
      H i hi u hu h hh _ (proto_int_cases A) _ (proto_int_cases B) hact hnb hx hy
    exact ⟨v, hv, he, hxv, by rw [y_holds_eq]; exact hyv⟩
  · intro H i hi u hu h hh pa hpa pb hpb hact hnb hx hy
    obtain ⟨v, hv, he, hxv, hyv⟩ := H i hi u hu h hh (proto_of_int pa) (proto_of_int pb)
      (by rw [push_tag_eq, int_of_proto_of_int pa hpa, int_of_proto_of_int pb hpb]
          exact hact) hnb hx
      (by rw [y_holds_eq, int_of_proto_of_int pa hpa]; exact hy)
    refine ⟨v, hv, he, hxv, ?_⟩
    rw [y_holds_eq, int_of_proto_of_int pb hpb] at hyv
    exact hyv

theorem phi_3_push_meaning_witness :
    ∃ v, (0 ≤ v ∧ v < tn_get_num_nodes tunnel_network) ∧
      tn_is_edge tunnel_network 0 v = true ∧
      x_val tunnel_model v (0 + 1) (0 + 1) = true ∧
      y_holds tunnel_model P6 (0 + 1) (0 + 1) = true :=
  (phi_3_push_meaning tunnel_network 3 tunnel_model).1 (by decide) 0 (by decide) 0
    (by decide) 0 (by decide) P4 P6 (by decide) ⟨1, by decide, by decide⟩ (by decide)
    (by decide)

/-- C23 (φ3, decapsulation): a valuation satisfies `create_phi_3_pop network L` if and
only if for every hop `i` in `[0, L)`, node `u` in `[0, N)`, height `h` with
`1 ≤ h < get_stack_size L` and protocols `(A, B)` such that `u` supports `pop_A_B` and
has an out-neighbour, `x(u, i, h)`, `y_B(i, h)` and `y_A(i, h - 1)` together imply
`x(v, i + 1, h - 1)` for some `v` with an edge `u -> v`. -/
theorem phi_3_pop_meaning (network : TunnelNetwork) (L : Int) (M : Z3_model) :
    eval M (create_phi_3_pop network L) = true ↔
      ∀ i, 0 ≤ i ∧ i < L → ∀ u, 0 ≤ u ∧ u < tn_get_num_nodes network →
      ∀ h, 1 ≤ h ∧ h < get_stack_size L → ∀ A B : protocol,
        tn_node_has_action network u (pop_tag A B) = true → has_neighbor network u →
        x_val M u i h = true → y_holds M B i h = true → y_holds M A i (h - 1) = true →
        ∃ v, (0 ≤ v ∧ v < tn_get_num_nodes network) ∧ tn_is_edge network u v = true ∧
          x_val M v (i + 1) (h - 1) = true := by
  rw [eval_create_phi_3_pop]
  constructor
  · intro H i hi u hu h hh A B hact hnb hx hyb hya
    rw [pop_tag_eq] at hact
    rw [y_holds_eq] at hyb hya
    exact H i hi u hu h hh _ (proto_int_cases A) _ (proto_int_cases B) hact hnb hx hyb hya
  · intro H i hi u hu h hh pa hpa pb hpb hact hnb hx hyb hya
    exact H i hi u hu h hh (proto_of_int pa) (proto_of_int pb)
      (by rw [pop_tag_eq, int_of_proto_of_int pa hpa, int_of_proto_of_int pb hpb]
          exact hact) hnb hx
      (by rw [y_holds_eq, int_of_proto_of_int pb hpb]; exact hyb)
      (by rw [y_holds_eq, int_of_proto_of_int pa hpa]; exact hya)

theorem phi_3_pop_meaning_witness :
    ∃ v, (0 ≤ v ∧ v < tn_get_num_nodes tunnel_network) ∧
      tn_is_edge tunnel_network 2 v = true ∧ x_val tunnel_model v (2 + 1) (1 - 1) = true :=
  (phi_3_pop_meaning tunnel_network 3 tunnel_model).1 (by decide) 2 (by decide) 2
    (by decide) 1 (by decide) P4 P6 (by decide) ⟨3, by decide, by decide⟩ (by decide)
    (by decide) (by decide)

/-! ## φ5 and φ6 (C24 - C26) -/

/-- C24 (φ5, preconditions): a valuation satisfies `create_phi_5 network L` if and only
if for every position `i` in `[0, L]`, node `u` in `[0, N)` and height `h` in
`[0, get_stack_size L)`: (a) for every `P` with `u` supporting `transmit_P`, `x(u, i, h)`
implies `y_P(i, h)`; (b) for every `(A, B)` with `u` supporting `push_A_B`, `x(u, i, h)`
implies `y_A(i, h)`; (c) for every `(A, B)` with `u` supporting `pop_A_B` and `1 ≤ h`,
`x(u, i, h)` implies `y_B(i, h)` and `y_A(i, h - 1)`. -/
theorem phi_5_meaning (network : TunnelNetwork) (L : Int) (M : Z3_model) :
    eval M (create_phi_5 network L) = true ↔
      ∀ i, 0 ≤ i ∧ i ≤ L → ∀ u, 0 ≤ u ∧ u < tn_get_num_nodes network →
      ∀ h, 0 ≤ h ∧ h < get_stack_size L →
        (∀ P : protocol, tn_node_has_action network u (transmit_tag P) = true →
          x_val M u i h = true → y_holds M P i h = true) ∧
        (∀ A B : protocol, tn_node_has_action network u (push_tag A B) = true →
          x_val M u i h = true → y_holds M A i h = true) ∧
        (∀ A B : protocol, tn_node_has_action network u (pop_tag A B) = true → 1 ≤ h →
          x_val M u i h = true →
          y_holds M B i h = true ∧ y_holds M A i (h - 1) = true) := by
  rw [eval_create_phi_5, eval_create_phi_5_trans, eval_create_phi_5_push,
    eval_create_phi_5_pop]
  constructor
  · rintro ⟨Ht, Hu, Ho⟩ i hi u hu h hh
    have hi' : 0 ≤ i ∧ i < L + 1 := ⟨hi.1, by omega⟩
    refine ⟨?_, ?_, ?_⟩
    · intro P hact hx
      rw [transmit_tag_eq] at hact
      rw [y_holds_eq]
      exact Ht i hi' u hu h hh _ (proto_int_cases P) hact hx
    · intro A B hact hx
      rw [push_tag_eq] at hact
      rw [y_holds_eq]
      exact Hu i hi' u hu h hh _ (proto_int_cases A) _ (proto_int_cases B) hact hx
    · intro A B hact h1 hx
      rw [pop_tag_eq] at hact
      rw [y_holds_eq, y_holds_eq]
      exact Ho i hi' u hu h ⟨h1, hh.2⟩ _ (proto_int_cases A) _ (proto_int_cases B) hact hx
  · intro H
    refine ⟨?_, ?_, ?_⟩
    · intro i hi u hu h hh p hp hact hx
      have := (H i ⟨hi.1, by omega⟩ u hu h hh).1 (proto_of_int p)
        (by rw [transmit_tag_eq, int_of_proto_of_int p hp]; exact hact) hx
      rw [y_holds_eq, int_of_proto_of_int p hp] at this
      exact this
    · intro i hi u hu h hh pa hpa pb hpb hact hx
      have := (H i ⟨hi.1, by omega⟩ u hu h hh).2.1 (proto_of_int pa) (proto_of_int pb)
        (by rw [push_tag_eq, int_of_proto_of_int pa hpa, int_of_proto_of_int pb hpb]
            exact hact) hx
      rw [y_holds_eq, int_of_proto_of_int pa hpa] at this
      exact this
    · intro i hi u hu h hh pa hpa pb hpb hact hx
      have := (H i ⟨hi.1, by omega⟩ u hu h ⟨by omega, hh.2⟩).2.2 (proto_of_int pa)
        (proto_of_int pb)
        (by rw [pop_tag_eq, int_of_proto_of_int pa hpa, int_of_proto_of_int pb hpb]
            exact hact) hh.1 hx
      rw [y_holds_eq, y_holds_eq, int_of_proto_of_int pa hpa,
        int_of_proto_of_int pb hpb] at this
      exact this

theorem phi_5_meaning_witness :
    y_holds tunnel_model P6 2 1 = true ∧ y_holds tunnel_model P4 2 (1 - 1) = true :=
  ((phi_5_meaning tunnel_network 3 tunnel_model).1 (by decide) 2 (by decide) 2 (by decide)
    1 (by decide)).2.2 P4 P6 (by decide) (by decide) (by decide)

/-- C25 (the claim fails on the code): on `identity_network` with `L = 1`, the valuation
`isolated_model_1` preserves cell 0 over the only hop, as the claim asks of every hop
`i` in `[0, L)`, yet `create_phi_6_trans identity_network 1` is false in it: the loop on
`pos` runs up to `L` included and also asks that `y4(1, 0)` equal `y4(2, 0)`. -/
theorem phi_6_trans_extra_position :
    (∀ i : Int, 0 ≤ i ∧ i < 1 → ∀ u : Int, 0 ≤ u ∧ u < tn_get_num_nodes identity_network →
      ∀ h : Int, 0 ≤ h ∧ h < get_stack_size 1 → ∀ P : protocol,
        tn_node_has_action identity_network u (transmit_tag P) = true →
        x_val isolated_model_1 u i h = true →
        ∀ k : Int, 0 ≤ k ∧ k ≤ h →
          (y4_val isolated_model_1 i k = y4_val isolated_model_1 (i + 1) k ∧
            y6_val isolated_model_1 i k = y6_val isolated_model_1 (i + 1) k)) ∧
    eval isolated_model_1 (create_phi_6_trans identity_network 1) = false ∧
    x_val isolated_model_1 0 1 0 = true ∧
    y4_val isolated_model_1 1 0 ≠ y4_val isolated_model_1 (1 + 1) 0 := by
  refine ⟨?_, by decide, by decide, by decide⟩
  intro i hi u hu h hh P _ _ k hk
  have hs : get_stack_size 1 = 1 := by decide
  rw [hs] at hh
  have hi0 : i = 0 := by omega
  have hh0 : h = 0 := by omega
  have hk0 : k = 0 := by omega
  subst hi0 hh0 hk0
  exact ⟨by decide, by decide⟩

theorem stored_conjunction_or_true (l : List Z3_ast) :
    stored_implications (conjunction_or_true l) = l := by
  unfold conjunction_or_true
  by_cases h : l.length = 0
  · rw [if_pos h, List.length_eq_zero.mp h]
    rfl
  · rw [if_neg h]
    rfl

/-- When every store of `create_phi_6_pop` is in bounds, a valuation satisfies the
formula returned if and only if for every hop `i` in `[0, L)`, node `u`, height `h` with
`1 ≤ h < get_stack_size L` and `(A, B)` with `u` supporting `pop_A_B`, `x(u, i, h)`
implies the preservation of every cell `k` in `[0, h - 1]`. -/
theorem phi_6_pop_bounded_meaning (network : TunnelNetwork) (L : Int) (f : Z3_ast)
    (hf : create_phi_6_pop_bounded network L = some f) (M : Z3_model) :
    eval M f = true ↔
      ∀ i, 0 ≤ i ∧ i < L → ∀ u, 0 ≤ u ∧ u < tn_get_num_nodes network →
      ∀ h, 1 ≤ h ∧ h < get_stack_size L → ∀ A B : protocol,
        tn_node_has_action network u (pop_tag A B) = true → x_val M u i h = true →
        ∀ k, 0 ≤ k ∧ k ≤ h - 1 →
          (y4_val M i k = y4_val M (i + 1) k ∧ y6_val M i k = y6_val M (i + 1) k) := by
  have hfe : f = create_phi_6_pop network L := by
    unfold create_phi_6_pop_bounded at hf
    split at hf
    · exact (Option.some.inj hf).symm
    · exact Option.noConfusion hf
  rw [hfe, eval_create_phi_6_pop]
  constructor
  · intro H i hi u hu h hh A B hact hx k hk
    rw [pop_tag_eq] at hact
    exact H i hi u hu h hh _ (proto_int_cases A) _ (proto_int_cases B) hact hx k
      ⟨hk.1, by omega⟩
  · intro H i hi u hu h hh pa hpa pb hpb hact hx k hk
    exact H i hi u hu h hh (proto_of_int pa) (proto_of_int pb)
      (by rw [pop_tag_eq, int_of_proto_of_int pa hpa, int_of_proto_of_int pb hpb]
          exact hact) hx k ⟨hk.1, by omega⟩

/-- As soon as a node supports a decapsulation and `L ≥ 4`, `create_phi_6_pop` computes
for `pos = 0` and `height = 2` the preservation of cell 2, the cell that the
decapsulation discards, and stores it at index 2 of a `cell_preservations` declared with
length 2. -/
theorem popped_cell_entry (network : TunnelNetwork) (L : Int) (hL : 4 ≤ L)
    (u : Int) (hu : 0 ≤ u ∧ u < tn_get_num_nodes network) (A B : protocol)
    (hact : tn_node_has_action network u (pop_tag A B) = true) :
    ((⟨2, 2⟩ : array_write), cell_preservation 0 2) ∈
      cell_preservations_entries network L := by
  have hs := get_stack_size_eq L (by omega)
  unfold cell_preservations_entries
  simp only [List.mem_flatMap, mem_int_range, mem_protocol_range]
  refine ⟨0, ⟨le_refl 0, by omega⟩, u, hu, 2, ⟨by omega, by omega⟩, _, proto_int_cases A,
    _, proto_int_cases B, ?_⟩
  rw [mem_unless, ← pop_tag_eq]
  refine ⟨hact, ?_⟩
  rw [if_neg (by omega), List.mem_map]
  exact ⟨2, (mem_int_range _ _ _).2 ⟨by omega, by omega⟩, rfl⟩

/-- C26 (the claim fails on the code): on the tunnel network of scenario 3 with `L = 4`
the stores into `implications` of `create_phi_6_pop` are in bounds, but for
`height = 2` the loop `cell <= height` computes the preservation of cell 2 between
positions 0 and 1, which relates the discarded cell at position `i` to the same cell at
position `i + 1`, and stores it at index 2 of `cell_preservations`, declared with
length 2: the C function has no defined value. -/
theorem phi_6_pop_popped_cell_stored :
    tn_node_has_action tunnel_network 2 (pop_tag P4 P6) = true ∧
    ((⟨2, 2⟩ : array_write), cell_preservation 0 2) ∈
      cell_preservations_entries tunnel_network 4 ∧
    implications_in_bounds (max_implications_phi_6 tunnel_network 4)
      (create_phi_6_pop tunnel_network 4) = true ∧
    cell_preservations_in_bounds tunnel_network 4 = false ∧
    create_phi_6_pop_bounded tunnel_network 4 = none := by
  refine ⟨by decide, ?_, by decide, by decide, ?_⟩
  · exact popped_cell_entry tunnel_network 4 (by decide) 2 (by decide) P4 P6 (by decide)
  · unfold create_phi_6_pop_bounded
    rw [if_neg (by decide)]

/-! ## Conditional step soundness and capabilities (C27, C28) -/

theorem height_after_transmit (p h : Int) :
    height_after (if p = 4 then transmit_4 else transmit_6) h = h := by
  split <;> rfl

theorem height_after_push (pa pb h : Int) :
    height_after (push_action pa pb) h = h + 1 := by
  unfold push_action
  split_ifs <;> rfl

theorem height_after_pop (pa pb h : Int) :
    height_after (pop_action pa pb) h = h - 1 := by
  unfold pop_action
  split_ifs <;> rfl

/-- One hop of a model from an occupied pair `(u, h)` where `u` has an out-neighbour and
supports the action `a`, applicable at `h`: the pair occupied at the next position is
an out-neighbour of `u` at the height `a` leads to, and the cells up to the lower top are
preserved. -/
theorem supported_action_step (network : TunnelNetwork) (L : Int) (M : Z3_model)
    (hM : eval M (tn_reduction network L) = true)
    (i : Int) (hi : 0 ≤ i ∧ i < L) (u h v h' : Int)
    (ho : occupied network L M i u h) (ho' : occupied network L M (i + 1) v h')
    (hnb : has_neighbor network u) (a : stack_action)
    (hact : tn_node_has_action network u a = true) (happ : action_applicable L h a) :
    tn_is_edge network u v = true ∧ h' = height_after a h ∧
      ∀ k, 0 ≤ k ∧ k ≤ min h h' →
        (y4_val M i k = y4_val M (i + 1) k ∧ y6_val M i k = y6_val M (i + 1) k) := by
  obtain ⟨h1, _, h3, _, h5, h6⟩ := (eval_tn_reduction M network L).1 hM
  obtain ⟨h3t, h3u, h3o⟩ := (eval_create_phi_3 M network L).1 h3
  obtain ⟨h5t, h5u, h5o⟩ := (eval_create_phi_5 M network L).1 h5
  obtain ⟨h6t, h6u, h6o⟩ := (eval_create_phi_6 M network L).1 h6
  have hi' : 0 ≤ i ∧ i < L + 1 := ⟨hi.1, by omega⟩
  have hhr : 0 ≤ h ∧ h < get_stack_size L := ho.2.1
  rcases action_forms a with ⟨p, hp, rfl⟩ | ⟨pa, pb, hpa, hpb, rfl⟩ | ⟨pa, pb, hpa, hpb, rfl⟩
  · have hy := (eval_create_phi_5_trans M network L).1 h5t i hi' u ho.1 h ho.2.1 p hp hact
      ho.2.2
    obtain ⟨w, hw, hedge, hxw⟩ := (eval_create_phi_3_trans M network L).1 h3t i hi u ho.1 h
      ho.2.1 p hp hact hnb ho.2.2 hy
    obtain ⟨hv, hh⟩ := occupied_eq network L M h1 (i + 1) ⟨by omega, by omega⟩ v h' w h ho'
      ⟨hw, ho.2.1, hxw⟩
    subst hv hh
    have hpres := (eval_create_phi_6_trans M network L).1 h6t i hi' u ho.1 h ho.2.1 p hp
      hact ho.2.2
    refine ⟨hedge, (height_after_transmit p h).symm, ?_⟩
    intro k hk
    rw [min_self] at hk
    exact hpres k ⟨hk.1, by omega⟩
  · have hlt := (applicable_push L h pa pb hpa hpb).1 happ
    have hy := (eval_create_phi_5_push M network L).1 h5u i hi' u ho.1 h ho.2.1 pa hpa pb
      hpb hact ho.2.2
    obtain ⟨w, hw, hedge, hxw, _⟩ := (eval_create_phi_3_push M network L).1 h3u i hi u
      ho.1 h ⟨ho.2.1.1, hlt⟩ pa hpa pb hpb hact hnb ho.2.2 hy
    obtain ⟨hv, hh⟩ := occupied_eq network L M h1 (i + 1) ⟨by omega, by omega⟩ v h' w
      (h + 1) ho' ⟨hw, ⟨by omega, by omega⟩, hxw⟩
    subst hv hh
    have hpres := (eval_create_phi_6_push M network L).1 h6u i hi u ho.1 h
      ⟨ho.2.1.1, hlt⟩ pa hpa pb hpb hact ho.2.2
    refine ⟨hedge, (height_after_push pa pb h).symm, ?_⟩
    intro k hk
    have : min h (h + 1) = h := min_eq_left (by omega)
    rw [this] at hk
    exact hpres k ⟨hk.1, by omega⟩
  · have hge := (applicable_pop L h pa pb hpa hpb).1 happ
    obtain ⟨hyb, hya⟩ := (eval_create_phi_5_pop M network L).1 h5o i hi' u ho.1 h
      ⟨hge, ho.2.1.2⟩ pa hpa pb hpb hact ho.2.2
    obtain ⟨w, hw, hedge, hxw⟩ := (eval_create_phi_3_pop M network L).1 h3o i hi u
      ho.1 h ⟨hge, ho.2.1.2⟩ pa hpa pb hpb hact hnb ho.2.2 hyb hya
    obtain ⟨hv, hh⟩ := occupied_eq network L M h1 (i + 1) ⟨by omega, by omega⟩ v h' w
      (h - 1) ho' ⟨hw, ⟨by omega, by omega⟩, hxw⟩
    subst hv hh
    have hpres := (eval_create_phi_6_pop M network L).1 h6o i hi u ho.1 h
      ⟨hge, ho.2.1.2⟩ pa hpa pb hpb hact ho.2.2
    refine ⟨hedge, (height_after_pop pa pb h).symm, ?_⟩
    intro k hk
    have : min h (h - 1) = h - 1 := min_eq_right (by omega)
    rw [this] at hk
    exact hpres k ⟨hk.1, by omega⟩

/-- C27 (conditional step soundness): for a network with `N ≥ 1`, `L ≥ 1`, a model `M`
of `tn_reduction network L` and a hop `i` in `[0, L)`, if the node `u` occupied at
position `i` at top height `h` has an out-neighbour and supports an action `a`
applicable at `h` (any `transmit_P`; a `push_A_B` with `h < get_stack_size L - 1`; a
`pop_A_B` with `h ≥ 1`), then the one pair `(v, h')` occupied at position `i + 1` has
`v` an out-neighbour of `u`, `h'` equal to `h`, `h + 1` or `h - 1` according to whether
`a` is a transmission, an encapsulation or a decapsulation, and every cell up to the
lower of the two tops holds the same values of `y4` and `y6` at positions `i` and
`i + 1`. -/
theorem conditional_step_soundness (network : TunnelNetwork) (L : Int) (M : Z3_model)
    (_hN : 1 ≤ tn_get_num_nodes network) (_hL : 1 ≤ L)
    (hM : eval M (tn_reduction network L) = true)
    (i : Int) (hi : 0 ≤ i ∧ i < L) (u h : Int) (ho : occupied network L M i u h)
    (hnb : has_neighbor network u) (a : stack_action)
    (hact : tn_node_has_action network u a = true) (happ : action_applicable L h a) :
    ∃ v h', occupied network L M (i + 1) v h' ∧
      (∀ w g, occupied network L M (i + 1) w g → w = v ∧ g = h') ∧
      tn_is_edge network u v = true ∧ h' = height_after a h ∧
      ∀ k, 0 ≤ k ∧ k ≤ min h h' →
        (y4_val M i k = y4_val M (i + 1) k ∧ y6_val M i k = y6_val M (i + 1) k) := by
  have h1 := ((eval_tn_reduction M network L).1 hM).1
  obtain ⟨v, h', ho', huniq⟩ := occupied_exists_unique network L M h1 (i + 1)
    ⟨by omega, by omega⟩
  obtain ⟨hedge, hh, hpres⟩ :=
    supported_action_step network L M hM i hi u h v h' ho ho' hnb a hact happ
  exact ⟨v, h', ho', huniq, hedge, hh, hpres⟩

theorem conditional_step_soundness_witness :
    ∃ v h', occupied tunnel_network 3 tunnel_model (0 + 1) v h' ∧
      (∀ w g, occupied tunnel_network 3 tunnel_model (0 + 1) w g → w = v ∧ g = h') ∧
      tn_is_edge tunnel_network 0 v = true ∧ h' = height_after push_4_6 0 ∧
      ∀ k, 0 ≤ k ∧ k ≤ min 0 h' →
        (y4_val tunnel_model 0 k = y4_val tunnel_model (0 + 1) k ∧
          y6_val tunnel_model 0 k = y6_val tunnel_model (0 + 1) k) :=
  conditional_step_soundness tunnel_network 3 tunnel_model (by decide) (by decide)
    (by decide) 0 (by decide) 0 0 (by decide) ⟨1, by decide, by decide⟩ push_4_6
    (by decide) (show (0 : Int) < get_stack_size 3 - 1 by decide)

/-- In a model of φ5, an occupied pair `(u, h)` has in its top cell the protocol demanded
by each action `u` supports. -/
theorem phi_5_demand (network : TunnelNetwork) (L : Int) (M : Z3_model)
    (h5 : eval M (create_phi_5 network L) = true) (i : Int) (hi : 0 ≤ i ∧ i ≤ L)
    (u h : Int) (hu : 0 ≤ u ∧ u < tn_get_num_nodes network)
    (hh : 0 ≤ h ∧ h < get_stack_size L) (hx : x_val M u i h = true)
    (a : stack_action) (hact : tn_node_has_action network u a = true) (P : protocol)
    (hd : demanded_top h a = some P) : y_holds M P i h = true := by
  obtain ⟨h5t, h5u, h5o⟩ := (eval_create_phi_5 M network L).1 h5
  have hi' : 0 ≤ i ∧ i < L + 1 := ⟨hi.1, by omega⟩
  have ht := fun p hp => (eval_create_phi_5_trans M network L).1 h5t i hi' u hu h hh p hp
  have hp := fun pa hpa pb hpb =>
    (eval_create_phi_5_push M network L).1 h5u i hi' u hu h hh pa hpa pb hpb
  have ho := fun (h1 : 1 ≤ h) pa hpa pb hpb =>
    (eval_create_phi_5_pop M network L).1 h5o i hi' u hu h ⟨h1, hh.2⟩ pa hpa pb hpb
  have pop_case : ∀ Q : protocol, (if 1 ≤ h then some Q else none) = some P →
      1 ≤ h ∧ Q = P := by
    intro Q e
    by_cases h1 : 1 ≤ h
    · rw [if_pos h1] at e
      exact ⟨h1, Option.some.inj e⟩
    · rw [if_neg h1] at e
      exact Option.noConfusion e
  cases a
  · cases Option.some.inj hd
    exact ht 4 (Or.inl rfl) hact hx
  · cases Option.some.inj hd
    exact ht 6 (Or.inr rfl) hact hx
  · cases Option.some.inj hd
    exact hp 4 (Or.inl rfl) 4 (Or.inl rfl) hact hx
  · cases Option.some.inj hd
    exact hp 4 (Or.inl rfl) 6 (Or.inr rfl) hact hx
  · cases Option.some.inj hd
    exact hp 6 (Or.inr rfl) 4 (Or.inl rfl) hact hx
  · cases Option.some.inj hd
    exact hp 6 (Or.inr rfl) 6 (Or.inr rfl) hact hx
  · obtain ⟨h1, rfl⟩ := pop_case P4 hd
    exact (ho h1 4 (Or.inl rfl) 4 (Or.inl rfl) hact hx).1
  · obtain ⟨h1, rfl⟩ := pop_case P6 hd
    exact (ho h1 4 (Or.inl rfl) 6 (Or.inr rfl) hact hx).1
  · obtain ⟨h1, rfl⟩ := pop_case P4 hd
    exact (ho h1 6 (Or.inr rfl) 4 (Or.inl rfl) hact hx).1
  · obtain ⟨h1, rfl⟩ := pop_case P6 hd
    exact (ho h1 6 (Or.inr rfl) 6 (Or.inr rfl) hact hx).1

/-- A node supporting two actions that demand `P4` and `P6` in the top cell `h` is not
occupied at height `h` in a model of the reduction. -/
theorem conflicting_demands_unoccupied (network : TunnelNetwork) (L : Int) (M : Z3_model)
    (hM : eval M (tn_reduction network L) = true) (i : Int) (hi : 0 ≤ i ∧ i ≤ L)
    (u h : Int) (hu : 0 ≤ u ∧ u < tn_get_num_nodes network)
    (hh : 0 ≤ h ∧ h < get_stack_size L) (a b : stack_action)
    (ha : tn_node_has_action network u a = true)
    (hb : tn_node_has_action network u b = true)
    (hda : demanded_top h a = some P4) (hdb : demanded_top h b = some P6) :
    x_val M u i h = false := by
  cases hx : x_val M u i h with
  | false => rfl
  | true =>
    exfalso
    obtain ⟨_, _, _, h4, h5, _⟩ := (eval_tn_reduction M network L).1 hM
    have y4 : y4_val M i h = true := phi_5_demand network L M h5 i hi u h hu hh hx a ha P4 hda
    have y6 : y6_val M i h = true := phi_5_demand network L M h5 i hi u h hu hh hx b hb P6 hdb
    have hxor := cell_xor network L M h4 i hi u h ⟨hu, hh, hx⟩ h ⟨hh.1, le_refl h⟩
    rw [y4, y6] at hxor
    exact Bool.noConfusion hxor

/-- C28 (capabilities act as obligations): let `u` be a node of the network that supports
two actions `a` and `b`, and `L ≥ 0`.  In every model of `tn_reduction network L`,
`x(u, i, h)` is false at every position `i` in `[0, L]` and every height `h` of the
stack array at which the φ5 conclusions of `a` and `b` demand `y4` and `y6` of the top
cell; for `transmit_4` with `transmit_6`, and for `push_4_B` with `transmit_6`, that is
every height.  If moreover `u` is the source and the demands conflict at height 0, the
reduction has no model. -/
theorem capabilities_are_obligations (network : TunnelNetwork) (L : Int) (hL : 0 ≤ L)
    (u : Int) (hu : 0 ≤ u ∧ u < tn_get_num_nodes network) (a b : stack_action)
    (ha : tn_node_has_action network u a = true)
    (hb : tn_node_has_action network u b = true) :
    (∀ M, eval M (tn_reduction network L) = true →
      ∀ i, 0 ≤ i ∧ i ≤ L → ∀ h, 0 ≤ h ∧ h < get_stack_size L →
        demanded_top h a = some P4 → demanded_top h b = some P6 →
        x_val M u i h = false) ∧
    ((a = transmit_4 ∨ a = push_4_4 ∨ a = push_4_6) → (b = transmit_6) →
      ∀ M, eval M (tn_reduction network L) = true →
        ∀ i, 0 ≤ i ∧ i ≤ L → ∀ h, 0 ≤ h ∧ h < get_stack_size L → x_val M u i h = false) ∧
    (u = tn_get_initial network → demanded_top 0 a = some P4 →
      demanded_top 0 b = some P6 → ∀ M, eval M (tn_reduction network L) = false) := by
  refine ⟨?_, ?_, ?_⟩
  · intro M hM i hi h hh hda hdb
    exact conflicting_demands_unoccupied network L M hM i hi u h hu hh a b ha hb hda hdb
  · intro hca hcb M hM i hi h hh
    subst hcb
    refine conflicting_demands_unoccupied network L M hM i hi u h hu hh a transmit_6 ha hb
      ?_ rfl
    rcases hca with rfl | rfl | rfl <;> rfl
  · intro hsrc hda hdb M
    cases hM : eval M (tn_reduction network L) with
    | false => rfl
    | true =>
      exfalso
      have hx : x_val M (tn_get_initial network) 0 0 = true :=
        ((eval_create_phi_2 M network L).1 ((eval_tn_reduction M network L).1 hM).2.1).1
      have := conflicting_demands_unoccupied network L M hM 0 ⟨le_refl 0, hL⟩ u 0 hu
        ⟨le_refl 0, get_stack_size_pos L hL⟩ a b ha hb hda hdb
      rw [hsrc, hx] at this
      exact Bool.noConfusion this

theorem capabilities_are_obligations_witness :
    (0 ≤ (0 : Int) ∧ (0 : Int) < tn_get_num_nodes both_transmit_network) ∧
    tn_node_has_action both_transmit_network 0 transmit_4 = true ∧
    tn_node_has_action both_transmit_network 0 transmit_6 = true ∧
    eval isolated_model_1 (tn_reduction both_transmit_network 1) = false :=
  ⟨by decide, by decide, by decide,
    (capabilities_are_obligations both_transmit_network 1 (by decide) 0 (by decide)
      transmit_4 transmit_6 (by decide) (by decide)).2.2 rfl rfl rfl isolated_model_1⟩

/-! ## The local arrays of the sub-builders (C29, C30) -/

theorem length_flatMap_le {α β : Type} (l : List α) (f : α → List β) (c : Nat)
    (h : ∀ a ∈ l, (f a).length ≤ c) : (l.flatMap f).length ≤ l.length * c := by
  induction l with
  | nil => simp
  | cons a rest ih =>
    have h1 := h a (List.mem_cons_self _ _)
    have h2 := ih fun b hb => h b (List.mem_cons_of_mem _ hb)
    simp only [List.flatMap_cons, List.length_append, List.length_cons]
    rw [Nat.add_mul]
    omega

theorem int_range_length (lo hi : Int) : (int_range lo hi).length = (hi - lo).toNat := by
  unfold int_range
  simp

theorem unless_length_le {α : Type} (c : Bool) (l : List α) (n : Nat) (h : l.length ≤ n) :
    (if (!c) = true then [] else l).length ≤ n := by
  cases c <;> simp [h]

theorem unless_zero_length_le {α : Type} (k : Nat) (g : α) :
    (if k = 0 then [] else [g]).length ≤ 1 := by
  by_cases h : k = 0 <;> simp [h]

/-- The number of entries produced by loops over positions, nodes, heights and `combos`
alternatives, each iteration storing at most one entry. -/
theorem nested_count_le {β : Type} (positions nodes heights alternatives : List Int)
    (body : Int → Int → Int → Int → List β)
    (hbody : ∀ pos node height p, (body pos node height p).length ≤ 1) :
    (positions.flatMap fun pos => nodes.flatMap fun node => heights.flatMap fun height =>
      alternatives.flatMap fun p => body pos node height p).length ≤
      positions.length * (nodes.length * (heights.length * alternatives.length)) := by
  apply length_flatMap_le
  intro pos _
  apply length_flatMap_le
  intro node _
  apply length_flatMap_le
  intro height _
  have := length_flatMap_le alternatives (fun p => body pos node height p) 1
    fun p _ => hbody pos node height p
  simpa using this

theorem nested_count_le_pairs {β : Type} (positions nodes heights : List Int)
    (body : Int → Int → Int → Int → Int → List β)
    (hbody : ∀ pos node height pa pb, (body pos node height pa pb).length ≤ 1) :
    (positions.flatMap fun pos => nodes.flatMap fun node => heights.flatMap fun height =>
      protocol_range.flatMap fun pa => protocol_range.flatMap fun pb =>
        body pos node height pa pb).length ≤
      positions.length * (nodes.length * (heights.length * 4)) := by
  apply length_flatMap_le
  intro pos _
  apply length_flatMap_le
  intro node _
  apply length_flatMap_le
  intro height _
  have h1 : ∀ pa ∈ protocol_range,
      (protocol_range.flatMap fun pb => body pos node height pa pb).length ≤ 2 := by
    intro pa _
    have := length_flatMap_le protocol_range (fun pb => body pos node height pa pb) 1
      fun pb _ => hbody pos node height pa pb
    simpa [protocol_range] using this
  have := length_flatMap_le protocol_range
    (fun pa => protocol_range.flatMap fun pb => body pos node height pa pb) 2 h1
  simpa [protocol_range] using this

/-- A count bounded by the product of the loop lengths stays below the capacity computed
from bounds of those lengths. -/
theorem capacity_bound (count P N H c : Nat) (p n s c' : Int) (hp : (P : Int) ≤ p)
    (hn : (N : Int) ≤ n) (hs : (H : Int) ≤ s) (hc : (c : Int) = c')
    (h : count ≤ P * (N * (H * c))) :
    (count : Int) ≤ p * n * s * c' := by
  subst hc
  have h1 : ((P * (N * (H * c)) : Nat) : Int) ≤ p * n * s * c := by
    push_cast
    have a1 : (0 : Int) ≤ P := Int.natCast_nonneg P
    have a2 : (0 : Int) ≤ N := Int.natCast_nonneg N
    have a3 : (0 : Int) ≤ H := Int.natCast_nonneg H
    have a4 : (0 : Int) ≤ c := Int.natCast_nonneg c
    have e : (P : Int) * (N * (H * c)) = P * N * H * c := by ring
    rw [e]
    have m1 : (P : Int) * N ≤ p * n := mul_le_mul hp hn a2 (le_trans a1 hp)
    have m2 : (P : Int) * N * H ≤ p * n * s :=
      mul_le_mul m1 hs a3 (le_trans (mul_nonneg a1 a2) m1)
    exact mul_le_mul_of_nonneg_right m2 a4
  have h2 : (count : Int) ≤ ((P * (N * (H * c)) : Nat) : Int) := by exact_mod_cast h
  exact le_trans h2 h1

/-- The sub-builders of φ3, φ4 and φ5 store at most `max_implications` implications. -/
theorem implication_buffers_in_bounds (network : TunnelNetwork) (L : Int)
    (hN : 1 ≤ tn_get_num_nodes network) (hL : 0 ≤ L) :
    (impl_count (create_phi_3_trans network L) : Int) ≤
      max_implications_phi_3_trans network L ∧
    (impl_count (create_phi_3_push network L) : Int) ≤
      max_implications_phi_3_push_pop network L ∧
    (impl_count (create_phi_3_pop network L) : Int) ≤
      max_implications_phi_3_push_pop network L ∧
    (impl_count (create_phi_4 network L) : Int) ≤ max_implications_phi_4 L ∧
    (impl_count (create_phi_5_trans network L) : Int) ≤
      max_implications_phi_5_trans network L ∧
    (impl_count (create_phi_5_push network L) : Int) ≤
      max_implications_phi_5_push_pop network L ∧
    (impl_count (create_phi_5_pop network L) : Int) ≤
      max_implications_phi_5_push_pop network L := by
  have hs := get_stack_size_pos L hL
  have p0 : ((int_range 0 L).length : Int) ≤ L := by
    rw [int_range_length]
    omega
  have p1 : ((int_range 0 (L + 1)).length : Int) ≤ L + 1 := by
    rw [int_range_length]
    omega
  have n0 : ((int_range 0 (tn_get_num_nodes network)).length : Int) ≤
      tn_get_num_nodes network := by
    rw [int_range_length]
    omega
  have s0 : ((int_range 0 (get_stack_size L)).length : Int) ≤ get_stack_size L := by
    rw [int_range_length]
    omega
  have s1 : ((int_range 0 (get_stack_size L - 1)).length : Int) ≤ get_stack_size L := by
    rw [int_range_length]
    omega
  have s2 : ((int_range 1 (get_stack_size L)).length : Int) ≤ get_stack_size L := by
    rw [int_range_length]
    omega
  refine ⟨?_, ?_, ?_, ?_, ?_, ?_, ?_⟩
  · unfold impl_count create_phi_3_trans max_implications_phi_3_trans
    rw [stored_conjunction_or_true]
    refine capacity_bound _ _ _ _ 2 _ _ _ 2 p0 n0 s0 rfl ?_
    exact nested_count_le _ _ _ protocol_range _ fun pos node height p =>
      unless_length_le _ _ 1 (unless_zero_length_le _ _)
  · unfold impl_count create_phi_3_push max_implications_phi_3_push_pop
    rw [stored_conjunction_or_true]
    refine capacity_bound _ _ _ _ 4 _ _ _ 4 p0 n0 s1 rfl ?_
    exact nested_count_le_pairs _ _ _ _ fun pos node height pa pb =>
      unless_length_le _ _ 1 (unless_zero_length_le _ _)
  · unfold impl_count create_phi_3_pop max_implications_phi_3_push_pop
    rw [stored_conjunction_or_true]
    refine capacity_bound _ _ _ _ 4 _ _ _ 4 p0 n0 s2 rfl ?_
    exact nested_count_le_pairs _ _ _ _ fun pos node height pa pb =>
      unless_length_le _ _ 1 (unless_zero_length_le _ _)
  · unfold impl_count create_phi_4 max_implications_phi_4
    have h2 : (((int_range 0 (L + 1)).length * (int_range 0 (get_stack_size L)).length
        : Nat) : Int) ≤ (L + 1) * get_stack_size L := by
      push_cast
      exact mul_le_mul p1 s0 (Int.natCast_nonneg _) (by omega)
    refine le_trans (Int.ofNat_le.2 ?_) h2
    change List.length (List.flatMap _ _) ≤ _
    apply length_flatMap_le
    intro pos _
    simp
  · unfold impl_count create_phi_5_trans max_implications_phi_5_trans
    rw [stored_conjunction_or_true]
    refine capacity_bound _ _ _ _ 2 _ _ _ 2 p1 n0 s0 rfl ?_
    exact nested_count_le _ _ _ protocol_range _ fun pos node height p =>
      unless_length_le _ _ 1 (le_refl 1)
  · unfold impl_count create_phi_5_push max_implications_phi_5_push_pop
    rw [stored_conjunction_or_true]
    refine capacity_bound _ _ _ _ 4 _ _ _ 4 p1 n0 s0 rfl ?_
    exact nested_count_le_pairs _ _ _ _ fun pos node height pa pb =>
      unless_length_le _ _ 1 (le_refl 1)
  · unfold impl_count create_phi_5_pop max_implications_phi_5_push_pop
    rw [stored_conjunction_or_true]
    refine capacity_bound _ _ _ _ 4 _ _ _ 4 p1 n0 s2 rfl ?_
    exact nested_count_le_pairs _ _ _ _ fun pos node height pa pb =>
      unless_length_le _ _ 1 (le_refl 1)

/-- C29 (the claim fails on the code): the three parts of φ6 declare
`max_implications = length * num_nodes * stack_size * 2`.  On `identity_network` with
`L = 0` the capacity is 0 and `create_phi_6_trans`, whose loop on `pos` runs up to `L`
included, stores one implication.  On `full_network` with `L = 4` the capacity is 24
and `create_phi_6_trans` stores 30 implications, `create_phi_6_push` and
`create_phi_6_pop`, which try four pairs of protocols per height, 32 each. -/
theorem implication_buffer_overflow :
    max_implications_phi_6 identity_network 0 = 0 ∧
    impl_count (create_phi_6_trans identity_network 0) = 1 ∧
    max_implications_phi_6 full_network 4 = 24 ∧
    impl_count (create_phi_6_trans full_network 4) = 30 ∧
    impl_count (create_phi_6_push full_network 4) = 32 ∧
    impl_count (create_phi_6_pop full_network 4) = 32 := by
  refine ⟨by decide, by decide, by decide, by decide, by decide, by decide⟩

/-- As soon as a node supports a decapsulation and `L ≥ 2`, `create_phi_3_pop` writes
index 2 of `premise_parts`, declared with length 2. -/
theorem premise_parts_write_past_end (network : TunnelNetwork) (L : Int) (hL : 2 ≤ L)
    (u : Int) (hu : 0 ≤ u ∧ u < tn_get_num_nodes network) (A B : protocol)
    (hact : tn_node_has_action network u (pop_tag A B) = true) :
    (⟨2, 2⟩ : array_write) ∈ premise_parts_writes network L := by
  have hs := get_stack_size_eq L (by omega)
  unfold premise_parts_writes
  simp only [List.mem_flatMap, mem_int_range, mem_protocol_range]
  refine ⟨0, ⟨le_refl 0, by omega⟩, u, hu, 1, ⟨le_refl 1, by omega⟩, _, proto_int_cases A,
    _, proto_int_cases B, ?_⟩
  rw [mem_unless, ← pop_tag_eq]
  exact ⟨hact, by simp⟩

/-- As soon as a node supports a decapsulation and `L ≥ 4`, `create_phi_6_pop` writes,
for every height `h ≥ 2` of its loop, index `h` of a `cell_preservations` declared with
length `h`. -/
theorem cell_preservations_write_past_end (network : TunnelNetwork) (L : Int)
    (hL : 4 ≤ L) (u : Int) (hu : 0 ≤ u ∧ u < tn_get_num_nodes network) (A B : protocol)
    (hact : tn_node_has_action network u (pop_tag A B) = true) (h : Int)
    (hh : 2 ≤ h ∧ h < get_stack_size L) :
    (⟨h, h⟩ : array_write) ∈ cell_preservations_writes network L := by
  unfold cell_preservations_writes
  simp only [List.mem_flatMap, mem_int_range, mem_protocol_range]
  refine ⟨0, ⟨le_refl 0, by omega⟩, u, hu, h, ⟨by omega, hh.2⟩, _, proto_int_cases A,
    _, proto_int_cases B, ?_⟩
  rw [mem_unless, ← pop_tag_eq]
  refine ⟨hact, ?_⟩
  rw [if_neg (by omega), List.mem_map]
  exact ⟨h, (mem_int_range _ _ _).2 ⟨by omega, by omega⟩, rfl⟩

/-- Every write into `cell_preservations` of `create_phi_6_pop` is at an index from 0 to
the declared length included. -/
theorem cell_preservations_write_range (network : TunnelNetwork) (L : Int)
    (w : array_write) (hw : w ∈ cell_preservations_writes network L) :
    2 ≤ w.declared_length ∧ 0 ≤ w.index ∧ w.index ≤ w.declared_length := by
  unfold cell_preservations_writes at hw
  simp only [List.mem_flatMap, mem_int_range, mem_protocol_range] at hw
  obtain ⟨_, _, _, _, h, hh, _, _, _, _, hw⟩ := hw
  rw [mem_unless] at hw
  obtain ⟨_, hw⟩ := hw
  by_cases h1 : h = 1
  · rw [if_pos h1] at hw
    exact absurd hw (List.not_mem_nil _)
  · rw [if_neg h1, List.mem_map] at hw
    obtain ⟨cell, hcell, rfl⟩ := hw
    rw [mem_int_range] at hcell
    refine ⟨?_, hcell.1, ?_⟩
    · show 2 ≤ h
      omega
    · show cell ≤ h
      omega

/-- C30 (the claim fails on the code): on the tunnel network of scenario 3 with
`L = 3`, `create_phi_3_pop` writes index 2 of `premise_parts`, declared with length 2;
on `full_network` with `L = 4`, `create_phi_6_pop` writes index 2 of a
`cell_preservations` declared with length 2. -/
theorem scratch_array_overflow :
    (⟨2, 2⟩ : array_write) ∈ premise_parts_writes tunnel_network 3 ∧
    (⟨2, 2⟩ : array_write) ∈ cell_preservations_writes full_network 4 := by
  refine ⟨by decide, by decide⟩

/-! ## The obligations of a path are necessary -/

/-- At a hop of a model from the occupied pair `(u, h)` to the occupied pair `(v, h')`,
every action that `u` supports and that is applicable at `h`, when `u` has an
out-neighbour, maps the stack read at `i` to the stack read at `i + 1`. -/
theorem supported_action_applies (network : TunnelNetwork) (L : Int) (M : Z3_model)
    (hM : eval M (tn_reduction network L) = true)
    (i : Int) (hi : 0 ≤ i ∧ i < L) (u h v h' : Int)
    (ho : occupied network L M i u h) (ho' : occupied network L M (i + 1) v h')
    (hnb : has_neighbor network u) (a : stack_action)
    (hact : tn_node_has_action network u a = true) (happ : action_applicable L h a) :
    apply_action a (stack_of M i h) = some (stack_of M (i + 1) h') := by
  obtain ⟨h1, _, h3, h4, h5, h6⟩ := (eval_tn_reduction M network L).1 hM
  obtain ⟨h3t, h3u, h3o⟩ := (eval_create_phi_3 M network L).1 h3
  obtain ⟨h5t, h5u, h5o⟩ := (eval_create_phi_5 M network L).1 h5
  obtain ⟨h6t, h6u, h6o⟩ := (eval_create_phi_6 M network L).1 h6
  have hi' : 0 ≤ i ∧ i < L + 1 := ⟨hi.1, by omega⟩
  have hxor := fun k hk => cell_xor network L M h4 i ⟨hi.1, by omega⟩ u h ho k hk
  have hxor' := fun k hk =>
    cell_xor network L M h4 (i + 1) ⟨by omega, by omega⟩ v h' ho' k hk
  have hhr : 0 ≤ h ∧ h < get_stack_size L := ho.2.1
  rcases action_forms a with ⟨p, hp, rfl⟩ | ⟨pa, pb, hpa, hpb, rfl⟩ | ⟨pa, pb, hpa, hpb, rfl⟩
  · have hy := (eval_create_phi_5_trans M network L).1 h5t i hi' u ho.1 h ho.2.1 p hp hact
      ho.2.2
    obtain ⟨w, hw, _, hxw⟩ := (eval_create_phi_3_trans M network L).1 h3t i hi u ho.1 h
      ho.2.1 p hp hact hnb ho.2.2 hy
    obtain ⟨hv, hh⟩ := occupied_eq network L M h1 (i + 1) ⟨by omega, by omega⟩ v h' w h ho'
      ⟨hw, ho.2.1, hxw⟩
    subst hv hh
    have hpres := (eval_create_phi_6_trans M network L).1 h6t i hi' u ho.1 h ho.2.1 p hp
      hact ho.2.2
    have hprot := protocol_at_of_y_val M p i h hp (hxor h ⟨ho.2.1.1, le_refl _⟩) hy
    rw [transmit_form, apply_transmit_tag, do_transmit, stack_of_getLast M i h ho.2.1.1,
      hprot, if_pos rfl, stack_of_congr M i (i + 1) h fun k hk => (hpres k hk).1]
  · have hlt := (applicable_push L h pa pb hpa hpb).1 happ
    have hy := (eval_create_phi_5_push M network L).1 h5u i hi' u ho.1 h ho.2.1 pa hpa pb
      hpb hact ho.2.2
    obtain ⟨w, hw, _, hxw, hyw⟩ := (eval_create_phi_3_push M network L).1 h3u i hi u
      ho.1 h ⟨ho.2.1.1, hlt⟩ pa hpa pb hpb hact hnb ho.2.2 hy
    obtain ⟨hv, hh⟩ := occupied_eq network L M h1 (i + 1) ⟨by omega, by omega⟩ v h' w
      (h + 1) ho' ⟨hw, ⟨by omega, by omega⟩, hxw⟩
    subst hv hh
    have hpres := (eval_create_phi_6_push M network L).1 h6u i hi u ho.1 h
      ⟨ho.2.1.1, hlt⟩ pa hpa pb hpb hact ho.2.2
    have hprot := protocol_at_of_y_val M pa i h hpa (hxor h ⟨ho.2.1.1, le_refl _⟩) hy
    have hprot' := protocol_at_of_y_val M pb (i + 1) (h + 1) hpb
      (hxor' (h + 1) ⟨by omega, le_refl _⟩) hyw
    rw [push_form pa pb hpa hpb, apply_push_tag, do_push, stack_of_getLast M i h ho.2.1.1,
      hprot, if_pos rfl, stack_of_succ M (i + 1) h (by omega), hprot',
      stack_of_congr M i (i + 1) h fun k hk => (hpres k hk).1]
  · have hge := (applicable_pop L h pa pb hpa hpb).1 happ
    obtain ⟨hyb, hya⟩ := (eval_create_phi_5_pop M network L).1 h5o i hi' u ho.1 h
      ⟨hge, ho.2.1.2⟩ pa hpa pb hpb hact ho.2.2
    obtain ⟨w, hw, _, hxw⟩ := (eval_create_phi_3_pop M network L).1 h3o i hi u
      ho.1 h ⟨hge, ho.2.1.2⟩ pa hpa pb hpb hact hnb ho.2.2 hyb hya
    obtain ⟨hv, hh⟩ := occupied_eq network L M h1 (i + 1) ⟨by omega, by omega⟩ v h' w
      (h - 1) ho' ⟨hw, ⟨by omega, by omega⟩, hxw⟩
    subst hv hh
    have hpres := (eval_create_phi_6_pop M network L).1 h6o i hi u ho.1 h
      ⟨hge, ho.2.1.2⟩ pa hpa pb hpb hact ho.2.2
    have hprot := protocol_at_of_y_val M pb i h hpb (hxor h ⟨ho.2.1.1, le_refl _⟩) hyb
    have hprot' := protocol_at_of_y_val M pa i (h - 1) hpa
      (hxor (h - 1) ⟨by omega, by omega⟩) hya
    rw [pop_form pa pb hpa hpb, apply_pop_tag, do_pop, stack_of_getLast M i h ho.2.1.1,
      stack_of_dropLast M i h ho.2.1.1, stack_of_getLast M i (h - 1) (by omega), hprot,
      hprot', if_pos ⟨rfl, rfl⟩]
    congr 1
    apply stack_of_congr
    intro k hk
    exact (hpres k ⟨hk.1, by omega⟩).1
/-- A model of the reduction that decodes to a valid path occupies, at every position,
the node of the path at the top of the stack of the path, and reads that stack. -/
theorem model_follows_path (action_0 : stack_action) (network : TunnelNetwork) (L : Int)
    (P : List tn_step) (hP : valid_tunnel_path network L P) (M : Z3_model)
    (hM : eval M (tn_reduction network L) = true)
    (hdec : tn_get_path_from_model action_0 M network L = P) (n : Nat)
    (hn : n ≤ P.length) :
    occupied network L M n (node_at (tn_get_initial network) P n)
        (((stack_after (P.map tn_step.action) n).length : Int) - 1) ∧
      stack_of M n (((stack_after (P.map tn_step.action) n).length : Int) - 1) =
        stack_after (P.map tn_step.action) n := by
  have hLen : (P.length : Int) = L := hP.1
  have hL : (0 : Int) ≤ L := by omega
  induction n with
  | zero =>
    rw [node_at_zero, stack_after_zero]
    exact ⟨occupied_source network L M hL hP.2.1 hM, stack_of_source network L M hM⟩
  | succ n ih =>
    obtain ⟨ho, hs⟩ := ih (by omega)
    obtain ⟨a, ha, hr, hedge, hact, happ⟩ := valid_path_step network L P hP n (by omega)
    have hb := valid_path_stack_range network L P hP n
    have hb' := valid_path_stack_range network L P hP (n + 1)
    have hen : hop_enabled network L (node_at (tn_get_initial network) P n)
        (((stack_after (P.map tn_step.action) n).length : Int) - 1) := by
      refine ⟨⟨_, hr, hedge⟩, a, hact, ?_⟩
      rcases action_forms a with ⟨p, hp, rfl⟩ | ⟨pa, pb, hpa, hpb, rfl⟩ |
        ⟨pa, pb, hpa, hpb, rfl⟩
      · split <;> trivial
      · rw [applicable_push L _ pa pb hpa hpb]
        rw [push_form pa pb hpa hpb, apply_push_tag, do_push_some] at happ
        have := congrArg List.length happ.2
        simp only [List.length_append, List.length_singleton] at this
        omega
      · rw [applicable_pop L _ pa pb hpa hpb]
        rw [pop_form pa pb hpa hpb, apply_pop_tag, do_pop_some] at happ
        have := congrArg List.length happ.2.2
        simp only [List.length_dropLast] at this
        omega
    obtain ⟨a', v, h', t, ho', hst, hh, hd, _, _, happ'⟩ :=
      forced_hop action_0 network L M hM n ((n + 1 : Nat) : Int) n ⟨by omega, by omega⟩
        (by push_cast; rfl) (by simp) _ _ _ ho hs hen
    rw [hdec, ha] at hd
    have hstep := Option.some.inj hd
    have ea : a = a' := congrArg tn_step.action hstep
    have ev : node_at (tn_get_initial network) P (n + 1) = v := congrArg tn_step.tgt hstep
    subst ea
    have et := apply_action_eq _ _ _ _ happ happ'
    rw [← et] at hst hh
    rw [ev, ← hh]
    exact ⟨ho', hst⟩

/-- The obligations are necessary: a valid path that some model of the reduction decodes
to meets its obligations. -/
theorem obligations_necessary (action_0 : stack_action) (network : TunnelNetwork)
    (L : Int) (P : List tn_step) (hP : valid_tunnel_path network L P) (M : Z3_model)
    (hM : eval M (tn_reduction network L) = true)
    (hdec : tn_get_path_from_model action_0 M network L = P) :
    obligations_met network L P := by
  have hLen : (P.length : Int) = L := hP.1
  have hL : (0 : Int) ≤ L := by omega
  obtain ⟨_, h2, _, h4, h5, _⟩ := (eval_tn_reduction M network L).1 hM
  have hdest : ∀ b, demanded_top 0 b = some P6 →
      tn_node_has_action network (tn_get_final network) b = false := by
    intro b hdb
    cases hb : tn_node_has_action network (tn_get_final network) b with
    | false => rfl
    | true =>
      exfalso
      have hod := occupied_destination network L M hL hP.2.2.1 hM
      have y6 : y6_val M L 0 = true :=
        phi_5_demand network L M h5 L ⟨hL, le_refl L⟩ _ 0 hod.1 hod.2.1 hod.2.2 b hb P6 hdb
      have y4 : y4_val M L 0 = true := ((eval_create_phi_2 M network L).1 h2).2.2.2
      have hxor := cell_xor network L M h4 L ⟨hL, le_refl L⟩ _ 0 hod 0 ⟨le_refl 0, le_refl 0⟩
      rw [y4, y6] at hxor
      exact Bool.noConfusion hxor
  refine ⟨?_, hdest transmit_6 rfl, hdest push_6_4 rfl, hdest push_6_6 rfl⟩
  intro n s hs b hb
  have hn : n < P.length := by
    by_contra hge
    rw [List.getElem?_eq_none (by omega)] at hs
    exact Option.noConfusion hs
  obtain ⟨a, ha, hr, hedge, hact, happ⟩ := valid_path_step network L P hP n hn
  rw [ha] at hs
  have hse := Option.some.inj hs
  subst hse
  obtain ⟨ho, hst⟩ := model_follows_path action_0 network L P hP M hM hdec n (by omega)
  obtain ⟨ho', hst'⟩ := model_follows_path action_0 network L P hP M hM hdec (n + 1)
    (by omega)
  have hcast : ((n + 1 : Nat) : Int) = (n : Int) + 1 := by push_cast; rfl
  rw [hcast] at ho' hst'
  have hnb : has_neighbor network (node_at (tn_get_initial network) P n) :=
    ⟨_, hr, hedge⟩
  have hb1 := valid_path_stack_range network L P hP n
  by_cases happl : action_applicable L
      (((stack_after (P.map tn_step.action) n).length : Int) - 1) b
  · left
    have := supported_action_applies network L M hM n ⟨by omega, by omega⟩ _ _ _ _ ho ho'
      hnb b hb happl
    rw [hst, hst'] at this
    exact apply_action_inj b a _ _ this happ
  · right
    rcases action_forms b with ⟨p, hp, rfl⟩ | ⟨pa, pb, hpa, hpb, rfl⟩ |
      ⟨pa, pb, hpa, hpb, rfl⟩
    · exfalso
      apply happl
      split <;> trivial
    · rw [applicable_push L _ pa pb hpa hpb] at happl
      rw [asks_nothing_push L _ pa pb hpa hpb]
      refine ⟨?_, by omega⟩
      have hy := (eval_create_phi_5_push M network L).1
        ((eval_create_phi_5 M network L).1 h5).2.1 n ⟨by omega, by omega⟩ _ ho.1 _ ho.2.1
        pa hpa pb hpb hb ho.2.2
      have hxor := cell_xor network L M h4 n ⟨by omega, by omega⟩ _ _ ho _
        ⟨ho.2.1.1, le_refl _⟩
      have hprot := protocol_at_of_y_val M pa n _ hpa hxor hy
      rw [← hst, stack_of_getLast M n _ ho.2.1.1, hprot]
    · rw [applicable_pop L _ pa pb hpa hpb] at happl
      rw [asks_nothing_pop L _ pa pb hpa hpb]
      omega

end TunnelReduction
